import Mathlib

/-!
# PathFind: maze loader, walker and path printer

A shallow embedding of `src/PathFind/PathFind/main.cpp`.

Modelling conventions.

* `int` is `Int`. Signed overflow is undefined in C++, so the embedding describes
  runs in which no `int` computation overflows.
* `std::string` and the input stream are `List Char`; `std::vector<T>` is `List T`.
* `v[i]` on a vector is only defined for `0 <= i < v.size()`. Every vector access
  goes through `vec_at` / `vec_set`, which give `none` outside that range, and the
  function performing the access then reports `out_of_range`.
* The `while` loop of `compute_path` has no bound. `compute_path_loop` takes the
  number of loop iterations it may still run and reports `out_of_fuel` when that
  number is used up before the loop condition fails.
-/

namespace PathFind

/-! ## Data model -/

/-- A coordinate, `struct point_t { int x, y; }`. -/
structure point_t where
  x : Int
  y : Int
deriving DecidableEq, Repr

/-- The cell states, `enum cell_t { empty, wall }`. -/
inductive cell_t where
  | empty
  | wall
deriving DecidableEq, Repr

/-- The maze, `struct grid_t`. -/
structure grid_t where
  width : Int
  height : Int
  cells : List cell_t
  start : point_t
  target : point_t
deriving DecidableEq, Repr

/-- Row-major address of a point, `grid_t::index_of`. -/
def grid_t.index_of (grid : grid_t) (point : point_t) : Int :=
  point.x + point.y * grid.width

/-! ## Vector access -/

/-- Reading `v[i]`: defined only for `0 <= i < v.size()`. -/
def vec_at {α : Type} (v : List α) (i : Int) : Option α :=
  if 0 ≤ i then v.get? i.toNat else none

/-- Writing `v[i] = a`: defined only for `0 <= i < v.size()`. -/
def vec_set {α : Type} (v : List α) (i : Int) (a : α) : Option (List α) :=
  if 0 ≤ i ∧ i.toNat < v.length then some (v.set i.toNat a) else none

/-- The call `v.resize(n, a)` for `n >= 0`: truncate, or pad with copies of `a`. -/
def vec_resize {α : Type} (v : List α) (n : Nat) (a : α) : List α :=
  v.take n ++ List.replicate (n - v.length) a

/-! ## compute_path -/

/-- The table `directions` of `compute_path`: Right, Down, Left, Up. -/
def directions : List point_t :=
  [⟨1, 0⟩, ⟨0, 1⟩, ⟨-1, 0⟩, ⟨0, -1⟩]

/-- The local variables of `compute_path` that live across loop iterations. -/
structure walker_t where
  currentPosition : point_t
  currentDirection : Int
  path : List point_t
deriving DecidableEq, Repr

/-- The loop condition of `compute_path`. -/
def not_at_target (grid : grid_t) (w : walker_t) : Bool :=
  decide (w.currentPosition.x ≠ grid.target.x) || decide (w.currentPosition.y ≠ grid.target.y)

/-- One execution of the loop body of `compute_path`; `none` when a vector or the
direction table is indexed out of range. -/
def compute_path_step (grid : grid_t) (w : walker_t) : Option walker_t :=
  match vec_at directions w.currentDirection with
  | none => none
  | some d =>
    let newPosition : point_t := ⟨w.currentPosition.x + d.x, w.currentPosition.y + d.y⟩
    let newPositionIndex := grid.index_of newPosition
    match vec_at grid.cells newPositionIndex with
    | none => none
    | some cell_t.wall =>
      let leftDirection := ((w.currentDirection - 1) + 4) % 4
      let rightDirection := (w.currentDirection + 1) % 4
      match vec_at directions leftDirection with
      | none => none
      | some l =>
        let leftOfCurrentPosition : point_t :=
          ⟨w.currentPosition.x + l.x, w.currentPosition.y + l.y⟩
        let leftOfCurrentPositionIndex := grid.index_of leftOfCurrentPosition
        match vec_at grid.cells leftOfCurrentPositionIndex with
        | none => none
        | some cell_t.wall => some { w with currentDirection := rightDirection }
        | some cell_t.empty => some { w with currentDirection := leftDirection }
    | some cell_t.empty =>
      some { currentPosition := newPosition
             currentDirection := w.currentDirection
             path := w.path ++ [⟨newPosition.x, newPosition.y⟩] }

/-- How a call of `compute_path` ends. -/
inductive path_result where
  | returned (path : List point_t)
  | out_of_range
  | out_of_fuel
deriving DecidableEq, Repr

/-- The `while` loop of `compute_path`, run for at most `fuel` iterations. -/
def compute_path_loop (grid : grid_t) : Nat → walker_t → path_result
  | fuel, w =>
    if not_at_target grid w then
      match fuel with
      | 0 => path_result.out_of_fuel
      | n + 1 =>
        match compute_path_step grid w with
        | none => path_result.out_of_range
        | some w' => compute_path_loop grid n w'
    else path_result.returned w.path

/-- The state of `compute_path` when the loop is entered. -/
def compute_path_init (grid : grid_t) : walker_t :=
  { currentPosition := grid.start
    currentDirection := 0
    path := [⟨grid.start.x, grid.start.y⟩] }

/-- The function `compute_path`, its loop limited to `fuel` iterations. -/
def compute_path (grid : grid_t) (fuel : Nat) : path_result :=
  compute_path_loop grid fuel (compute_path_init grid)

/-! ## read_lines and read_grid -/

/-- The characters of a stream up to its first line feed, and what follows that
line feed (nothing when the stream ends first). -/
def getline_split : List Char → List Char × List Char
  | [] => ([], [])
  | c :: cs =>
    if c = '\n' then ([], cs)
    else ((getline_split cs).1.cons c, (getline_split cs).2)

/-- The call `std::getline(is, line)`: `none` when the stream is already exhausted
(the call fails and the loop of `read_lines` stops), otherwise the line read and
the rest of the stream. -/
def getline (is : List Char) : Option (List Char × List Char) :=
  match is with
  | [] => none
  | _ :: _ => some (getline_split is)

/-- The `do ... while (std::getline(...))` loop of `read_lines`; `fuel` bounds the
number of `getline` calls. -/
def read_lines_loop : Nat → List Char → List (List Char)
  | 0, _ => []
  | fuel + 1, is =>
    match getline is with
    | none => []
    | some (line, rest) => line :: read_lines_loop fuel rest

/-- The function `read_lines`. Every successful `getline` consumes a character, so
`is.length + 1` calls always reach the failing one. -/
def read_lines (is : List Char) : List (List Char) :=
  read_lines_loop (is.length + 1) is

/-- Why `read_grid` returns `false`: the `default` branch of its `switch`, with the
coordinate written to the diagnostic stream, or a vector write out of range. -/
inductive read_error where
  | invalid_character (point : point_t)
  | out_of_range
deriving DecidableEq, Repr

/-- What a call of `read_grid` leaves: the loaded grid (return value `true`) or
the reason for returning `false`. -/
inductive read_result where
  | ok (grid : grid_t)
  | failed (e : read_error)
deriving DecidableEq, Repr

/-- The assignment `grid.cells[grid_index] = cell` of `read_grid`, followed by
`continue_with` on the updated grid. -/
def store_cell (grid : grid_t) (grid_index : Int) (cell : cell_t)
    (continue_with : grid_t → read_result) : read_result :=
  match vec_set grid.cells grid_index cell with
  | none => read_result.failed read_error.out_of_range
  | some cells => continue_with { grid with cells := cells }

/-- The inner loop of `read_grid` over the characters of line `y`, from column `x`. -/
def read_grid_row (y : Int) : List Char → Int → grid_t → read_result
  | [], _, grid => read_result.ok grid
  | c :: cs, x, grid =>
    let grid_index := grid.index_of ⟨x, y⟩
    if c = '#' then
      store_cell grid grid_index cell_t.wall fun g => read_grid_row y cs (x + 1) g
    else if c = ' ' then
      store_cell grid grid_index cell_t.empty fun g => read_grid_row y cs (x + 1) g
    else if c = 's' then
      store_cell grid grid_index cell_t.empty fun g =>
        read_grid_row y cs (x + 1) { g with start := ⟨x, y⟩ }
    else if c = 't' then
      store_cell grid grid_index cell_t.empty fun g =>
        read_grid_row y cs (x + 1) { g with target := ⟨x, y⟩ }
    else read_result.failed (read_error.invalid_character ⟨x, y⟩)

/-- The outer loop of `read_grid` over the lines, from row `y`. -/
def read_grid_rows : List (List Char) → Int → grid_t → read_result
  | [], _, grid => read_result.ok grid
  | line :: rest, y, grid =>
    match read_grid_row y line 0 grid with
    | read_result.failed e => read_result.failed e
    | read_result.ok grid' => read_grid_rows rest (y + 1) grid'

/-- The width computed by `std::accumulate` in `read_grid`. -/
def max_line_size (lines : List (List Char)) : Int :=
  lines.foldl (fun (width : Int) line => max width (line.length : Int)) 0

/-- The function `read_grid`; `grid` is the caller's object that it fills in. -/
def read_grid (is : List Char) (grid : grid_t) : read_result :=
  let lines := read_lines is
  let height : Int := lines.length
  let width : Int := max_line_size lines
  read_grid_rows lines 0
    { grid with
      height := height
      width := width
      cells := vec_resize grid.cells (width * height).toNat cell_t.empty }

/-! ## compute_intersections and print_path -/

namespace intersection_t

/-- Flag `up` of `intersection_t`. -/
def up : Nat := 1
/-- Flag `left` of `intersection_t`. -/
def left : Nat := 2
/-- Flag `right` of `intersection_t`. -/
def right : Nat := 4
/-- Flag `down` of `intersection_t`. -/
def down : Nat := 8
/-- Flag `visited` of `intersection_t`. -/
def visited : Nat := 16

end intersection_t

/-- The statement `intersections[i].value |= flag`. -/
def vec_or (intersections : List Nat) (i : Int) (flag : Nat) : Option (List Nat) :=
  match vec_at intersections i with
  | none => none
  | some value => vec_set intersections i (value ||| flag)

/-- The two statements of one branch of `compute_intersections`:
`intersections[i].value |= fi; intersections[j].value |= fj;`. -/
def vec_or_pair (intersections : List Nat) (i : Int) (fi : Nat) (j : Int) (fj : Nat) :
    Option (List Nat) :=
  match vec_or intersections i fi with
  | none => none
  | some marked => vec_or marked j fj

/-- The `if` / `else if` chain of the loop body of `compute_intersections`: links
the cell at `grid_index` to the cell visited before it when the two are adjacent. -/
def link_previous (grid : grid_t) (point : point_t) (intersections : List Nat)
    (grid_index prev_grid_index : Int) : Option (List Nat) :=
  if grid_index = prev_grid_index - grid.width then
    vec_or_pair intersections grid_index intersection_t.down
      prev_grid_index intersection_t.up
  else if grid_index = prev_grid_index - 1 ∧ point.x < grid.width - 1 then
    vec_or_pair intersections grid_index intersection_t.right
      prev_grid_index intersection_t.left
  else if grid_index = prev_grid_index + 1 ∧ point.x > 0 then
    vec_or_pair intersections grid_index intersection_t.left
      prev_grid_index intersection_t.right
  else if grid_index = prev_grid_index + grid.width then
    vec_or_pair intersections grid_index intersection_t.up
      prev_grid_index intersection_t.down
  else some intersections

/-- The test `inside_grid` of `compute_intersections`. -/
def inside_grid_test (grid : grid_t) (point : point_t) : Bool :=
  decide (0 ≤ point.x) && decide (point.x < grid.width) &&
    decide (0 ≤ point.y) && decide (point.y < grid.height)

/-- The loop of `compute_intersections` over the remaining path points. -/
def compute_intersections_loop (grid : grid_t) :
    List point_t → List Nat → Int → Option (List Nat)
  | [], intersections, _ => some intersections
  | point :: rest, intersections, prev_grid_index =>
    if !inside_grid_test grid point then
      compute_intersections_loop grid rest intersections (-(grid.width + 1))
    else
      let grid_index := grid.index_of point
      match vec_set intersections grid_index intersection_t.visited with
      | none => none
      | some marked =>
        match link_previous grid point marked grid_index prev_grid_index with
        | none => none
        | some linked => compute_intersections_loop grid rest linked grid_index

/-- The function `compute_intersections`; `none` when the vector cannot be built
(negative size) or is indexed out of range. -/
def compute_intersections (grid : grid_t) (path : List point_t) : Option (List Nat) :=
  if grid.width * grid.height < 0 then none
  else
    compute_intersections_loop grid path
      (List.replicate (grid.width * grid.height).toNat 0) (-(grid.width + 1))

/-- The table `intersection_graphics` of `print_path`. -/
def intersection_graphics : List Char :=
  [' ', '?', '?', '?',
   '?', '?', '?', '?',
   '?', '?', '?', '?',
   '?', '?', '?', '?',
   'o', '|', '-', '/',
   '-', '\\', '-', '?',
   '|', '|', '\\', '?',
   '/', '?', '?', '?']

/-- The body of the inner loop of `print_path`: the character written for cell
`(x, y)`, or `none` when a vector or the table is indexed out of range. -/
def print_cell (grid : grid_t) (intersections : List Nat) (x y : Int) : Option Char :=
  let grid_index := grid.index_of ⟨x, y⟩
  match vec_at grid.cells grid_index with
  | none => none
  | some cell_t.empty =>
    if grid.start.x = x ∧ grid.start.y = y then some 's'
    else if grid.target.x = x ∧ grid.target.y = y then some 't'
    else
      match vec_at intersections grid_index with
      | none => none
      | some value => vec_at intersection_graphics value
  | some cell_t.wall =>
    match vec_at intersections grid_index with
    | none => none
    | some value => some (if value = 0 then '#' else 'X')

/-- The inner loop of `print_path`: `n` more columns of row `y`, from column `x`,
then the line feed. -/
def print_row (grid : grid_t) (intersections : List Nat) (y : Int) :
    Nat → Int → Option (List Char)
  | 0, _ => some ['\n']
  | n + 1, x =>
    match print_cell grid intersections x y with
    | none => none
    | some c =>
      match print_row grid intersections y n (x + 1) with
      | none => none
      | some cs => some (c :: cs)

/-- The outer loop of `print_path`: `n` more rows, from row `y`. -/
def print_rows (grid : grid_t) (intersections : List Nat) :
    Nat → Int → Option (List Char)
  | 0, _ => some []
  | n + 1, y =>
    match print_row grid intersections y grid.width.toNat 0 with
    | none => none
    | some row =>
      match print_rows grid intersections n (y + 1) with
      | none => none
      | some rows => some (row ++ rows)

/-- The function `print_path`: the characters written to `os`, or `none` when a
vector is indexed out of range. -/
def print_path (grid : grid_t) (path : List point_t) : Option (List Char) :=
  match compute_intersections grid path with
  | none => none
  | some intersections => print_rows grid intersections grid.height.toNat 0

/-! ## Predicates and sample mazes used by the theorems -/

/-- The bookkeeping invariant of the loop of `compute_path`: the path starts at
`first` and ends at the walker's position. -/
def path_tracks (first : point_t) (w : walker_t) : Prop :=
  w.path.head? = some first ∧ w.path.getLast? = some w.currentPosition

/-- The maze `s t` of one row, as `read_grid` loads it. -/
def grid_s_t : grid_t :=
  { width := 3, height := 1
    cells := [cell_t.empty, cell_t.empty, cell_t.empty]
    start := ⟨0, 0⟩, target := ⟨2, 0⟩ }

/-- The point lies inside the grid. -/
def inside_grid (grid : grid_t) (point : point_t) : Prop :=
  0 ≤ point.x ∧ point.x < grid.width ∧ 0 ≤ point.y ∧ point.y < grid.height

/-- The point lies inside the grid and its cell holds `cell`. -/
def cell_is (grid : grid_t) (point : point_t) (cell : cell_t) : Prop :=
  inside_grid grid point ∧ vec_at grid.cells (grid.index_of point) = some cell

/-- The cell vector has exactly `width * height` entries. -/
def cells_sized (grid : grid_t) : Prop :=
  (grid.cells.length : Int) = grid.width * grid.height

/-- Every cell of the first and last row and of the first and last column is a
wall. -/
def wall_bordered (grid : grid_t) : Prop :=
  ∀ x < grid.width.toNat, ∀ y < grid.height.toNat,
    (x = 0 ∨ x + 1 = grid.width.toNat ∨ y = 0 ∨ y + 1 = grid.height.toNat) →
      vec_at grid.cells (grid.index_of ⟨(x : Int), (y : Int)⟩) = some cell_t.wall

/-- The walker stands on an Empty cell inside the grid and faces one of the four
directions. -/
def walker_inside (grid : grid_t) (w : walker_t) : Prop :=
  cell_is grid w.currentPosition cell_t.empty ∧
    0 ≤ w.currentDirection ∧ w.currentDirection < 4

/-- Two walker states with the same position and facing (the paths may differ). -/
def same_core (w₁ w₂ : walker_t) : Prop :=
  w₁.currentPosition = w₂.currentPosition ∧ w₁.currentDirection = w₂.currentDirection

/-- The loop of `compute_path`, entered in state `w`, returns within `n`
iterations. -/
def returns_in (grid : grid_t) (n : Nat) (w : walker_t) : Prop :=
  ∃ path, compute_path_loop grid n w = path_result.returned path

/-- The loop of `compute_path`, entered in state `w`, returns after exactly `n`
iterations. -/
def returns_exactly (grid : grid_t) (n : Nat) (w : walker_t) : Prop :=
  returns_in grid n w ∧ ∀ m < n, ¬ returns_in grid m w

/-- The characters `read_grid` accepts. -/
def valid_char (c : Char) : Prop :=
  c = '#' ∨ c = ' ' ∨ c = 's' ∨ c = 't'

/-- A maze text: only accepted characters in its lines, exactly one `s` and
exactly one `t`. -/
def valid_maze_text (is : List Char) : Prop :=
  (∀ line ∈ read_lines is, ∀ c ∈ line, valid_char c) ∧
    is.count 's' = 1 ∧ is.count 't' = 1

/-- Orthogonal neighbours. -/
def adjacent (p q : point_t) : Prop :=
  (p.x - q.x).natAbs + (p.y - q.y).natAbs = 1

/-- Neighbours along an edge or a corner. -/
def touching (p q : point_t) : Prop :=
  (p.x - q.x).natAbs ≤ 1 ∧ (p.y - q.y).natAbs ≤ 1

/-- A step of the corridor network: between orthogonally adjacent Empty cells. -/
def corridor_step (grid : grid_t) (p q : point_t) : Prop :=
  cell_is grid p cell_t.empty ∧ cell_is grid q cell_t.empty ∧ adjacent p q

/-- The Empty cells are connected. -/
def corridor_connected (grid : grid_t) : Prop :=
  ∀ p q, cell_is grid p cell_t.empty → cell_is grid q cell_t.empty →
    Relation.ReflTransGen (corridor_step grid) p q

/-- The point lies on the first or last row or column of the grid. -/
def on_border (grid : grid_t) (p : point_t) : Prop :=
  inside_grid grid p ∧
    (p.x = 0 ∨ p.x + 1 = grid.width ∨ p.y = 0 ∨ p.y + 1 = grid.height)

/-- A step between Wall cells that touch along an edge or a corner. -/
def wall_step (grid : grid_t) (p q : point_t) : Prop :=
  cell_is grid p cell_t.wall ∧ cell_is grid q cell_t.wall ∧ touching p q

/-- No isolated wall island: every Wall cell is joined to the border through
Wall cells. -/
def no_wall_island (grid : grid_t) : Prop :=
  ∀ p, cell_is grid p cell_t.wall →
    ∃ b, on_border grid b ∧ Relation.ReflTransGen (wall_step grid) p b

/-- The Empty cells form a simply connected corridor network that contains the
start and the target. -/
def simply_connected_corridors (grid : grid_t) : Prop :=
  corridor_connected grid ∧ no_wall_island grid ∧
    cell_is grid grid.start cell_t.empty ∧ cell_is grid grid.target cell_t.empty

/-- The object `grid_t grid;` of `main` before `read_grid` fills it in: no cells;
its integers, which the program leaves unset, are taken as 0. -/
def blank_grid : grid_t :=
  { width := 0, height := 0, cells := [], start := ⟨0, 0⟩, target := ⟨0, 0⟩ }

/-- A maze whose corridor is a `T`: the target lies in the stem. -/
def maze_T : List Char :=
  "#####\n#s  #\n##t##\n#####\n".data

/-- The grid `read_grid` loads from `maze_T`. -/
def grid_T : grid_t :=
  { width := 5, height := 4
    cells :=
      [cell_t.wall, cell_t.wall, cell_t.wall, cell_t.wall, cell_t.wall,
       cell_t.wall, cell_t.empty, cell_t.empty, cell_t.empty, cell_t.wall,
       cell_t.wall, cell_t.wall, cell_t.empty, cell_t.wall, cell_t.wall,
       cell_t.wall, cell_t.wall, cell_t.wall, cell_t.wall, cell_t.wall]
    start := ⟨1, 1⟩, target := ⟨2, 2⟩ }

/-- The maze of the specification's tracing example inside a wall border. -/
def maze_corner : List Char :=
  "#####\n#s###\n# t##\n#####\n".data

/-- The grid `read_grid` loads from `maze_corner`. -/
def grid_corner : grid_t :=
  { width := 5, height := 4
    cells :=
      [cell_t.wall, cell_t.wall, cell_t.wall, cell_t.wall, cell_t.wall,
       cell_t.wall, cell_t.empty, cell_t.wall, cell_t.wall, cell_t.wall,
       cell_t.wall, cell_t.empty, cell_t.empty, cell_t.wall, cell_t.wall,
       cell_t.wall, cell_t.wall, cell_t.wall, cell_t.wall, cell_t.wall]
    start := ⟨1, 1⟩, target := ⟨2, 2⟩ }

/-- The maze of the specification's tracing example: three lines, no wall border
on the left and on top. -/
def maze_open : List Char :=
  "s##\n t#\n###".data

/-- The grid `read_grid` loads from `maze_open`. -/
def grid_open : grid_t :=
  { width := 3, height := 3
    cells :=
      [cell_t.empty, cell_t.wall, cell_t.wall,
       cell_t.empty, cell_t.empty, cell_t.wall,
       cell_t.wall, cell_t.wall, cell_t.wall]
    start := ⟨0, 0⟩, target := ⟨1, 1⟩ }

/-- The cell `read_grid` stores for an accepted character. -/
def cell_of_char (c : Char) : cell_t :=
  if c = '#' then cell_t.wall else cell_t.empty

/-- What `read_grid` records for an accepted character besides its cell: the
start for `s`, the target for `t`. -/
def note_marker (c : Char) (point : point_t) (grid : grid_t) : grid_t :=
  if c = 's' then { grid with start := point }
  else if c = 't' then { grid with target := point }
  else grid

/-- The character at column `x` of line `y`, when the text has one there. -/
def char_at (lines : List (List Char)) (x y : Nat) : Option Char :=
  (lines.get? y).bind fun line => line.get? x

/-- A text with a character that is not accepted at column 3 of row 1. -/
def maze_bad : List Char :=
  "####\n#s @\n####\n".data

/-- The intersection vector has one entry per cell, each a five-bit value. -/
def intersections_ok (grid : grid_t) (intersections : List Nat) : Prop :=
  intersections.length = (grid.width * grid.height).toNat ∧ ∀ v ∈ intersections, v < 32

/-- The variable `prev_grid_index` holds its sentinel or a valid index. -/
def prev_ok (grid : grid_t) (prev_grid_index : Int) : Prop :=
  prev_grid_index = -(grid.width + 1) ∨
    (0 ≤ prev_grid_index ∧ prev_grid_index < grid.width * grid.height)

/-- The character `print_path` writes for cell `(x, y)`; a space stands in where
`print_cell` is undefined. -/
def cell_glyph (grid : grid_t) (intersections : List Nat) (x y : Int) : Char :=
  (print_cell grid intersections x y).getD ' '

/-- The glyphs of row `y`, columns `x₀` to `x₀ + n - 1`. -/
def row_glyphs (grid : grid_t) (intersections : List Nat) (y : Int) (n : Nat) (x₀ : Int) :
    List Char :=
  (List.range n).map fun (i : Nat) => cell_glyph grid intersections (x₀ + (i : Int)) y

/-- The rows `y₀` to `y₀ + n - 1` as lists of glyphs, `width` glyphs each. -/
def glyph_rows (grid : grid_t) (intersections : List Nat) (n : Nat) (y₀ : Int) :
    List (List Char) :=
  (List.range n).map fun (j : Nat) =>
    row_glyphs grid intersections (y₀ + (j : Int)) grid.width.toNat 0

/-- The text made of the given lines, each followed by a line feed. -/
def unlines (rows : List (List Char)) : List Char :=
  (rows.map fun row => row ++ ['\n']).flatten

/-- The number of direction flags set in an intersection value. -/
def direction_count (value : Nat) : Nat :=
  (if value &&& intersection_t.up ≠ 0 then 1 else 0) +
    (if value &&& intersection_t.left ≠ 0 then 1 else 0) +
    (if value &&& intersection_t.right ≠ 0 then 1 else 0) +
    (if value &&& intersection_t.down ≠ 0 then 1 else 0)

/-- The entry of `intersection_graphics` for an intersection value. -/
def glyph_of (value : Nat) : Option Char :=
  vec_at intersection_graphics (value : Int)

/-- A grid of two Wall cells whose start and target lie on them. -/
def grid_walled : grid_t :=
  { width := 2, height := 1
    cells := [cell_t.wall, cell_t.wall]
    start := ⟨0, 0⟩, target := ⟨1, 0⟩ }

/-- The straight rightward run `(x, y), (x + 1, y), ..., (x + k, y)`. -/
def rightward_run (x y : Int) : Nat → List point_t
  | 0 => [⟨x, y⟩]
  | k + 1 => ⟨x, y⟩ :: rightward_run (x + 1) y k

/-- The grid `read_grid` leaves when the input has no lines: no columns, no rows,
no cells; start and target are whatever the caller's object held. -/
def empty_grid (grid₀ : grid_t) : grid_t :=
  { grid₀ with width := 0, height := 0, cells := [] }

/-- The direction numbered `d`: 0 is Right, 1 is Down, 2 is Left, 3 is Up. -/
def direction_of (d : Int) : point_t :=
  if d = 0 then ⟨1, 0⟩ else if d = 1 then ⟨0, 1⟩ else if d = 2 then ⟨-1, 0⟩ else ⟨0, -1⟩

/-- The point one step from `p` in the direction numbered `d`. -/
def step_from (p : point_t) (d : Int) : point_t :=
  ⟨p.x + (direction_of d).x, p.y + (direction_of d).y⟩

/-- The state of the loop of `compute_path` after `n` executions of its body, when
the loop runs that long: `none` when it has ended or gone out of range before. -/
def compute_path_run (grid : grid_t) : Nat → walker_t → Option walker_t
  | 0, w => some w
  | n + 1, w =>
    if not_at_target grid w then
      match compute_path_step grid w with
      | none => none
      | some w' => compute_path_run grid n w'
    else none

/-- Every in-bounds point of the path lies on an Empty cell. -/
def path_on_empty (grid : grid_t) (path : List point_t) : Prop :=
  ∀ p ∈ path, inside_grid grid p → cell_is grid p cell_t.empty

/-- The coordinate a grid records for a marker character: the start for `s`, the
target for `t`. -/
def marker_of (m : Char) (grid : grid_t) : point_t :=
  if m = 's' then grid.start else grid.target

/-- Column `x` of line `y` holds the last `m` of the text in scan order: rows top
to bottom, columns left to right within a row. -/
def last_marker (lines : List (List Char)) (m : Char) (x y : Nat) : Prop :=
  char_at lines x y = some m ∧
    ∀ x' y', char_at lines x' y' = some m → y' < y ∨ (y' = y ∧ x' ≤ x)

/-- A text with two `s` and two `t`. -/
def maze_twice : List Char :=
  "s ts\n t  \n".data

/-- An intersection record as `compute_intersections` produces them: 0, or
Visited with at most two direction flags. -/
def record_ok (value : Nat) : Prop :=
  value = 0 ∨ (value &&& intersection_t.visited ≠ 0 ∧ direction_count value ≤ 2)

/-- The record of the cell visited last: Visited with at most one direction flag
(the link to the cell before it). -/
def fresh_record (value : Nat) : Prop :=
  value &&& intersection_t.visited ≠ 0 ∧ direction_count value ≤ 1

/-- The loop invariant of `compute_intersections` behind `record_ok`: every record
is of that form, and the record at `prev_grid_index` still has room for one more
direction flag. -/
def records_ok (grid : grid_t) (v : List Nat) (prev : Int) : Prop :=
  intersections_ok grid v ∧ (∀ (j : Nat) value, v[j]? = some value → record_ok value) ∧
    (prev = -(grid.width + 1) ∨
      (0 ≤ prev ∧ prev < grid.width * grid.height ∧
        ∃ value, v[prev.toNat]? = some value ∧ fresh_record value))

/-- The four direction flags. -/
def direction_flags : List Nat :=
  [intersection_t.up, intersection_t.left, intersection_t.right, intersection_t.down]

/-- The direction flag of a cell `p` that points to its orthogonal neighbour `q`
(`y` grows downward). -/
def flag_toward (p q : point_t) : Nat :=
  if q.x = p.x + 1 then intersection_t.right
  else if q.x + 1 = p.x then intersection_t.left
  else if q.y = p.y + 1 then intersection_t.down
  else intersection_t.up

/-- The record at index `i` exists and has the flag `flag` set. -/
def has_flag (v : List Nat) (i : Int) (flag : Nat) : Prop :=
  ∃ value, vec_at v i = some value ∧ value &&& flag ≠ 0

/-! # Theorems -/

/-! ## The walker: path bookkeeping -/

/-- A loop iteration either leaves position and path alone (a turn) or moves the
walker and appends its new position to the path. -/
theorem compute_path_step_path (grid : grid_t) (w w' : walker_t)
    (h : compute_path_step grid w = some w') :
    (w'.path = w.path ∧ w'.currentPosition = w.currentPosition) ∨
      w'.path = w.path ++ [w'.currentPosition] := by
  unfold compute_path_step at h
  split at h
  · exact absurd h (by simp)
  · dsimp only at h
    split at h
    · exact absurd h (by simp)
    · split at h
      · exact absurd h (by simp)
      · split at h
        · exact absurd h (by simp)
        · simp only [Option.some.injEq] at h
          subst h
          exact Or.inl ⟨rfl, rfl⟩
        · simp only [Option.some.injEq] at h
          subst h
          exact Or.inl ⟨rfl, rfl⟩
    · simp only [Option.some.injEq] at h
      subst h
      exact Or.inr rfl

theorem path_tracks_init (grid : grid_t) : path_tracks grid.start (compute_path_init grid) := by
  simp [path_tracks, compute_path_init]

theorem path_tracks_step (grid : grid_t) (first : point_t) (w w' : walker_t)
    (hw : path_tracks first w) (h : compute_path_step grid w = some w') :
    path_tracks first w' := by
  obtain ⟨hhead, hlast⟩ := hw
  rcases compute_path_step_path grid w w' h with ⟨hp, hc⟩ | hp
  · exact ⟨by rw [hp]; exact hhead, by rw [hp, hc]; exact hlast⟩
  · refine ⟨?_, by rw [hp]; simp⟩
    rw [hp]
    cases hpath : w.path with
    | nil => rw [hpath] at hhead; exact absurd hhead (by simp)
    | cons a l => rw [hpath] at hhead; simpa using hhead

theorem not_at_target_false (grid : grid_t) (w : walker_t)
    (h : not_at_target grid w = false) : w.currentPosition = grid.target := by
  simp only [not_at_target, Bool.or_eq_false_iff, decide_eq_false_iff_not, ne_eq,
    not_not] at h
  cases hc : w.currentPosition with
  | mk cx cy =>
    cases ht : grid.target with
    | mk tx ty =>
      rw [hc, ht] at h
      simp only at h
      rw [h.1, h.2]

theorem compute_path_loop_zero (grid : grid_t) (w : walker_t) :
    compute_path_loop grid 0 w =
      if not_at_target grid w then path_result.out_of_fuel else path_result.returned w.path := by
  rw [compute_path_loop]

theorem compute_path_loop_succ (grid : grid_t) (n : Nat) (w : walker_t) :
    compute_path_loop grid (n + 1) w =
      if not_at_target grid w then
        match compute_path_step grid w with
        | none => path_result.out_of_range
        | some w' => compute_path_loop grid n w'
      else path_result.returned w.path := by
  rw [compute_path_loop]

theorem compute_path_loop_returned (grid : grid_t) (first : point_t) :
    ∀ (fuel : Nat) (w : walker_t) (path : List point_t), path_tracks first w →
      compute_path_loop grid fuel w = path_result.returned path →
      path.head? = some first ∧ path.getLast? = some grid.target := by
  intro fuel
  induction fuel with
  | zero =>
    intro w path hw h
    rw [compute_path_loop_zero] at h
    split at h
    · exact absurd h (by simp)
    · rename_i hnt
      simp only [path_result.returned.injEq] at h
      subst h
      have := not_at_target_false grid w (by simpa using hnt)
      exact ⟨hw.1, by rw [← this]; exact hw.2⟩
  | succ n ih =>
    intro w path hw h
    rw [compute_path_loop_succ] at h
    split at h
    · split at h
      · exact absurd h (by simp)
      · rename_i w' hstep
        exact ih w' path (path_tracks_step grid first w w' hw hstep) h
    · rename_i hnt
      simp only [path_result.returned.injEq] at h
      subst h
      have := not_at_target_false grid w (by simpa using hnt)
      exact ⟨hw.1, by rw [← this]; exact hw.2⟩

/-- C1. Whenever `compute_path` returns (its loop ends after finitely many
iterations), the returned path is non-empty, its first element is `grid.start`
and its last element is `grid.target`. -/
theorem compute_path_endpoints (grid : grid_t) (fuel : Nat) (path : List point_t)
    (h : compute_path grid fuel = path_result.returned path) :
    path ≠ [] ∧ path.head? = some grid.start ∧ path.getLast? = some grid.target := by
  have hr := compute_path_loop_returned grid grid.start fuel (compute_path_init grid) path
    (path_tracks_init grid) h
  refine ⟨?_, hr.1, hr.2⟩
  intro hnil
  rw [hnil] at hr
  exact absurd hr.1 (by simp)

/-- C1, witness: the maze `s t`, traced in two loop iterations. -/
theorem compute_path_endpoints_witness :
    compute_path grid_s_t 2 = path_result.returned [⟨0, 0⟩, ⟨1, 0⟩, ⟨2, 0⟩] ∧
      ([⟨0, 0⟩, ⟨1, 0⟩, ⟨2, 0⟩] : List point_t) ≠ [] ∧
      ([⟨0, 0⟩, ⟨1, 0⟩, ⟨2, 0⟩] : List point_t).head? = some grid_s_t.start ∧
      ([⟨0, 0⟩, ⟨1, 0⟩, ⟨2, 0⟩] : List point_t).getLast? = some grid_s_t.target :=
  ⟨by decide, compute_path_endpoints grid_s_t 2 [⟨0, 0⟩, ⟨1, 0⟩, ⟨2, 0⟩] (by decide)⟩

/-! ## Vector access and addressing -/

theorem vec_at_of_nonneg {α : Type} (v : List α) (i : Int) (h : 0 ≤ i) :
    vec_at v i = v[i.toNat]? := by
  simp [vec_at, h]

theorem vec_at_nat {α : Type} (v : List α) (n : Nat) : vec_at v (n : Int) = v[n]? := by
  simp [vec_at]

theorem vec_set_nat {α : Type} (v : List α) (n : Nat) (a : α) (h : n < v.length) :
    vec_set v (n : Int) a = some (v.set n a) := by
  simp [vec_set, h]

theorem vec_at_isSome {α : Type} (v : List α) (i : Int) (h0 : 0 ≤ i)
    (h1 : i < (v.length : Int)) : ∃ a, vec_at v i = some a := by
  have hlt : i.toNat < v.length := by omega
  exact ⟨v[i.toNat], by rw [vec_at_of_nonneg v i h0]; exact List.getElem?_eq_getElem hlt⟩

theorem index_of_nonneg (grid : grid_t) (p : point_t) (h : inside_grid grid p) :
    0 ≤ grid.index_of p := by
  obtain ⟨hx0, hx1, hy0, hy1⟩ := h
  unfold grid_t.index_of
  have : 0 ≤ p.y * grid.width := mul_nonneg hy0 (by omega)
  omega

theorem index_of_lt (grid : grid_t) (p : point_t) (h : inside_grid grid p) :
    grid.index_of p < grid.width * grid.height := by
  obtain ⟨hx0, hx1, hy0, hy1⟩ := h
  unfold grid_t.index_of
  have h1 : (p.y + 1) * grid.width ≤ grid.height * grid.width :=
    mul_le_mul_of_nonneg_right (by omega) (by omega)
  have h2 : (p.y + 1) * grid.width = p.y * grid.width + grid.width := by ring
  have h3 : grid.height * grid.width = grid.width * grid.height := by ring
  omega

theorem cell_defined (grid : grid_t) (p : point_t) (hlen : cells_sized grid)
    (h : inside_grid grid p) : ∃ c, vec_at grid.cells (grid.index_of p) = some c := by
  apply vec_at_isSome _ _ (index_of_nonneg grid p h)
  rw [hlen]
  exact index_of_lt grid p h
/-! ## The walker on a wall-bordered grid -/

theorem wall_bordered_at (grid : grid_t) (hb : wall_bordered grid) (p : point_t)
    (hp : inside_grid grid p)
    (hedge : p.x = 0 ∨ p.x + 1 = grid.width ∨ p.y = 0 ∨ p.y + 1 = grid.height) :
    vec_at grid.cells (grid.index_of p) = some cell_t.wall := by
  obtain ⟨hx0, hx1, hy0, hy1⟩ := hp
  have h := hb p.x.toNat (by omega) p.y.toNat (by omega) (by omega)
  have hx : ((p.x.toNat : Nat) : Int) = p.x := Int.toNat_of_nonneg hx0
  have hy : ((p.y.toNat : Nat) : Int) = p.y := Int.toNat_of_nonneg hy0
  rw [hx, hy] at h
  exact h

theorem interior_of_empty (grid : grid_t) (hb : wall_bordered grid) (p : point_t)
    (hp : cell_is grid p cell_t.empty) :
    1 ≤ p.x ∧ p.x + 1 < grid.width ∧ 1 ≤ p.y ∧ p.y + 1 < grid.height := by
  obtain ⟨hin, hcell⟩ := hp
  have hin' := hin
  obtain ⟨hx0, hx1, hy0, hy1⟩ := hin'
  by_contra hcon
  have hedge : p.x = 0 ∨ p.x + 1 = grid.width ∨ p.y = 0 ∨ p.y + 1 = grid.height := by omega
  have hw := wall_bordered_at grid hb p hin hedge
  rw [hw] at hcell
  exact absurd hcell (by decide)

theorem directions_at (d : Int) (h0 : 0 ≤ d) (h4 : d < 4) :
    ∃ δ, vec_at directions d = some δ ∧
      -1 ≤ δ.x ∧ δ.x ≤ 1 ∧ -1 ≤ δ.y ∧ δ.y ≤ 1 := by
  interval_cases d
  · exact ⟨⟨1, 0⟩, by decide, by decide, by decide, by decide, by decide⟩
  · exact ⟨⟨0, 1⟩, by decide, by decide, by decide, by decide, by decide⟩
  · exact ⟨⟨-1, 0⟩, by decide, by decide, by decide, by decide, by decide⟩
  · exact ⟨⟨0, -1⟩, by decide, by decide, by decide, by decide, by decide⟩

/-- On a wall-bordered grid a loop iteration entered on an Empty cell inside the
grid performs no out-of-range access and leaves the walker on such a cell. -/
theorem compute_path_step_inside (grid : grid_t) (hlen : cells_sized grid)
    (hb : wall_bordered grid) (w : walker_t) (hw : walker_inside grid w) :
    ∃ w', compute_path_step grid w = some w' ∧ walker_inside grid w' := by
  obtain ⟨hcell, hd0, hd4⟩ := hw
  obtain ⟨hx0, hx1, hy0, hy1⟩ := interior_of_empty grid hb _ hcell
  obtain ⟨δ, hδ, hδ1, hδ2, hδ3, hδ4⟩ := directions_at w.currentDirection hd0 hd4
  have hl0 : 0 ≤ (w.currentDirection - 1 + 4) % 4 := by omega
  have hl4 : (w.currentDirection - 1 + 4) % 4 < 4 := by omega
  obtain ⟨l, hl, hl1, hl2, hl3, hl4'⟩ := directions_at _ hl0 hl4
  have hnew : inside_grid grid ⟨w.currentPosition.x + δ.x, w.currentPosition.y + δ.y⟩ :=
    ⟨by show 0 ≤ _ + _; omega, by show _ + _ < _; omega,
      by show 0 ≤ _ + _; omega, by show _ + _ < _; omega⟩
  have hleft : inside_grid grid ⟨w.currentPosition.x + l.x, w.currentPosition.y + l.y⟩ :=
    ⟨by show 0 ≤ _ + _; omega, by show _ + _ < _; omega,
      by show 0 ≤ _ + _; omega, by show _ + _ < _; omega⟩
  obtain ⟨c, hc⟩ := cell_defined grid _ hlen hnew
  obtain ⟨cl, hcl⟩ := cell_defined grid _ hlen hleft
  unfold compute_path_step
  rw [hδ]
  dsimp only
  rw [hc]
  cases c with
  | empty =>
    exact ⟨_, rfl, ⟨hnew, hc⟩, hd0, hd4⟩
  | wall =>
    dsimp only
    rw [hl]
    dsimp only
    rw [hcl]
    cases cl with
    | empty => exact ⟨_, rfl, hcell, hl0, hl4⟩
    | wall => exact ⟨_, rfl, hcell, by show 0 ≤ _ % 4; omega, by show _ % 4 < 4; omega⟩
/-! ## Termination of the walker -/

theorem not_at_target_same_core (grid : grid_t) (w₁ w₂ : walker_t) (h : same_core w₁ w₂) :
    not_at_target grid w₁ = not_at_target grid w₂ := by
  unfold not_at_target
  rw [h.1]

/-- The loop body looks at position and facing only: from states that agree on
both it fails on both or leads to states that again agree on both. -/
theorem compute_path_step_same_core (grid : grid_t) (w₁ w₂ : walker_t)
    (h : same_core w₁ w₂) :
    (compute_path_step grid w₁ = none ∧ compute_path_step grid w₂ = none) ∨
      ∃ w₁' w₂', compute_path_step grid w₁ = some w₁' ∧
        compute_path_step grid w₂ = some w₂' ∧ same_core w₁' w₂' := by
  obtain ⟨hp, hd⟩ := h
  unfold compute_path_step
  rw [hp, hd]
  cases vec_at directions w₂.currentDirection with
  | none => exact Or.inl ⟨rfl, rfl⟩
  | some δ =>
    dsimp only
    cases vec_at grid.cells
        (grid.index_of ⟨w₂.currentPosition.x + δ.x, w₂.currentPosition.y + δ.y⟩) with
    | none => exact Or.inl ⟨rfl, rfl⟩
    | some c =>
      cases c with
      | empty => exact Or.inr ⟨_, _, rfl, rfl, rfl, rfl⟩
      | wall =>
        dsimp only
        cases vec_at directions ((w₂.currentDirection - 1 + 4) % 4) with
        | none => exact Or.inl ⟨rfl, rfl⟩
        | some l =>
          dsimp only
          cases vec_at grid.cells
              (grid.index_of ⟨w₂.currentPosition.x + l.x, w₂.currentPosition.y + l.y⟩) with
          | none => exact Or.inl ⟨rfl, rfl⟩
          | some cl =>
            cases cl with
            | empty => exact Or.inr ⟨_, _, rfl, rfl, rfl, rfl⟩
            | wall => exact Or.inr ⟨_, _, rfl, rfl, rfl, rfl⟩

theorem returns_in_same_core (grid : grid_t) :
    ∀ (n : Nat) (w₁ w₂ : walker_t), same_core w₁ w₂ →
      returns_in grid n w₁ → returns_in grid n w₂ := by
  intro n
  induction n with
  | zero =>
    intro w₁ w₂ h ⟨p, hp⟩
    rw [compute_path_loop_zero, not_at_target_same_core grid w₁ w₂ h] at hp
    unfold returns_in
    rw [compute_path_loop_zero]
    split
    · rename_i hnt
      rw [hnt] at hp
      exact absurd hp (by simp)
    · exact ⟨_, rfl⟩
  | succ n ih =>
    intro w₁ w₂ h ⟨p, hp⟩
    rw [compute_path_loop_succ, not_at_target_same_core grid w₁ w₂ h] at hp
    unfold returns_in
    rw [compute_path_loop_succ]
    split
    · rename_i hnt
      rw [hnt] at hp
      simp only [if_true] at hp
      rcases compute_path_step_same_core grid w₁ w₂ h with ⟨h1, _⟩ | ⟨w₁', w₂', h1, h2, hs⟩
      · rw [h1] at hp
        exact absurd hp (by simp)
      · rw [h1] at hp
        rw [h2]
        exact ih w₁' w₂' hs ⟨p, hp⟩
    · exact ⟨_, rfl⟩

theorem same_core_symm (w₁ w₂ : walker_t) (h : same_core w₁ w₂) : same_core w₂ w₁ :=
  ⟨h.1.symm, h.2.symm⟩

/-- More loop iterations do not change a result already returned. -/
theorem compute_path_loop_mono (grid : grid_t) :
    ∀ (n : Nat) (w : walker_t) (path : List point_t),
      compute_path_loop grid n w = path_result.returned path →
      ∀ m, n ≤ m → compute_path_loop grid m w = path_result.returned path := by
  intro n
  induction n with
  | zero =>
    intro w path h m _
    rw [compute_path_loop_zero] at h
    split at h
    · exact absurd h (by simp)
    · rename_i hnt
      cases m with
      | zero => rw [compute_path_loop_zero, if_neg hnt]; exact h
      | succ m => rw [compute_path_loop_succ, if_neg hnt]; exact h
  | succ n ih =>
    intro w path h m hm
    obtain ⟨m', rfl⟩ : ∃ m', m = m' + 1 := ⟨m - 1, by omega⟩
    rw [compute_path_loop_succ] at h
    rw [compute_path_loop_succ]
    split
    · rename_i hnt
      rw [if_pos hnt] at h
      cases hstep : compute_path_step grid w with
      | none => rw [hstep] at h; exact absurd h (by simp)
      | some w' =>
        rw [hstep] at h
        exact ih w' path h m' (by omega)
    · rename_i hnt
      rw [if_neg hnt] at h
      exact h

theorem returns_exactly_succ (grid : grid_t) (n : Nat) (w : walker_t)
    (h : returns_exactly grid (n + 1) w) :
    ∃ w', compute_path_step grid w = some w' ∧ returns_exactly grid n w' := by
  obtain ⟨⟨p, hp⟩, hmin⟩ := h
  have hnt : not_at_target grid w = true := by
    by_contra hcon
    exact hmin 0 (by omega) ⟨w.path, by rw [compute_path_loop_zero, if_neg hcon]⟩
  rw [compute_path_loop_succ, if_pos hnt] at hp
  cases hstep : compute_path_step grid w with
  | none => rw [hstep] at hp; exact absurd hp (by simp)
  | some w' =>
    rw [hstep] at hp
    refine ⟨w', rfl, ⟨p, hp⟩, ?_⟩
    intro m hm ⟨q, hq⟩
    exact hmin (m + 1) (by omega) ⟨q, by rw [compute_path_loop_succ, if_pos hnt, hstep]; exact hq⟩

theorem returns_exactly_unique (grid : grid_t) (k k' : Nat) (w₁ w₂ : walker_t)
    (hs : same_core w₁ w₂) (h1 : returns_exactly grid k w₁)
    (h2 : returns_exactly grid k' w₂) : k = k' := by
  rcases Nat.lt_trichotomy k k' with hlt | heq | hgt
  · exact absurd (returns_in_same_core grid k w₁ w₂ hs h1.1) (h2.2 k hlt)
  · exact heq
  · exact absurd (returns_in_same_core grid k' w₂ w₁ (same_core_symm _ _ hs) h2.1) (h1.2 k' hgt)

theorem returns_exactly_chain (grid : grid_t) (hlen : cells_sized grid)
    (hb : wall_bordered grid) :
    ∀ (n : Nat) (w : walker_t), walker_inside grid w → returns_exactly grid n w →
      ∀ k, k ≤ n → ∃ w', walker_inside grid w' ∧ returns_exactly grid k w' := by
  intro n
  induction n with
  | zero =>
    intro w hw h k hk
    obtain rfl : k = 0 := by omega
    exact ⟨w, hw, h⟩
  | succ n ih =>
    intro w hw h k hk
    rcases Nat.eq_or_lt_of_le hk with rfl | hlt
    · exact ⟨w, hw, h⟩
    · obtain ⟨w', hstep, hex⟩ := returns_exactly_succ grid n w h
      obtain ⟨w'', hstep', hin⟩ := compute_path_step_inside grid hlen hb w hw
      rw [hstep] at hstep'
      simp only [Option.some.injEq] at hstep'
      subst hstep'
      exact ih w' hin hex k (by omega)

/-- Pigeonhole: the states of a returning run are pairwise different in position
or facing, so the run is shorter than the number of such pairs. -/
theorem returns_exactly_bound (grid : grid_t) (hlen : cells_sized grid)
    (hb : wall_bordered grid) (n : Nat) (w : walker_t) (hw : walker_inside grid w)
    (h : returns_exactly grid n w) :
    n + 1 ≤ 4 * grid.width.toNat * grid.height.toNat := by
  classical
  have hchain := returns_exactly_chain grid hlen hb n w hw h
  let f : Nat → (Int × Int) × Int := fun k =>
    if hk : k ≤ n then
      (((hchain k hk).choose.currentPosition.x, (hchain k hk).choose.currentPosition.y),
        (hchain k hk).choose.currentDirection)
    else ((0, 0), 0)
  let S : Finset ((Int × Int) × Int) :=
    (Finset.Ico 0 grid.width ×ˢ Finset.Ico 0 grid.height) ×ˢ Finset.Ico 0 4
  have hmaps : ∀ k ∈ Finset.range (n + 1), f k ∈ S := by
    intro k hk
    have hk' : k ≤ n := by simpa [Nat.lt_succ_iff] using hk
    obtain ⟨⟨⟨hx0, hx1, hy0, hy1⟩, _⟩, hd0, hd4⟩ := (hchain k hk').choose_spec.1
    simp only [f, dif_pos hk', S, Finset.mem_product, Finset.mem_Ico]
    exact ⟨⟨⟨hx0, hx1⟩, hy0, hy1⟩, hd0, hd4⟩
  have hinj : Set.InjOn f (Finset.range (n + 1) : Set Nat) := by
    intro a ha b hb' hab
    have ha' : a ≤ n := by simpa [Nat.lt_succ_iff] using ha
    have hb'' : b ≤ n := by simpa [Nat.lt_succ_iff] using hb'
    simp only [f, dif_pos ha', dif_pos hb'', Prod.mk.injEq] at hab
    obtain ⟨⟨hx, hy⟩, hd⟩ := hab
    refine returns_exactly_unique grid a b _ _ ⟨?_, hd⟩
      (hchain a ha').choose_spec.2 (hchain b hb'').choose_spec.2
    cases hA : (hchain a ha').choose.currentPosition with
    | mk ax ay =>
      cases hB : (hchain b hb'').choose.currentPosition with
      | mk bx bz =>
        rw [hA] at hx hy
        rw [hB] at hx hy
        simp only at hx hy
        rw [hx, hy]
  have hcard := Finset.card_le_card_of_injOn f hmaps hinj
  have hS : S.card = 4 * grid.width.toNat * grid.height.toNat := by
    simp only [S, Finset.card_product, Int.card_Ico]
    simp
    ring
  rw [Finset.card_range, hS] at hcard
  exact hcard
theorem walker_inside_init (grid : grid_t) (hs : cell_is grid grid.start cell_t.empty) :
    walker_inside grid (compute_path_init grid) :=
  ⟨hs, le_refl (0 : Int), show (0 : Int) < 4 by decide⟩

theorem returns_exactly_of_returns_in (grid : grid_t) (n : Nat) (w : walker_t)
    (h : returns_in grid n w) : ∃ k, k ≤ n ∧ returns_exactly grid k w := by
  classical
  have hex : ∃ k, returns_in grid k w := ⟨n, h⟩
  refine ⟨Nat.find hex, Nat.find_min' hex h, Nat.find_spec hex, ?_⟩
  intro m hm
  exact Nat.find_min hex hm

/-- C2, amended. On a wall-bordered grid with exactly `width * height` cells and
an Empty start inside it, `compute_path` returns within `4 * width * height` loop
iterations or not at all. -/
theorem compute_path_returns_early (grid : grid_t) (hlen : cells_sized grid)
    (hb : wall_bordered grid) (hs : cell_is grid grid.start cell_t.empty)
    (fuel : Nat) (path : List point_t)
    (h : compute_path grid fuel = path_result.returned path) :
    compute_path grid (4 * grid.width.toNat * grid.height.toNat) =
      path_result.returned path := by
  unfold compute_path at h ⊢
  obtain ⟨k, hk, hex⟩ := returns_exactly_of_returns_in grid fuel _ ⟨path, h⟩
  have hbound := returns_exactly_bound grid hlen hb k _ (walker_inside_init grid hs) hex
  obtain ⟨q, hq⟩ := hex.1
  have hfuel := compute_path_loop_mono grid k _ q hq fuel hk
  rw [h] at hfuel
  simp only [path_result.returned.injEq] at hfuel
  subst hfuel
  exact compute_path_loop_mono grid k _ path hq _ (by omega)

/-- C2, witness of the amended claim: the bordered corner maze, traced in four
loop iterations, well within the bound of 80. -/
theorem compute_path_returns_early_witness :
    compute_path grid_corner (4 * grid_corner.width.toNat * grid_corner.height.toNat) =
      path_result.returned [⟨1, 1⟩, ⟨1, 2⟩, ⟨2, 2⟩] :=
  compute_path_returns_early grid_corner (by unfold cells_sized; decide)
    (by unfold wall_bordered; decide)
    (by unfold cell_is inside_grid; decide) 4 [⟨1, 1⟩, ⟨1, 2⟩, ⟨2, 2⟩] (by decide)
/-! ## The `T` maze: a simply connected maze the walker never leaves -/

theorem maze_T_valid : valid_maze_text maze_T := by
  unfold valid_maze_text valid_char
  decide

theorem maze_T_loaded : read_grid maze_T blank_grid = read_result.ok grid_T := by
  decide

theorem grid_T_empty_cells (p : point_t) (h : cell_is grid_T p cell_t.empty) :
    p = ⟨1, 1⟩ ∨ p = ⟨2, 1⟩ ∨ p = ⟨3, 1⟩ ∨ p = ⟨2, 2⟩ := by
  obtain ⟨x, y⟩ := p
  obtain ⟨⟨hx0, hx1, hy0, hy1⟩, hc⟩ := h
  simp only [grid_T] at hx0 hx1 hy0 hy1
  interval_cases x <;> interval_cases y <;> first
    | exact absurd hc (by decide)
    | decide

theorem grid_T_hub (p : point_t) (h : cell_is grid_T p cell_t.empty) :
    Relation.ReflTransGen (corridor_step grid_T) p ⟨2, 1⟩ ∧
      Relation.ReflTransGen (corridor_step grid_T) ⟨2, 1⟩ p := by
  have hub : cell_is grid_T ⟨2, 1⟩ cell_t.empty := by
    unfold cell_is inside_grid; decide
  rcases grid_T_empty_cells p h with rfl | rfl | rfl | rfl
  · exact ⟨Relation.ReflTransGen.single ⟨h, hub, by unfold adjacent; decide⟩,
      Relation.ReflTransGen.single ⟨hub, h, by unfold adjacent; decide⟩⟩
  · exact ⟨Relation.ReflTransGen.refl, Relation.ReflTransGen.refl⟩
  · exact ⟨Relation.ReflTransGen.single ⟨h, hub, by unfold adjacent; decide⟩,
      Relation.ReflTransGen.single ⟨hub, h, by unfold adjacent; decide⟩⟩
  · exact ⟨Relation.ReflTransGen.single ⟨h, hub, by unfold adjacent; decide⟩,
      Relation.ReflTransGen.single ⟨hub, h, by unfold adjacent; decide⟩⟩

theorem grid_T_connected : corridor_connected grid_T := by
  intro p q hp hq
  exact (grid_T_hub p hp).1.trans (grid_T_hub q hq).2

theorem grid_T_no_island : no_wall_island grid_T := by
  intro p hp
  obtain ⟨x, y⟩ := p
  have hp' := hp
  obtain ⟨⟨hx0, hx1, hy0, hy1⟩, hc⟩ := hp'
  simp only [grid_T] at hx0 hx1 hy0 hy1
  by_cases hedge : x = 0 ∨ x + 1 = 5 ∨ y = 0 ∨ y + 1 = 4
  · exact ⟨⟨x, y⟩, ⟨hp.1, hedge⟩, Relation.ReflTransGen.refl⟩
  · have hy : y = 1 ∨ y = 2 := by omega
    have hx : x = 1 ∨ x = 2 ∨ x = 3 := by omega
    rcases hy with rfl | rfl <;> rcases hx with rfl | rfl | rfl
    · exact absurd hc (by decide)
    · exact absurd hc (by decide)
    · exact absurd hc (by decide)
    · refine ⟨⟨0, 2⟩, by unfold on_border inside_grid; decide,
        Relation.ReflTransGen.single ⟨hp, by unfold cell_is inside_grid; decide,
          by unfold touching; decide⟩⟩
    · exact absurd hc (by decide)
    · refine ⟨⟨4, 2⟩, by unfold on_border inside_grid; decide,
        Relation.ReflTransGen.single ⟨hp, by unfold cell_is inside_grid; decide,
          by unfold touching; decide⟩⟩

/-- A walker that comes back to its position and facing after `k > 0` iterations
without having returned never returns. -/
theorem never_returns_of_cycle (grid : grid_t) (w w' : walker_t) (k : Nat) (hk : 0 < k)
    (hs : same_core w' w)
    (hcycle : ∀ m, compute_path_loop grid (m + k) w = compute_path_loop grid m w')
    (hshort : ∀ m, m < k → ¬ returns_in grid m w) :
    ∀ n, ¬ returns_in grid n w := by
  intro n
  induction n using Nat.strong_induction_on with
  | _ n ih =>
    by_cases hn : n < k
    · exact hshort n hn
    · obtain ⟨m, rfl⟩ : ∃ m, n = m + k := ⟨n - k, by omega⟩
      intro ⟨p, hp⟩
      rw [hcycle] at hp
      exact ih m (by omega) (returns_in_same_core grid m w' w hs ⟨p, hp⟩)

theorem grid_T_cycle (m : Nat) :
    compute_path_loop grid_T (m + 8) (compute_path_init grid_T) =
      compute_path_loop grid_T m
        { currentPosition := ⟨1, 1⟩, currentDirection := 0
          path := [⟨1, 1⟩, ⟨2, 1⟩, ⟨3, 1⟩, ⟨2, 1⟩, ⟨1, 1⟩] } := by
  rfl

theorem grid_T_short :
    ∀ m, m < 8 →
      compute_path_loop grid_T m (compute_path_init grid_T) = path_result.out_of_fuel := by
  decide

theorem grid_T_never_returns (fuel : Nat) (path : List point_t) :
    compute_path grid_T fuel ≠ path_result.returned path := by
  intro h
  refine never_returns_of_cycle grid_T (compute_path_init grid_T)
    { currentPosition := ⟨1, 1⟩, currentDirection := 0
      path := [⟨1, 1⟩, ⟨2, 1⟩, ⟨3, 1⟩, ⟨2, 1⟩, ⟨1, 1⟩] } 8 (by decide)
    ⟨rfl, rfl⟩ grid_T_cycle ?_ fuel ⟨path, h⟩
  intro m hm ⟨p, hp⟩
  rw [grid_T_short m hm] at hp
  exact absurd hp (by simp)

/-- C2, counterexample. The maze `maze_T` is valid, wall-bordered, has one `s` and
one `t`, and its Empty cells form a simply connected network holding both, yet
`compute_path` returns for no number of loop iterations: the walker shuttles along
the bar of the `T` and never enters the stem. -/
theorem simply_connected_maze_not_traced :
    valid_maze_text maze_T ∧ read_grid maze_T blank_grid = read_result.ok grid_T ∧
      wall_bordered grid_T ∧ simply_connected_corridors grid_T ∧
      ∀ fuel path, compute_path grid_T fuel ≠ path_result.returned path :=
  ⟨maze_T_valid, maze_T_loaded, by unfold wall_bordered; decide,
    ⟨grid_T_connected, grid_T_no_island, by unfold cell_is inside_grid; decide,
      by unfold cell_is inside_grid; decide⟩,
    grid_T_never_returns⟩
/-! ## The tracing example of the specification -/

/-- C3, counterexample. The three lines load as stated, but the walker's first
iteration looks up the cell to its left, `(0, -1)`, at index `-3` of the cell
vector: `compute_path` does not return the path `[(0,0), (0,1), (1,1)]`, it reads
out of range. -/
theorem open_maze_not_traced :
    read_lines maze_open = ["s##".data, " t#".data, "###".data] ∧
      read_grid maze_open blank_grid = read_result.ok grid_open ∧
      grid_open.start = ⟨0, 0⟩ ∧ grid_open.target = ⟨1, 1⟩ ∧
      ∀ fuel, compute_path grid_open fuel ≠
        path_result.returned [⟨0, 0⟩, ⟨0, 1⟩, ⟨1, 1⟩] := by
  refine ⟨by decide, by decide, rfl, rfl, ?_⟩
  intro fuel
  cases fuel with
  | zero => decide
  | succ n =>
    have h : compute_path grid_open (n + 1) = path_result.out_of_range := rfl
    rw [h]
    decide

/-- C3, amended. The three lines load with start `(0,0)` and target `(1,1)`; on
that grid the first loop iteration of `compute_path` reads the cell vector at
index `-3` (the cell above the start) and so ends out of range whatever the
number of iterations allowed; on the same maze enclosed in a wall border, loaded
with start `(1,1)` and target `(2,2)`, `compute_path` returns exactly
`[(1,1), (1,2), (2,2)]`: down, then right. -/
theorem bordered_corner_traced :
    read_grid maze_open blank_grid = read_result.ok grid_open ∧
      grid_open.start = ⟨0, 0⟩ ∧ grid_open.target = ⟨1, 1⟩ ∧
      grid_open.index_of ⟨0, -1⟩ = -3 ∧ vec_at grid_open.cells (-3) = none ∧
      (∀ n, compute_path grid_open (n + 1) = path_result.out_of_range) ∧
      read_grid maze_corner blank_grid = read_result.ok grid_corner ∧
      wall_bordered grid_corner ∧
      grid_corner.start = ⟨1, 1⟩ ∧ grid_corner.target = ⟨2, 2⟩ ∧
      ∀ n, compute_path grid_corner (n + 4) =
        path_result.returned [⟨1, 1⟩, ⟨1, 2⟩, ⟨2, 2⟩] :=
  ⟨by decide, rfl, rfl, by decide, by decide, fun _ => rfl, by decide,
    by unfold wall_bordered; decide, rfl, rfl, fun n => by cases n <;> rfl⟩
/-! ## read_grid: one line -/

theorem read_grid_row_cons_valid (y : Int) (c : Char) (cs : List Char) (x : Int)
    (grid : grid_t) (hc : valid_char c) :
    read_grid_row y (c :: cs) x grid =
      store_cell grid (grid.index_of ⟨x, y⟩) (cell_of_char c)
        fun g => read_grid_row y cs (x + 1) (note_marker c ⟨x, y⟩ g) := by
  rcases hc with rfl | rfl | rfl | rfl <;>
    simp [read_grid_row, cell_of_char, note_marker]

theorem read_grid_row_cons_invalid (y : Int) (c : Char) (cs : List Char) (x : Int)
    (grid : grid_t) (hc : ¬ valid_char c) :
    read_grid_row y (c :: cs) x grid =
      read_result.failed (read_error.invalid_character ⟨x, y⟩) := by
  unfold valid_char at hc
  simp only [not_or] at hc
  obtain ⟨h1, h2, h3, h4⟩ := hc
  simp [read_grid_row, h1, h2, h3, h4]

theorem note_marker_width (c : Char) (p : point_t) (grid : grid_t) :
    (note_marker c p grid).width = grid.width := by
  unfold note_marker
  split
  · rfl
  · split <;> rfl

theorem note_marker_height (c : Char) (p : point_t) (grid : grid_t) :
    (note_marker c p grid).height = grid.height := by
  unfold note_marker
  split
  · rfl
  · split <;> rfl

theorem note_marker_cells (c : Char) (p : point_t) (grid : grid_t) :
    (note_marker c p grid).cells = grid.cells := by
  unfold note_marker
  split
  · rfl
  · split <;> rfl

theorem index_of_nat (grid : grid_t) (W x y : Nat) (hW : grid.width = (W : Int)) :
    grid.index_of ⟨(x : Int), (y : Int)⟩ = ((y * W + x : Nat) : Int) := by
  unfold grid_t.index_of
  rw [hW]
  push_cast
  ring

/-- A line of accepted characters that fits its row is stored without fault: it
overwrites its own columns of row `y` and nothing else. -/
theorem read_grid_row_ok (W y : Nat) :
    ∀ (cs : List Char) (x₀ : Nat) (grid : grid_t), grid.width = (W : Int) →
      (∀ c ∈ cs, valid_char c) → x₀ + cs.length ≤ W →
      (y + 1) * W ≤ grid.cells.length →
      ∃ grid', read_grid_row (y : Int) cs (x₀ : Int) grid = read_result.ok grid' ∧
        grid'.width = grid.width ∧ grid'.height = grid.height ∧
        grid'.cells.length = grid.cells.length ∧
        ∀ i, grid'.cells[i]? =
          if y * W + x₀ ≤ i ∧ i < y * W + x₀ + cs.length then
            (cs[i - (y * W + x₀)]?).map cell_of_char
          else grid.cells[i]? := by
  intro cs
  induction cs with
  | nil =>
    intro x₀ grid _ _ _ _
    refine ⟨grid, rfl, rfl, rfl, rfl, ?_⟩
    intro i
    rw [if_neg]
    simp
  | cons c cs ih =>
    intro x₀ grid hW hvalid hfit hrows
    have hc : valid_char c := hvalid c (List.mem_cons_self _ _)
    simp only [List.length_cons] at hfit
    have hrows' : (y + 1) * W = y * W + W := by ring
    have hidx : y * W + x₀ < grid.cells.length := by omega
    rw [read_grid_row_cons_valid _ _ _ _ _ hc, index_of_nat grid W x₀ y hW]
    unfold store_cell
    rw [vec_set_nat _ _ _ hidx]
    dsimp only
    have hcast : ((x₀ : Int) + 1) = ((x₀ + 1 : Nat) : Int) := by push_cast; ring
    rw [hcast]
    obtain ⟨grid', hrun, hw', hh', hlen', hcells'⟩ :=
      ih (x₀ + 1)
        (note_marker c ⟨(x₀ : Int), (y : Int)⟩
          { grid with cells := grid.cells.set (y * W + x₀) (cell_of_char c) })
        (by rw [note_marker_width]; exact hW)
        (fun c' hc' => hvalid c' (List.mem_cons_of_mem _ hc'))
        (by omega)
        (by rw [note_marker_cells]; simpa using hrows)
    refine ⟨grid', hrun, ?_, ?_, ?_, ?_⟩
    · rw [hw', note_marker_width]
    · rw [hh', note_marker_height]
    · rw [hlen', note_marker_cells]; simp
    · intro i
      rw [hcells' i, note_marker_cells]
      simp only [List.length_cons]
      by_cases h1 : y * W + x₀ = i
      · subst h1
        rw [if_neg (by omega), if_pos (by omega)]
        simp [hidx]
      · by_cases h2 : y * W + (x₀ + 1) ≤ i ∧ i < y * W + (x₀ + 1) + cs.length
        · rw [if_pos h2, if_pos (by omega)]
          have : i - (y * W + x₀) = (i - (y * W + (x₀ + 1))) + 1 := by omega
          rw [this, List.getElem?_cons_succ]
        · rw [if_neg h2, if_neg (by omega)]
          exact List.getElem?_set_ne h1
/-- A line is read up to its first character that is not accepted, and that
character's coordinate is reported. -/
theorem read_grid_row_invalid (W y : Nat) (c : Char) (post : List Char)
    (hc : ¬ valid_char c) :
    ∀ (pre : List Char) (x₀ : Nat) (grid : grid_t), grid.width = (W : Int) →
      (∀ c' ∈ pre, valid_char c') → x₀ + pre.length ≤ W →
      (y + 1) * W ≤ grid.cells.length →
      read_grid_row (y : Int) (pre ++ c :: post) (x₀ : Int) grid =
        read_result.failed
          (read_error.invalid_character ⟨((x₀ + pre.length : Nat) : Int), (y : Int)⟩) := by
  intro pre
  induction pre with
  | nil =>
    intro x₀ grid _ _ _ _
    simpa using read_grid_row_cons_invalid (y : Int) c post (x₀ : Int) grid hc
  | cons a pre ih =>
    intro x₀ grid hW hvalid hfit hrows
    have ha : valid_char a := hvalid a (List.mem_cons_self _ _)
    simp only [List.length_cons] at hfit
    have hrows' : (y + 1) * W = y * W + W := by ring
    have hidx : y * W + x₀ < grid.cells.length := by omega
    rw [List.cons_append, read_grid_row_cons_valid _ _ _ _ _ ha,
      index_of_nat grid W x₀ y hW]
    unfold store_cell
    rw [vec_set_nat _ _ _ hidx]
    dsimp only
    have hcast : ((x₀ : Int) + 1) = ((x₀ + 1 : Nat) : Int) := by push_cast; ring
    rw [hcast, ih (x₀ + 1) _ (by rw [note_marker_width]; exact hW)
      (fun c' hc' => hvalid c' (List.mem_cons_of_mem _ hc')) (by omega)
      (by rw [note_marker_cells]; simpa using hrows)]
    simp only [List.length_cons]
    have : x₀ + 1 + pre.length = x₀ + (pre.length + 1) := by omega
    rw [this]

theorem exists_first_failing {α : Type} (p : α → Prop) :
    ∀ l : List α, (∃ a ∈ l, ¬ p a) →
      ∃ pre a post, l = pre ++ a :: post ∧ (∀ b ∈ pre, p b) ∧ ¬ p a := by
  classical
  intro l
  induction l with
  | nil =>
    intro ⟨a, ha, _⟩
    exact absurd ha (List.not_mem_nil a)
  | cons b l ih =>
    intro ⟨a, ha, hpa⟩
    by_cases hb : p b
    · have hmem : a ∈ l := by
        rcases List.mem_cons.mp ha with rfl | h
        · exact absurd hb hpa
        · exact h
      obtain ⟨pre, a', post, hl, hpre, ha'⟩ := ih ⟨a, hmem, hpa⟩
      refine ⟨b :: pre, a', post, by rw [hl]; rfl, ?_, ha'⟩
      intro b' hb'
      rcases List.mem_cons.mp hb' with rfl | h
      · exact hb
      · exact hpre b' h
    · exact ⟨[], b, l, rfl, fun _ h => absurd h (List.not_mem_nil _), hb⟩

/-! ## read_grid: all lines -/

theorem char_at_cons_zero (l : List Char) (ls : List (List Char)) (x : Nat) :
    char_at (l :: ls) x 0 = l[x]? := by
  simp [char_at]

theorem char_at_cons_succ (l : List Char) (ls : List (List Char)) (x y : Nat) :
    char_at (l :: ls) x (y + 1) = char_at ls x y := by
  simp [char_at]

/-- Lines of accepted characters that fit the grid are stored without fault: a
cell under a character gets that character's cell, every other cell keeps its
value. -/
theorem read_grid_rows_ok (W : Nat) :
    ∀ (ls : List (List Char)) (y₀ : Nat) (grid : grid_t), grid.width = (W : Int) →
      (∀ l ∈ ls, ∀ c ∈ l, valid_char c) → (∀ l ∈ ls, l.length ≤ W) →
      (y₀ + ls.length) * W ≤ grid.cells.length →
      ∃ grid', read_grid_rows ls (y₀ : Int) grid = read_result.ok grid' ∧
        grid'.width = grid.width ∧ grid'.height = grid.height ∧
        grid'.cells.length = grid.cells.length ∧
        (∀ x y c, x < W → char_at ls x y = some c →
          grid'.cells[(y₀ + y) * W + x]? = some (cell_of_char c)) ∧
        (∀ x y, x < W → (y < y₀ ∨ char_at ls x (y - y₀) = none) →
          grid'.cells[y * W + x]? = grid.cells[y * W + x]?) := by
  intro ls
  induction ls with
  | nil =>
    intro y₀ grid _ _ _ _
    refine ⟨grid, rfl, rfl, rfl, rfl, ?_, ?_⟩
    · intro x y c _ h
      simp [char_at] at h
    · intro x y _ _
      rfl
  | cons l ls ih =>
    intro y₀ grid hW hvalid hfit hrows
    simp only [List.length_cons] at hrows
    have hmul : (y₀ + (ls.length + 1)) * W = (y₀ + 1) * W + ls.length * W := by ring
    have hmul' : (y₀ + 1) * W = y₀ * W + W := by ring
    have hl : l.length ≤ W := hfit l (List.mem_cons_self _ _)
    obtain ⟨g₁, hrow, hw₁, hh₁, hlen₁, hcells₁⟩ :=
      read_grid_row_ok W y₀ l 0 grid hW (hvalid l (List.mem_cons_self _ _))
        (by omega) (by omega)
    have hcast : ((y₀ : Int) + 1) = ((y₀ + 1 : Nat) : Int) := by push_cast; ring
    obtain ⟨g', hrun, hw', hh', hlen', ha, hb⟩ :=
      ih (y₀ + 1) g₁ (by rw [hw₁]; exact hW)
        (fun l' hl' => hvalid l' (List.mem_cons_of_mem _ hl'))
        (fun l' hl' => hfit l' (List.mem_cons_of_mem _ hl'))
        (by rw [hlen₁]; have : (y₀ + 1 + ls.length) * W = (y₀ + 1) * W + ls.length * W := by
              ring
            omega)
    have hrun' : read_grid_rows (l :: ls) (y₀ : Int) grid = read_result.ok g' := by
      rw [read_grid_rows]
      simp only [Nat.cast_zero] at hrow
      rw [hrow]
      dsimp only
      rw [hcast]
      exact hrun
    refine ⟨g', hrun', by rw [hw', hw₁], by rw [hh', hh₁], by rw [hlen', hlen₁], ?_, ?_⟩
    · intro x y c hx hc
      cases y with
      | zero =>
        rw [char_at_cons_zero] at hc
        have hxl : x < l.length := by
          by_contra hcon
          rw [List.getElem?_eq_none (by omega)] at hc
          exact absurd hc (by simp)
        rw [Nat.add_zero, hb x y₀ hx (Or.inl (by omega)), hcells₁]
        rw [if_pos (by omega)]
        simp only [Nat.add_zero, Nat.add_sub_cancel_left, hc, Option.map_some']
      | succ y =>
        rw [char_at_cons_succ] at hc
        have := ha x y c hx hc
        have hidx : (y₀ + (y + 1)) * W + x = (y₀ + 1 + y) * W + x := by ring
        rw [hidx]
        exact this
    · intro x y hx hy
      have hstep : g'.cells[y * W + x]? = g₁.cells[y * W + x]? := by
        apply hb x y hx
        rcases hy with hlt | hnone
        · exact Or.inl (by omega)
        · by_cases hle : y < y₀ + 1
          · exact Or.inl hle
          · right
            have : y - y₀ = (y - (y₀ + 1)) + 1 := by omega
            rw [this, char_at_cons_succ] at hnone
            exact hnone
      rw [hstep, hcells₁]
      rw [if_neg]
      intro ⟨hlo, hhi⟩
      rcases hy with hlt | hnone
      · have : (y + 1) * W ≤ y₀ * W := Nat.mul_le_mul_right W (by omega)
        have : (y + 1) * W = y * W + W := by ring
        omega
      · by_cases heq : y = y₀
        · subst heq
          rw [Nat.sub_self, char_at_cons_zero] at hnone
          have := List.getElem?_eq_none_iff.mp hnone
          omega
        · by_cases hlt : y < y₀
          · have : (y + 1) * W ≤ y₀ * W := Nat.mul_le_mul_right W (by omega)
            have : (y + 1) * W = y * W + W := by ring
            omega
          · have : (y₀ + 1) * W ≤ y * W := Nat.mul_le_mul_right W (by omega)
            omega
/-- The lines are read up to the first character that is not accepted, and that
character's coordinate is reported. -/
theorem read_grid_rows_invalid (W : Nat) (lpre : List Char) (c : Char) (lpost : List Char)
    (post : List (List Char)) (hlpre : ∀ c' ∈ lpre, valid_char c') (hc : ¬ valid_char c)
    (hlfit : lpre.length ≤ W) :
    ∀ (pre : List (List Char)) (y₀ : Nat) (grid : grid_t), grid.width = (W : Int) →
      (∀ l ∈ pre, ∀ c' ∈ l, valid_char c') → (∀ l ∈ pre, l.length ≤ W) →
      (y₀ + pre.length + 1) * W ≤ grid.cells.length →
      read_grid_rows (pre ++ (lpre ++ c :: lpost) :: post) (y₀ : Int) grid =
        read_result.failed
          (read_error.invalid_character
            ⟨(lpre.length : Int), ((y₀ + pre.length : Nat) : Int)⟩) := by
  intro pre
  induction pre with
  | nil =>
    intro y₀ grid hW _ _ hrows
    simp only [List.length_nil, Nat.add_zero] at hrows
    rw [List.nil_append, read_grid_rows]
    have := read_grid_row_invalid W y₀ c lpost hc lpre 0 grid hW hlpre (by omega) hrows
    simp only [Nat.cast_zero, Nat.zero_add] at this
    rw [this]
    simp
  | cons l pre ih =>
    intro y₀ grid hW hvalid hfit hrows
    simp only [List.length_cons] at hrows
    have hmul : (y₀ + (pre.length + 1) + 1) * W = (y₀ + 1) * W + (pre.length + 1) * W := by
      ring
    have hl : l.length ≤ W := hfit l (List.mem_cons_self _ _)
    obtain ⟨g₁, hrow, hw₁, hh₁, hlen₁, _⟩ :=
      read_grid_row_ok W y₀ l 0 grid hW (hvalid l (List.mem_cons_self _ _))
        (by omega) (by omega)
    have hcast : ((y₀ : Int) + 1) = ((y₀ + 1 : Nat) : Int) := by push_cast; ring
    rw [List.cons_append, read_grid_rows]
    simp only [Nat.cast_zero] at hrow
    rw [hrow]
    dsimp only
    rw [hcast, ih (y₀ + 1) g₁ (by rw [hw₁]; exact hW)
      (fun l' hl' => hvalid l' (List.mem_cons_of_mem _ hl'))
      (fun l' hl' => hfit l' (List.mem_cons_of_mem _ hl'))
      (by rw [hlen₁]
          have : (y₀ + 1 + pre.length + 1) * W = (y₀ + (pre.length + 1) + 1) * W := by ring
          omega)]
    simp only [List.length_cons]
    have : y₀ + 1 + pre.length = y₀ + (pre.length + 1) := by omega
    rw [this]

/-! ## read_grid: width and size -/

theorem foldl_max_line (ls : List (List Char)) :
    ∀ acc : Nat, ∃ W : Nat,
      ls.foldl (fun (width : Int) line => max width (line.length : Int)) (acc : Int) =
          (W : Int) ∧
        acc ≤ W ∧ (∀ l ∈ ls, l.length ≤ W) ∧ (W = acc ∨ ∃ l ∈ ls, l.length = W) := by
  induction ls with
  | nil =>
    intro acc
    exact ⟨acc, rfl, le_refl _, fun _ h => absurd h (List.not_mem_nil _), Or.inl rfl⟩
  | cons l ls ih =>
    intro acc
    obtain ⟨W, hW, hacc, hall, hwit⟩ := ih (max acc l.length)
    refine ⟨W, ?_, ?_, ?_, ?_⟩
    · rw [List.foldl_cons, ← hW]
      push_cast
      rfl
    · exact le_trans (le_max_left _ _) hacc
    · intro l' hl'
      rcases List.mem_cons.mp hl' with rfl | h
      · exact le_trans (le_max_right _ _) hacc
      · exact hall l' h
    · rcases hwit with h | ⟨l', hl', h⟩
      · rcases le_total acc l.length with hle | hle
        · rw [max_eq_right hle] at h
          exact Or.inr ⟨l, List.mem_cons_self _ _, h.symm⟩
        · rw [max_eq_left hle] at h
          exact Or.inl h
      · exact Or.inr ⟨l', List.mem_cons_of_mem _ hl', h⟩

/-- The width `read_grid` computes is the length of a longest line, 0 without
lines. -/
theorem max_line_size_spec (lines : List (List Char)) :
    ∃ W : Nat, max_line_size lines = (W : Int) ∧ (∀ l ∈ lines, l.length ≤ W) ∧
      (lines = [] → W = 0) ∧ (lines ≠ [] → ∃ l ∈ lines, l.length = W) := by
  obtain ⟨W, hW, _, hall, hwit⟩ := foldl_max_line lines 0
  refine ⟨W, by simpa [max_line_size] using hW, hall, ?_, ?_⟩
  · intro hnil
    rcases hwit with h | ⟨l, hl, _⟩
    · exact h
    · rw [hnil] at hl
      exact absurd hl (List.not_mem_nil _)
  · intro hne
    rcases hwit with h | h
    · cases lines with
      | nil => exact absurd rfl hne
      | cons l ls =>
        have := hall l (List.mem_cons_self _ _)
        exact ⟨l, List.mem_cons_self _ _, by omega⟩
    · exact h

theorem vec_resize_length {α : Type} (v : List α) (n : Nat) (a : α) :
    (vec_resize v n a).length = n := by
  simp only [vec_resize, List.length_append, List.length_take, List.length_replicate]
  omega

theorem vec_resize_nil {α : Type} (n : Nat) (a : α) :
    vec_resize ([] : List α) n a = List.replicate n a := by
  simp [vec_resize]
/-! ## read_grid: the whole function -/

/-- The grid `read_grid` prepares before its loops: dimensions set, cells
resized. -/
theorem read_grid_prepared (is : List Char) (grid₀ : grid_t) :
    ∃ (W : Nat) (grid₁ : grid_t),
      read_grid is grid₀ = read_grid_rows (read_lines is) 0 grid₁ ∧
      grid₁.width = (W : Int) ∧ grid₁.height = ((read_lines is).length : Int) ∧
      grid₁.cells = vec_resize grid₀.cells (W * (read_lines is).length) cell_t.empty ∧
      (∀ l ∈ read_lines is, l.length ≤ W) ∧ (read_lines is = [] → W = 0) ∧
      (read_lines is ≠ [] → ∃ l ∈ read_lines is, l.length = W) := by
  obtain ⟨W, hW, hall, hnil, hne⟩ := max_line_size_spec (read_lines is)
  refine ⟨W, _, rfl, hW, rfl, ?_, hall, hnil, hne⟩
  show vec_resize _ _ _ = _
  rw [hW, ← Nat.cast_mul, Int.toNat_natCast]

/-- Either every character is accepted and `read_grid` succeeds, or it reports the
first character in scan order that is not accepted. -/
theorem read_grid_cases (is : List Char) (grid₀ : grid_t) :
    ((∀ l ∈ read_lines is, ∀ c ∈ l, valid_char c) ∧
        ∃ grid, read_grid is grid₀ = read_result.ok grid) ∨
      ∃ pre lpre c lpost post, read_lines is = pre ++ (lpre ++ c :: lpost) :: post ∧
        (∀ l ∈ pre, ∀ c' ∈ l, valid_char c') ∧ (∀ c' ∈ lpre, valid_char c') ∧
        ¬ valid_char c ∧
        read_grid is grid₀ =
          read_result.failed
            (read_error.invalid_character ⟨(lpre.length : Int), (pre.length : Int)⟩) := by
  classical
  obtain ⟨W, g₁, hrun, hW, _, hcells, hall, _, _⟩ := read_grid_prepared is grid₀
  have hlen : g₁.cells.length = W * (read_lines is).length := by
    rw [hcells, vec_resize_length]
  by_cases hvalid : ∀ l ∈ read_lines is, ∀ c ∈ l, valid_char c
  · left
    obtain ⟨g', hok, _⟩ := read_grid_rows_ok W (read_lines is) 0 g₁ hW hvalid hall
      (by rw [hlen, Nat.zero_add, Nat.mul_comm])
    exact ⟨hvalid, g', by rw [hrun]; simpa using hok⟩
  · right
    have hex : ∃ l ∈ read_lines is, ¬ (∀ c ∈ l, valid_char c) := by
      by_contra hcon
      apply hvalid
      intro l hl
      by_contra hl'
      exact hcon ⟨l, hl, hl'⟩
    obtain ⟨pre, line, post, hsplit, hpre, hline⟩ :=
      exists_first_failing (fun l : List Char => ∀ c ∈ l, valid_char c) (read_lines is) hex
    have hex' : ∃ c ∈ line, ¬ valid_char c := by
      by_contra hcon
      apply hline
      intro c hc
      by_contra hc'
      exact hcon ⟨c, hc, hc'⟩
    obtain ⟨lpre, c, lpost, hlsplit, hlpre, hc⟩ := exists_first_failing valid_char line hex'
    subst hlsplit
    refine ⟨pre, lpre, c, lpost, post, hsplit, hpre, hlpre, hc, ?_⟩
    have hfit : ∀ l ∈ pre, l.length ≤ W := fun l hl =>
      hall l (by rw [hsplit]; exact List.mem_append_left _ hl)
    have hlfit : lpre.length ≤ W := by
      have := hall (lpre ++ c :: lpost) (by rw [hsplit]; simp)
      simp only [List.length_append, List.length_cons] at this
      omega
    have hrows : (0 + pre.length + 1) * W ≤ g₁.cells.length := by
      rw [hlen, hsplit, Nat.mul_comm]
      apply Nat.mul_le_mul_left
      simp only [List.length_append, List.length_cons]
      omega
    have := read_grid_rows_invalid W lpre c lpost post hlpre hc hlfit pre 0 g₁ hW hpre hfit
      hrows
    rw [hrun, hsplit]
    simpa using this

theorem char_at_split (pre : List (List Char)) (lpre : List Char) (c : Char)
    (lpost : List Char) (post : List (List Char)) :
    char_at (pre ++ (lpre ++ c :: lpost) :: post) lpre.length pre.length = some c := by
  unfold char_at
  simp only [List.get?_eq_getElem?, List.getElem?_append_right (le_refl _), Nat.sub_self,
    List.getElem?_cons_zero, Option.some_bind]

theorem char_at_before (pre : List (List Char)) (lpre : List Char) (c : Char)
    (lpost : List Char) (post : List (List Char)) (x y : Nat) (c' : Char)
    (hpre : ∀ l ∈ pre, ∀ a ∈ l, valid_char a) (hlpre : ∀ a ∈ lpre, valid_char a)
    (hbefore : y < pre.length ∨ (y = pre.length ∧ x < lpre.length))
    (h : char_at (pre ++ (lpre ++ c :: lpost) :: post) x y = some c') :
    valid_char c' := by
  unfold char_at at h
  rcases hbefore with hy | ⟨rfl, hx⟩
  · simp only [List.get?_eq_getElem?, List.getElem?_append_left hy] at h
    rw [List.getElem?_eq_getElem hy] at h
    simp only [Option.some_bind] at h
    exact hpre _ (List.getElem_mem hy) c' (List.getElem?_mem h)
  · simp only [List.get?_eq_getElem?, List.getElem?_append_right (le_refl _), Nat.sub_self,
      List.getElem?_cons_zero, Option.some_bind, List.getElem?_append_left hx] at h
    exact hlpre c' (List.getElem?_mem h)
/-- On accepted characters `read_grid`, called on a grid without cells, succeeds:
the cells under a character hold that character's cell, all others are Empty. -/
theorem read_grid_ok_cells (is : List Char) (grid₀ : grid_t) (h₀ : grid₀.cells = [])
    (hvalid : ∀ line ∈ read_lines is, ∀ c ∈ line, valid_char c) :
    ∃ (W : Nat) (grid : grid_t), read_grid is grid₀ = read_result.ok grid ∧
      grid.width = (W : Int) ∧ grid.height = ((read_lines is).length : Int) ∧
      grid.cells.length = W * (read_lines is).length ∧
      (∀ l ∈ read_lines is, l.length ≤ W) ∧ (read_lines is = [] → W = 0) ∧
      (read_lines is ≠ [] → ∃ l ∈ read_lines is, l.length = W) ∧
      (∀ x y c, x < W → char_at (read_lines is) x y = some c →
        grid.cells[y * W + x]? = some (cell_of_char c)) ∧
      (∀ x y, x < W → y < (read_lines is).length → char_at (read_lines is) x y = none →
        grid.cells[y * W + x]? = some cell_t.empty) := by
  obtain ⟨W, g₁, hrun, hW, hH, hcells, hall, hnil, hne⟩ := read_grid_prepared is grid₀
  rw [h₀, vec_resize_nil] at hcells
  have hlen : g₁.cells.length = W * (read_lines is).length := by
    rw [hcells, List.length_replicate]
  obtain ⟨g', hok, hw', hh', hlen', ha, hb⟩ :=
    read_grid_rows_ok W (read_lines is) 0 g₁ hW hvalid hall
      (by rw [hlen, Nat.zero_add, Nat.mul_comm])
  refine ⟨W, g', by rw [hrun]; simpa using hok, by rw [hw', hW], by rw [hh', hH],
    by rw [hlen', hlen], hall, hnil, hne, ?_, ?_⟩
  · intro x y c hx hc
    have := ha x y c hx hc
    rw [Nat.zero_add] at this
    exact this
  · intro x y hx hy hc
    rw [hb x y hx (Or.inr (by simpa using hc)), hcells]
    have hin : y * W + x < W * (read_lines is).length := by
      have h1 : (y + 1) * W ≤ (read_lines is).length * W := Nat.mul_le_mul_right W hy
      have h2 : (y + 1) * W = y * W + W := by ring
      have h3 : (read_lines is).length * W = W * (read_lines is).length := Nat.mul_comm _ _
      omega
    rw [List.getElem?_replicate, if_pos hin]

/-- C4. When every character of every line is one of `#`, space, `s`, `t`,
`read_grid` (called, as in `main`, on a grid without cells) succeeds; the height
is the number of lines, the width the length of a longest line (0 without lines),
there are exactly `width * height` cells, and the cell at index `x + y * width` is
Wall when line `y` has `#` at column `x` and Empty otherwise: under `s`, `t` and
spaces and in the padding of shorter lines. -/
theorem read_grid_loads (is : List Char) (grid₀ : grid_t) (h₀ : grid₀.cells = [])
    (hvalid : ∀ line ∈ read_lines is, ∀ c ∈ line, valid_char c) :
    ∃ grid, read_grid is grid₀ = read_result.ok grid ∧
      grid.height = ((read_lines is).length : Int) ∧
      (∀ line ∈ read_lines is, (line.length : Int) ≤ grid.width) ∧
      (read_lines is = [] → grid.width = 0) ∧
      (read_lines is ≠ [] → ∃ line ∈ read_lines is, (line.length : Int) = grid.width) ∧
      cells_sized grid ∧
      ∀ x y : Nat, (x : Int) < grid.width → (y : Int) < grid.height →
        vec_at grid.cells (grid.index_of ⟨(x : Int), (y : Int)⟩) =
          some (if char_at (read_lines is) x y = some '#' then cell_t.wall
            else cell_t.empty) := by
  obtain ⟨W, g', hok, hwidth, hheight, hlen, hall, hnil, hne, ha, hb⟩ :=
    read_grid_ok_cells is grid₀ h₀ hvalid
  refine ⟨g', hok, hheight, ?_, ?_, ?_, ?_, ?_⟩
  · intro line hline
    rw [hwidth]
    exact_mod_cast hall line hline
  · intro h
    rw [hwidth, hnil h]
    rfl
  · intro h
    obtain ⟨l, hl, hlW⟩ := hne h
    exact ⟨l, hl, by rw [hwidth, hlW]⟩
  · unfold cells_sized
    rw [hlen, hwidth, hheight]
    push_cast
    rfl
  · intro x y hx hy
    rw [hwidth] at hx
    rw [hheight] at hy
    have hx' : x < W := by exact_mod_cast hx
    have hy' : y < (read_lines is).length := by exact_mod_cast hy
    rw [index_of_nat g' W x y hwidth, vec_at_nat]
    cases hc : char_at (read_lines is) x y with
    | some c =>
      rw [ha x y c hx' hc]
      unfold cell_of_char
      by_cases hsharp : c = '#'
      · rw [if_pos hsharp, if_pos (by rw [hsharp])]
      · rw [if_neg hsharp, if_neg (by simpa using hsharp)]
    | none =>
      rw [hb x y hx' hy' hc]
      simp

/-- C4, witness: the three-line maze of the tracing example. -/
theorem read_grid_loads_witness :
    ∃ grid, read_grid maze_open blank_grid = read_result.ok grid ∧
      grid.height = ((read_lines maze_open).length : Int) ∧
      (∀ line ∈ read_lines maze_open, (line.length : Int) ≤ grid.width) ∧
      (read_lines maze_open = [] → grid.width = 0) ∧
      (read_lines maze_open ≠ [] →
        ∃ line ∈ read_lines maze_open, (line.length : Int) = grid.width) ∧
      cells_sized grid ∧
      ∀ x y : Nat, (x : Int) < grid.width → (y : Int) < grid.height →
        vec_at grid.cells (grid.index_of ⟨(x : Int), (y : Int)⟩) =
          some (if char_at (read_lines maze_open) x y = some '#' then cell_t.wall
            else cell_t.empty) :=
  read_grid_loads maze_open blank_grid rfl (by unfold valid_char; decide)

/-- C5. `read_grid` fails exactly when some line holds a character other than `#`,
space, `s`, `t`; it then reports the coordinate of the first such character in
scan order (smallest row, then smallest column), and never a fault of its own
vector accesses. An `@` at column 3 of row 1 with nothing wrong before it is
reported as `(3, 1)`. -/
theorem read_grid_fails_iff (is : List Char) (grid₀ : grid_t) :
    ((∃ e, read_grid is grid₀ = read_result.failed e) ↔
        ∃ line ∈ read_lines is, ∃ c ∈ line, ¬ valid_char c) ∧
      (∀ e, read_grid is grid₀ = read_result.failed e →
        ∃ x y : Nat, e = read_error.invalid_character ⟨(x : Int), (y : Int)⟩ ∧
          (∃ c, char_at (read_lines is) x y = some c ∧ ¬ valid_char c) ∧
          ∀ x' y' c', (y' < y ∨ (y' = y ∧ x' < x)) →
            char_at (read_lines is) x' y' = some c' → valid_char c') ∧
      read_grid maze_bad blank_grid =
        read_result.failed (read_error.invalid_character ⟨3, 1⟩) := by
  refine ⟨⟨?_, ?_⟩, ?_, by decide⟩
  · intro ⟨e, he⟩
    rcases read_grid_cases is grid₀ with ⟨_, g, hok⟩ |
      ⟨pre, lpre, c, lpost, post, hsplit, _, _, hc, _⟩
    · rw [hok] at he
      exact absurd he (by simp)
    · exact ⟨lpre ++ c :: lpost, by rw [hsplit]; simp, c, by simp, hc⟩
  · intro ⟨line, hline, c, hc, hbad⟩
    rcases read_grid_cases is grid₀ with ⟨hvalid, _⟩ | ⟨_, _, _, _, _, _, _, _, _, hfail⟩
    · exact absurd (hvalid line hline c hc) hbad
    · exact ⟨_, hfail⟩
  · intro e he
    rcases read_grid_cases is grid₀ with ⟨_, g, hok⟩ |
      ⟨pre, lpre, c, lpost, post, hsplit, hpre, hlpre, hc, hfail⟩
    · rw [hok] at he
      exact absurd he (by simp)
    · rw [hfail] at he
      simp only [read_result.failed.injEq] at he
      refine ⟨lpre.length, pre.length, he.symm, ⟨c, ?_, hc⟩, ?_⟩
      · rw [hsplit]
        exact char_at_split pre lpre c lpost post
      · intro x' y' c' hbefore hchar
        rw [hsplit] at hchar
        exact char_at_before pre lpre c lpost post x' y' c' hpre hlpre hbefore hchar
/-! ## compute_intersections: no fault, five-bit values -/

theorem inside_grid_test_iff (grid : grid_t) (p : point_t) :
    inside_grid_test grid p = true ↔ inside_grid grid p := by
  simp [inside_grid_test, inside_grid, and_assoc]

theorem vec_set_of_range {α : Type} (v : List α) (i : Int) (a : α) (h0 : 0 ≤ i)
    (h1 : i < (v.length : Int)) : vec_set v i a = some (v.set i.toNat a) := by
  have : i.toNat < v.length := by omega
  simp [vec_set, h0, this]

theorem vec_or_of_range (v : List Nat) (i : Int) (flag : Nat) (h0 : 0 ≤ i)
    (h1 : i < (v.length : Int)) :
    ∃ value, v[i.toNat]? = some value ∧
      vec_or v i flag = some (v.set i.toNat (value ||| flag)) := by
  have hlt : i.toNat < v.length := by omega
  refine ⟨v[i.toNat], List.getElem?_eq_getElem hlt, ?_⟩
  unfold vec_or
  rw [vec_at_of_nonneg v i h0, List.getElem?_eq_getElem hlt]
  exact vec_set_of_range v i _ h0 h1

theorem flags_lt_32 (v flag : Nat) (hv : v < 32) (hf : flag < 32) : v ||| flag < 32 :=
  Nat.or_lt_two_pow (n := 5) hv hf

theorem set_values_lt (v : List Nat) (n a : Nat) (hv : ∀ b ∈ v, b < 32) (ha : a < 32) :
    ∀ b ∈ v.set n a, b < 32 := by
  intro b hb
  rcases List.mem_or_eq_of_mem_set hb with h | h
  · exact hv b h
  · rw [h]; exact ha

theorem vec_or_ok (grid : grid_t) (v : List Nat) (i : Int) (flag : Nat)
    (hv : intersections_ok grid v) (h0 : 0 ≤ i) (h1 : i < grid.width * grid.height)
    (hf : flag < 32) : ∃ v', vec_or v i flag = some v' ∧ intersections_ok grid v' := by
  have hlen : i < (v.length : Int) := by rw [hv.1]; omega
  obtain ⟨value, hval, hor⟩ := vec_or_of_range v i flag h0 hlen
  refine ⟨_, hor, by rw [List.length_set]; exact hv.1, ?_⟩
  exact set_values_lt v _ _ hv.2 (flags_lt_32 _ _ (hv.2 value (List.getElem?_mem hval)) hf)

theorem vec_or_pair_ok (grid : grid_t) (v : List Nat) (i j : Int) (fi fj : Nat)
    (hv : intersections_ok grid v) (hi0 : 0 ≤ i) (hi1 : i < grid.width * grid.height)
    (hj0 : 0 ≤ j) (hj1 : j < grid.width * grid.height) (hfi : fi < 32) (hfj : fj < 32) :
    ∃ v', vec_or_pair v i fi j fj = some v' ∧ intersections_ok grid v' := by
  obtain ⟨v₁, h₁, hv₁⟩ := vec_or_ok grid v i fi hv hi0 hi1 hfi
  obtain ⟨v₂, h₂, hv₂⟩ := vec_or_ok grid v₁ j fj hv₁ hj0 hj1 hfj
  exact ⟨v₂, by unfold vec_or_pair; rw [h₁]; exact h₂, hv₂⟩

theorem link_previous_ok (grid : grid_t) (p : point_t) (v : List Nat) (prev : Int)
    (hp : inside_grid grid p) (hv : intersections_ok grid v) (hprev : prev_ok grid prev) :
    ∃ v', link_previous grid p v (grid.index_of p) prev = some v' ∧
      intersections_ok grid v' := by
  have hi0 := index_of_nonneg grid p hp
  have hi1 := index_of_lt grid p hp
  have hw : 0 < grid.width := by
    obtain ⟨hx0, hx1, _, _⟩ := hp
    omega
  unfold link_previous
  rcases hprev with hsent | ⟨hj0, hj1⟩
  · rw [if_neg (by omega), if_neg (by omega), if_neg (by omega), if_neg (by omega)]
    exact ⟨v, rfl, hv⟩
  · split
    · exact vec_or_pair_ok grid v _ _ _ _ hv hi0 hi1 hj0 hj1 (by decide) (by decide)
    · split
      · exact vec_or_pair_ok grid v _ _ _ _ hv hi0 hi1 hj0 hj1 (by decide) (by decide)
      · split
        · exact vec_or_pair_ok grid v _ _ _ _ hv hi0 hi1 hj0 hj1 (by decide) (by decide)
        · split
          · exact vec_or_pair_ok grid v _ _ _ _ hv hi0 hi1 hj0 hj1 (by decide) (by decide)
          · exact ⟨v, rfl, hv⟩

theorem compute_intersections_loop_outside (grid : grid_t) (p : point_t)
    (rest : List point_t) (v : List Nat) (prev : Int) (hp : ¬ inside_grid grid p) :
    compute_intersections_loop grid (p :: rest) v prev =
      compute_intersections_loop grid rest v (-(grid.width + 1)) := by
  have : inside_grid_test grid p = false := by
    rw [← Bool.not_eq_true, inside_grid_test_iff]
    exact hp
  rw [compute_intersections_loop, this]
  rfl

theorem compute_intersections_loop_inside (grid : grid_t) (p : point_t)
    (rest : List point_t) (v : List Nat) (prev : Int) (hp : inside_grid grid p) :
    compute_intersections_loop grid (p :: rest) v prev =
      match vec_set v (grid.index_of p) intersection_t.visited with
      | none => none
      | some marked =>
        match link_previous grid p marked (grid.index_of p) prev with
        | none => none
        | some linked => compute_intersections_loop grid rest linked (grid.index_of p) := by
  have : inside_grid_test grid p = true := (inside_grid_test_iff grid p).mpr hp
  rw [compute_intersections_loop, this]
  rfl

theorem compute_intersections_loop_ok (grid : grid_t) :
    ∀ (path : List point_t) (v : List Nat) (prev : Int), intersections_ok grid v →
      prev_ok grid prev →
      ∃ v', compute_intersections_loop grid path v prev = some v' ∧
        intersections_ok grid v' := by
  intro path
  induction path with
  | nil =>
    intro v prev hv _
    exact ⟨v, rfl, hv⟩
  | cons p rest ih =>
    intro v prev hv hprev
    by_cases hp : inside_grid grid p
    · rw [compute_intersections_loop_inside grid p rest v prev hp]
      have hi0 := index_of_nonneg grid p hp
      have hi1 := index_of_lt grid p hp
      have hlen : grid.index_of p < (v.length : Int) := by rw [hv.1]; omega
      rw [vec_set_of_range v _ _ hi0 hlen]
      have hmarked : intersections_ok grid (v.set (grid.index_of p).toNat intersection_t.visited) :=
        ⟨by rw [List.length_set]; exact hv.1, set_values_lt v _ _ hv.2 (by decide)⟩
      obtain ⟨linked, hlink, hlinked⟩ := link_previous_ok grid p _ prev hp hmarked hprev
      dsimp only
      rw [hlink]
      exact ih linked _ hlinked (Or.inr ⟨hi0, hi1⟩)
    · rw [compute_intersections_loop_outside grid p rest v prev hp]
      exact ih v _ hv (Or.inl rfl)

/-- On a grid whose `width * height` is not negative `compute_intersections`
performs no out-of-range access and yields one five-bit value per cell. -/
theorem compute_intersections_ok (grid : grid_t) (path : List point_t)
    (h : 0 ≤ grid.width * grid.height) :
    ∃ v, compute_intersections grid path = some v ∧ intersections_ok grid v := by
  unfold compute_intersections
  rw [if_neg (by omega)]
  apply compute_intersections_loop_ok grid path _ _ _ (Or.inl rfl)
  refine ⟨List.length_replicate _ _, ?_⟩
  intro b hb
  rw [(List.mem_replicate.mp hb).2]
  decide
/-! ## print_path: the shape of the output -/

theorem row_glyphs_succ (grid : grid_t) (v : List Nat) (y : Int) (n : Nat) (x₀ : Int) :
    row_glyphs grid v y (n + 1) x₀ = cell_glyph grid v x₀ y :: row_glyphs grid v y n (x₀ + 1) := by
  unfold row_glyphs
  rw [List.range_succ_eq_map, List.map_cons, List.map_map]
  congr 1
  · simp
  · apply List.map_congr_left
    intro i _
    simp only [Function.comp, Nat.cast_succ]
    congr 1
    ring

theorem glyph_rows_succ (grid : grid_t) (v : List Nat) (n : Nat) (y₀ : Int) :
    glyph_rows grid v (n + 1) y₀ =
      row_glyphs grid v y₀ grid.width.toNat 0 :: glyph_rows grid v n (y₀ + 1) := by
  unfold glyph_rows
  rw [List.range_succ_eq_map, List.map_cons, List.map_map]
  congr 1
  · simp
  · apply List.map_congr_left
    intro i _
    simp only [Function.comp, Nat.cast_succ]
    congr 1
    ring

theorem row_glyphs_length (grid : grid_t) (v : List Nat) (y : Int) (n : Nat) (x₀ : Int) :
    (row_glyphs grid v y n x₀).length = n := by
  simp [row_glyphs]

theorem glyph_rows_length (grid : grid_t) (v : List Nat) (n : Nat) (y₀ : Int) :
    (glyph_rows grid v n y₀).length = n := by
  simp [glyph_rows]

/-- The inner loop of `print_path` writes the glyphs of its row and a line feed. -/
theorem print_row_eq (grid : grid_t) (v : List Nat) (y : Int) :
    ∀ (n : Nat) (x₀ : Int),
      (∀ i : Nat, i < n → ∃ c, print_cell grid v (x₀ + (i : Int)) y = some c) →
      print_row grid v y n x₀ = some (row_glyphs grid v y n x₀ ++ ['\n']) := by
  intro n
  induction n with
  | zero =>
    intro x₀ _
    rfl
  | succ n ih =>
    intro x₀ h
    obtain ⟨c, hc⟩ := h 0 (by omega)
    simp only [Nat.cast_zero, add_zero] at hc
    have hrest := ih (x₀ + 1) (by
      intro i hi
      obtain ⟨c', hc'⟩ := h (i + 1) (by omega)
      refine ⟨c', ?_⟩
      rw [← hc']
      congr 1
      push_cast
      ring)
    rw [print_row, hc]
    dsimp only
    rw [hrest, row_glyphs_succ]
    simp [cell_glyph, hc]

/-- The outer loop of `print_path` writes its rows one after the other. -/
theorem print_rows_eq (grid : grid_t) (v : List Nat) :
    ∀ (n : Nat) (y₀ : Int),
      (∀ (j i : Nat), j < n → i < grid.width.toNat →
        ∃ c, print_cell grid v (i : Int) (y₀ + (j : Int)) = some c) →
      print_rows grid v n y₀ = some (unlines (glyph_rows grid v n y₀)) := by
  intro n
  induction n with
  | zero =>
    intro y₀ _
    rfl
  | succ n ih =>
    intro y₀ h
    have hrow := print_row_eq grid v y₀ grid.width.toNat 0 (by
      intro i hi
      obtain ⟨c, hc⟩ := h 0 i (by omega) hi
      exact ⟨c, by simpa using hc⟩)
    have hrest := ih (y₀ + 1) (by
      intro j i hj hi
      obtain ⟨c, hc⟩ := h (j + 1) i (by omega) hi
      refine ⟨c, ?_⟩
      rw [← hc]
      congr 1
      push_cast
      ring)
    rw [print_rows, hrow]
    dsimp only
    rw [hrest, glyph_rows_succ]
    simp [unlines]

theorem unlines_cons (row : List Char) (rows : List (List Char)) :
    unlines (row :: rows) = row ++ '\n' :: unlines rows := by
  simp [unlines]

/-- In a text of lines of equal length `m`, line `j` occupies the offsets
`j * (m + 1)` to `j * (m + 1) + m - 1` and is followed by a line feed. -/
theorem unlines_getElem? (m : Nat) :
    ∀ (rows : List (List Char)), (∀ row ∈ rows, row.length = m) →
      (unlines rows).length = rows.length * (m + 1) ∧
      ∀ (j : Nat) (row : List Char), rows[j]? = some row →
        (∀ i, i < m → (unlines rows)[j * (m + 1) + i]? = row[i]?) ∧
        (unlines rows)[j * (m + 1) + m]? = some '\n' := by
  intro rows
  induction rows with
  | nil =>
    intro _
    refine ⟨by simp [unlines], ?_⟩
    intro j row h
    simp at h
  | cons r rows ih =>
    intro hlen
    have hr : r.length = m := hlen r (List.mem_cons_self _ _)
    obtain ⟨ihlen, ihget⟩ := ih (fun row hrow => hlen row (List.mem_cons_of_mem _ hrow))
    rw [unlines_cons]
    refine ⟨?_, ?_⟩
    · simp only [List.length_append, List.length_cons, ihlen, hr]
      ring
    · intro j row hj
      cases j with
      | zero =>
        simp only [List.getElem?_cons_zero, Option.some.injEq] at hj
        subst hj
        refine ⟨?_, ?_⟩
        · intro i hi
          rw [Nat.zero_mul, Nat.zero_add, List.getElem?_append_left (by omega)]
        · rw [Nat.zero_mul, Nat.zero_add, List.getElem?_append_right (by omega), hr,
            Nat.sub_self, List.getElem?_cons_zero]
      | succ j =>
        rw [List.getElem?_cons_succ] at hj
        obtain ⟨h1, h2⟩ := ihget j row hj
        have hshift : ∀ i, (j + 1) * (m + 1) + i = r.length + ((j * (m + 1) + i) + 1) := by
          intro i
          rw [hr]
          ring
        refine ⟨?_, ?_⟩
        · intro i hi
          rw [hshift i, List.getElem?_append_right (by omega), Nat.add_sub_cancel_left,
            List.getElem?_cons_succ]
          exact h1 i hi
        · rw [hshift m, List.getElem?_append_right (by omega), Nat.add_sub_cancel_left,
            List.getElem?_cons_succ]
          exact h2
theorem intersection_graphics_no_newline :
    ∀ c ∈ intersection_graphics, c ≠ '\n' := by
  decide

theorem intersection_graphics_defined (value : Nat) (h : value < 32) :
    ∃ c, vec_at intersection_graphics (value : Int) = some c ∧ c ≠ '\n' := by
  have hlt : value < intersection_graphics.length := h
  refine ⟨intersection_graphics[value], ?_, ?_⟩
  · rw [vec_at_nat, List.getElem?_eq_getElem hlt]
  · exact intersection_graphics_no_newline _ (List.getElem_mem hlt)

theorem intersection_defined (grid : grid_t) (v : List Nat) (p : point_t)
    (hv : intersections_ok grid v) (hp : inside_grid grid p) :
    ∃ value, vec_at v (grid.index_of p) = some value ∧ value < 32 := by
  have hi0 := index_of_nonneg grid p hp
  have hi1 := index_of_lt grid p hp
  obtain ⟨value, hval⟩ := vec_at_isSome v _ hi0 (by rw [hv.1]; omega)
  refine ⟨value, hval, hv.2 value ?_⟩
  rw [vec_at_of_nonneg v _ hi0] at hval
  exact List.getElem?_mem hval

/-- Inside the grid the loop body of `print_path` performs no out-of-range access
and writes a character that is not a line feed. -/
theorem print_cell_defined (grid : grid_t) (v : List Nat) (x y : Int)
    (hlen : cells_sized grid) (hv : intersections_ok grid v)
    (hp : inside_grid grid ⟨x, y⟩) :
    ∃ c, print_cell grid v x y = some c ∧ c ≠ '\n' := by
  obtain ⟨cell, hcell⟩ := cell_defined grid _ hlen hp
  obtain ⟨value, hval, hlt⟩ := intersection_defined grid v _ hv hp
  unfold print_cell
  dsimp only
  rw [hcell]
  cases cell with
  | empty =>
    dsimp only
    split
    · exact ⟨_, rfl, by decide⟩
    · split
      · exact ⟨_, rfl, by decide⟩
      · rw [hval]
        exact intersection_graphics_defined value hlt
  | wall =>
    dsimp only
    rw [hval]
    refine ⟨_, rfl, ?_⟩
    split <;> decide

theorem cell_glyph_eq (grid : grid_t) (v : List Nat) (x y : Int) (c : Char)
    (h : print_cell grid v x y = some c) : cell_glyph grid v x y = c := by
  simp [cell_glyph, h]

theorem row_glyphs_getElem? (grid : grid_t) (v : List Nat) (y : Int) (n i : Nat)
    (hi : i < n) :
    (row_glyphs grid v y n 0)[i]? = some (cell_glyph grid v (i : Int) y) := by
  simp [row_glyphs, hi]

theorem glyph_rows_getElem? (grid : grid_t) (v : List Nat) (n j : Nat) (hj : j < n) :
    (glyph_rows grid v n 0)[j]? = some (row_glyphs grid v (j : Int) grid.width.toNat 0) := by
  simp [glyph_rows, hj]

/-- On a grid of non-negative dimensions with `width * height` cells `print_path`
writes the glyph rows of the grid, each followed by a line feed. -/
theorem print_path_eq (grid : grid_t) (path : List point_t) (hw : 0 ≤ grid.width)
    (hh : 0 ≤ grid.height) (hlen : cells_sized grid) :
    ∃ v, compute_intersections grid path = some v ∧ intersections_ok grid v ∧
      print_path grid path = some (unlines (glyph_rows grid v grid.height.toNat 0)) := by
  obtain ⟨v, hci, hv⟩ := compute_intersections_ok grid path (mul_nonneg hw hh)
  refine ⟨v, hci, hv, ?_⟩
  unfold print_path
  rw [hci]
  dsimp only
  apply print_rows_eq
  intro j i hj hi
  obtain ⟨c, hc, _⟩ := print_cell_defined grid v (i : Int) (0 + (j : Int)) hlen hv
    ⟨by show (0 : Int) ≤ (i : Int); omega, by show (i : Int) < grid.width; omega,
      by show (0 : Int) ≤ 0 + (j : Int); omega,
      by show (0 : Int) + (j : Int) < grid.height; omega⟩
  exact ⟨c, hc⟩

theorem glyph_rows_row_length (grid : grid_t) (v : List Nat) (n : Nat) :
    ∀ row ∈ glyph_rows grid v n 0, row.length = grid.width.toNat := by
  intro row hrow
  obtain ⟨j, hj⟩ := List.getElem?_of_mem hrow
  have hjlt : j < n := by
    have := (List.getElem?_eq_some.mp hj).1
    rwa [glyph_rows_length] at this
  rw [glyph_rows_getElem? grid v n j hjlt] at hj
  simp only [Option.some.injEq] at hj
  rw [← hj, row_glyphs_length]

/-- In the text of the glyph rows the offset `y * (width + 1) + x` holds the glyph
of cell `(x, y)`. -/
theorem unlines_glyph_rows_at (grid : grid_t) (v : List Nat) (x y : Int)
    (hlen : cells_sized grid) (hv : intersections_ok grid v)
    (hp : inside_grid grid ⟨x, y⟩) :
    ∃ c, print_cell grid v x y = some c ∧ c ≠ '\n' ∧
      vec_at (unlines (glyph_rows grid v grid.height.toNat 0))
        (y * (grid.width + 1) + x) = some c := by
  obtain ⟨c, hc, hnl⟩ := print_cell_defined grid v x y hlen hv hp
  obtain ⟨hx0, hx1, hy0, hy1⟩ := hp
  simp only at hx0 hx1 hy0 hy1
  obtain ⟨i, rfl⟩ : ∃ i : Nat, x = (i : Int) := ⟨x.toNat, by omega⟩
  obtain ⟨j, rfl⟩ : ∃ j : Nat, y = (j : Int) := ⟨y.toNat, by omega⟩
  have hi : i < grid.width.toNat := by omega
  have hj : j < grid.height.toNat := by omega
  obtain ⟨_, hget⟩ := unlines_getElem? grid.width.toNat
    (glyph_rows grid v grid.height.toNat 0) (glyph_rows_row_length grid v _)
  obtain ⟨hcols, _⟩ := hget j _ (glyph_rows_getElem? grid v _ j hj)
  refine ⟨c, hc, hnl, ?_⟩
  have hidx : (j : Int) * (grid.width + 1) + (i : Int) =
      ((j * (grid.width.toNat + 1) + i : Nat) : Int) := by
    push_cast
    rw [Int.toNat_of_nonneg (by omega)]
  rw [hidx, vec_at_nat, hcols i hi, row_glyphs_getElem? grid v _ _ i hi,
    cell_glyph_eq grid v _ _ c hc]

/-- In the text of the glyph rows the offset `y * (width + 1) + width` holds the
line feed that ends row `y`. -/
theorem unlines_glyph_rows_feed (grid : grid_t) (v : List Nat) (y : Int)
    (hw : 0 ≤ grid.width) (hy0 : 0 ≤ y) (hy1 : y < grid.height) :
    vec_at (unlines (glyph_rows grid v grid.height.toNat 0))
      (y * (grid.width + 1) + grid.width) = some '\n' := by
  obtain ⟨j, rfl⟩ : ∃ j : Nat, y = (j : Int) := ⟨y.toNat, by omega⟩
  have hj : j < grid.height.toNat := by omega
  obtain ⟨_, hget⟩ := unlines_getElem? grid.width.toNat
    (glyph_rows grid v grid.height.toNat 0) (glyph_rows_row_length grid v _)
  obtain ⟨_, hfeed⟩ := hget j _ (glyph_rows_getElem? grid v _ j hj)
  have hidx : (j : Int) * (grid.width + 1) + grid.width =
      ((j * (grid.width.toNat + 1) + grid.width.toNat : Nat) : Int) := by
    push_cast
    rw [Int.toNat_of_nonneg hw]
  rw [hidx, vec_at_nat]
  exact hfeed

theorem unlines_glyph_rows_length (grid : grid_t) (v : List Nat) (hw : 0 ≤ grid.width)
    (hh : 0 ≤ grid.height) :
    ((unlines (glyph_rows grid v grid.height.toNat 0)).length : Int) =
      grid.height * (grid.width + 1) := by
  obtain ⟨hlength, _⟩ := unlines_getElem? grid.width.toNat
    (glyph_rows grid v grid.height.toNat 0) (glyph_rows_row_length grid v _)
  rw [hlength, glyph_rows_length]
  push_cast
  rw [Int.toNat_of_nonneg hw, Int.toNat_of_nonneg hh]

/-- C10. On a grid of non-negative dimensions with exactly `width * height` cells
the output of `print_path` has length `height * (width + 1)`; for every row `y`
the characters at offsets `y * (width + 1) + x`, `0 <= x < width`, are the glyphs
of the cells `(x, y)`, none of them a line feed, and the character at offset
`y * (width + 1) + width` is the line feed ending the row. -/
theorem print_path_layout (grid : grid_t) (path : List point_t) (hw : 0 ≤ grid.width)
    (hh : 0 ≤ grid.height) (hlen : cells_sized grid) :
    ∃ v out, compute_intersections grid path = some v ∧
      print_path grid path = some out ∧
      (out.length : Int) = grid.height * (grid.width + 1) ∧
      ∀ y : Int, 0 ≤ y → y < grid.height →
        (∀ x : Int, 0 ≤ x → x < grid.width →
          ∃ c, print_cell grid v x y = some c ∧ c ≠ '\n' ∧
            vec_at out (y * (grid.width + 1) + x) = some c) ∧
        vec_at out (y * (grid.width + 1) + grid.width) = some '\n' := by
  obtain ⟨v, hci, hv, hout⟩ := print_path_eq grid path hw hh hlen
  refine ⟨v, _, hci, hout, unlines_glyph_rows_length grid v hw hh, ?_⟩
  intro y hy0 hy1
  refine ⟨?_, unlines_glyph_rows_feed grid v y hw hy0 hy1⟩
  intro x hx0 hx1
  exact unlines_glyph_rows_at grid v x y hlen hv ⟨hx0, hx1, hy0, hy1⟩

/-- C10, witness: the maze `s t` with its traced path. -/
theorem print_path_layout_witness :
    ∃ v out, compute_intersections grid_s_t [⟨0, 0⟩, ⟨1, 0⟩, ⟨2, 0⟩] = some v ∧
      print_path grid_s_t [⟨0, 0⟩, ⟨1, 0⟩, ⟨2, 0⟩] = some out ∧
      (out.length : Int) = grid_s_t.height * (grid_s_t.width + 1) ∧
      ∀ y : Int, 0 ≤ y → y < grid_s_t.height →
        (∀ x : Int, 0 ≤ x → x < grid_s_t.width →
          ∃ c, print_cell grid_s_t v x y = some c ∧ c ≠ '\n' ∧
            vec_at out (y * (grid_s_t.width + 1) + x) = some c) ∧
        vec_at out (y * (grid_s_t.width + 1) + grid_s_t.width) = some '\n' :=
  print_path_layout grid_s_t [⟨0, 0⟩, ⟨1, 0⟩, ⟨2, 0⟩] (by decide) (by decide)
    (by unfold cells_sized; decide)
/-! ## The glyph table -/

/-- C8. The table `intersection_graphics` has 32 entries, indexed by the value
with bits Up = 1, Left = 2, Right = 4, Down = 8, Visited = 16. Entry 0 is a space
and entry 16 (Visited alone) is `o`. With Visited set and one or two direction
bits the entry is one of `|`, `-`, `/`, `\`: `|` when only Up and Down occur, `-`
when only Left and Right occur, `/` for Up+Left and Down+Right, `\` for Up+Right
and Down+Left. With Visited set and three or four direction bits it is `?`. -/
theorem intersection_graphics_entries :
    intersection_graphics.length = 32 ∧
      intersection_t.up = 1 ∧ intersection_t.left = 2 ∧ intersection_t.right = 4 ∧
      intersection_t.down = 8 ∧ intersection_t.visited = 16 ∧
      glyph_of 0 = some ' ' ∧ glyph_of intersection_t.visited = some 'o' ∧
      (∀ value : Nat, value < 32 → value &&& intersection_t.visited ≠ 0 →
        (direction_count value = 1 ∨ direction_count value = 2) →
        glyph_of value = some '|' ∨ glyph_of value = some '-' ∨
          glyph_of value = some '/' ∨ glyph_of value = some '\\') ∧
      (∀ value : Nat, value < 32 → value &&& intersection_t.visited ≠ 0 →
        1 ≤ direction_count value →
        value &&& (intersection_t.left ||| intersection_t.right) = 0 →
        glyph_of value = some '|') ∧
      (∀ value : Nat, value < 32 → value &&& intersection_t.visited ≠ 0 →
        1 ≤ direction_count value →
        value &&& (intersection_t.up ||| intersection_t.down) = 0 →
        glyph_of value = some '-') ∧
      glyph_of (intersection_t.visited ||| intersection_t.up ||| intersection_t.left) =
        some '/' ∧
      glyph_of (intersection_t.visited ||| intersection_t.down ||| intersection_t.right) =
        some '/' ∧
      glyph_of (intersection_t.visited ||| intersection_t.up ||| intersection_t.right) =
        some '\\' ∧
      glyph_of (intersection_t.visited ||| intersection_t.down ||| intersection_t.left) =
        some '\\' ∧
      (∀ value : Nat, value < 32 → value &&& intersection_t.visited ≠ 0 →
        3 ≤ direction_count value → glyph_of value = some '?') := by
  refine ⟨rfl, rfl, rfl, rfl, rfl, rfl, by decide, by decide, by decide, by decide,
    by decide, by decide, by decide, by decide, by decide, by decide⟩
/-! ## print_path: the glyph of a cell -/

theorem print_cell_start (grid : grid_t) (v : List Nat)
    (h : vec_at grid.cells (grid.index_of grid.start) = some cell_t.empty) :
    print_cell grid v grid.start.x grid.start.y = some 's' := by
  unfold print_cell
  dsimp only
  rw [h]
  simp

theorem print_cell_target (grid : grid_t) (v : List Nat)
    (h : vec_at grid.cells (grid.index_of grid.target) = some cell_t.empty)
    (hne : grid.target ≠ grid.start) :
    print_cell grid v grid.target.x grid.target.y = some 't' := by
  have hne' : ¬ (grid.start.x = grid.target.x ∧ grid.start.y = grid.target.y) := by
    intro ⟨hx, hy⟩
    apply hne
    cases hs : grid.start with
    | mk sx sy =>
      cases ht : grid.target with
      | mk tx ty =>
        rw [hs, ht] at hx hy
        simp only at hx hy
        rw [hx, hy]
  unfold print_cell
  dsimp only
  rw [h]
  dsimp only
  rw [if_neg hne']
  simp

theorem print_cell_wall (grid : grid_t) (v : List Nat) (x y : Int) (value : Nat)
    (h : vec_at grid.cells (grid.index_of ⟨x, y⟩) = some cell_t.wall)
    (hv : vec_at v (grid.index_of ⟨x, y⟩) = some value) :
    print_cell grid v x y = some (if value = 0 then '#' else 'X') := by
  unfold print_cell
  dsimp only
  rw [h]
  dsimp only
  rw [hv]

theorem print_cell_empty (grid : grid_t) (v : List Nat) (x y : Int) (value : Nat)
    (h : vec_at grid.cells (grid.index_of ⟨x, y⟩) = some cell_t.empty)
    (hs : grid.start ≠ ⟨x, y⟩) (ht : grid.target ≠ ⟨x, y⟩)
    (hv : vec_at v (grid.index_of ⟨x, y⟩) = some value) :
    print_cell grid v x y = glyph_of value := by
  have hs' : ¬ (grid.start.x = x ∧ grid.start.y = y) := by
    intro ⟨hx, hy⟩
    apply hs
    rw [← hx, ← hy]
  have ht' : ¬ (grid.target.x = x ∧ grid.target.y = y) := by
    intro ⟨hx, hy⟩
    apply ht
    rw [← hx, ← hy]
  unfold print_cell
  dsimp only
  rw [h]
  dsimp only
  rw [if_neg hs', if_neg ht', hv]
  rfl

/-- C7, counterexample. On a grid whose start and target lie on Wall cells
`print_path` writes `#` at both coordinates, neither `s` nor `t`. -/
theorem walled_markers_not_printed :
    cells_sized grid_walled ∧ inside_grid grid_walled grid_walled.start ∧
      inside_grid grid_walled grid_walled.target ∧
      grid_walled.target ≠ grid_walled.start ∧
      print_path grid_walled [] = some ['#', '#', '\n'] := by
  refine ⟨by unfold cells_sized; decide, by unfold inside_grid; decide,
    by unfold inside_grid; decide, by decide, by decide⟩

/-- C7, amended. On a grid with exactly `width * height` cells and start and
target inside it, for every path, `print_path` writes `s` at the start coordinate
when the start cell is Empty and `t` at the target coordinate when the target
cell is Empty and differs from the start, whatever the intersection records; a
start or target on a Wall cell is written as that Wall cell, `#` or `X`. -/
theorem print_path_markers (grid : grid_t) (path : List point_t) (hlen : cells_sized grid)
    (hs : inside_grid grid grid.start) (ht : inside_grid grid grid.target) :
    ∃ out, print_path grid path = some out ∧
      (cell_is grid grid.start cell_t.empty →
        (∀ v, print_cell grid v grid.start.x grid.start.y = some 's') ∧
        vec_at out (grid.start.y * (grid.width + 1) + grid.start.x) = some 's') ∧
      (cell_is grid grid.target cell_t.empty → grid.target ≠ grid.start →
        (∀ v, print_cell grid v grid.target.x grid.target.y = some 't') ∧
        vec_at out (grid.target.y * (grid.width + 1) + grid.target.x) = some 't') ∧
      (cell_is grid grid.start cell_t.wall →
        vec_at out (grid.start.y * (grid.width + 1) + grid.start.x) = some '#' ∨
        vec_at out (grid.start.y * (grid.width + 1) + grid.start.x) = some 'X') ∧
      (cell_is grid grid.target cell_t.wall →
        vec_at out (grid.target.y * (grid.width + 1) + grid.target.x) = some '#' ∨
        vec_at out (grid.target.y * (grid.width + 1) + grid.target.x) = some 'X') := by
  have hs' := hs
  obtain ⟨hsx0, hsx1, hsy0, hsy1⟩ := hs'
  have ht' := ht
  obtain ⟨htx0, htx1, hty0, hty1⟩ := ht'
  obtain ⟨v, _, hv, hout⟩ := print_path_eq grid path (by omega) (by omega) hlen
  obtain ⟨cs, hcs, _, hcs'⟩ := unlines_glyph_rows_at grid v _ _ hlen hv hs
  obtain ⟨ct, hct, _, hct'⟩ := unlines_glyph_rows_at grid v _ _ hlen hv ht
  refine ⟨_, hout, ?_, ?_, ?_, ?_⟩
  · intro ⟨_, hcell⟩
    refine ⟨fun v' => print_cell_start grid v' hcell, ?_⟩
    rw [print_cell_start grid v hcell] at hcs
    rw [hcs', ← hcs]
  · intro ⟨_, hcell⟩ hne
    refine ⟨fun v' => print_cell_target grid v' hcell hne, ?_⟩
    rw [print_cell_target grid v hcell hne] at hct
    rw [hct', ← hct]
  · intro ⟨_, hcell⟩
    obtain ⟨value, hval, _⟩ := intersection_defined grid v _ hv hs
    rw [print_cell_wall grid v _ _ value hcell hval] at hcs
    rw [hcs', ← hcs]
    by_cases h0 : value = 0
    · left; rw [if_pos h0]
    · right; rw [if_neg h0]
  · intro ⟨_, hcell⟩
    obtain ⟨value, hval, _⟩ := intersection_defined grid v _ hv ht
    rw [print_cell_wall grid v _ _ value hcell hval] at hct
    rw [hct', ← hct]
    by_cases h0 : value = 0
    · left; rw [if_pos h0]
    · right; rw [if_neg h0]

/-- C7, witness of the amended claim: the bordered corner maze with its traced
path. -/
theorem print_path_markers_witness :
    ∃ out, print_path grid_corner [⟨1, 1⟩, ⟨1, 2⟩, ⟨2, 2⟩] = some out ∧
      (cell_is grid_corner grid_corner.start cell_t.empty →
        (∀ v, print_cell grid_corner v grid_corner.start.x grid_corner.start.y = some 's') ∧
        vec_at out (grid_corner.start.y * (grid_corner.width + 1) + grid_corner.start.x) =
          some 's') ∧
      (cell_is grid_corner grid_corner.target cell_t.empty →
        grid_corner.target ≠ grid_corner.start →
        (∀ v, print_cell grid_corner v grid_corner.target.x grid_corner.target.y = some 't') ∧
        vec_at out (grid_corner.target.y * (grid_corner.width + 1) + grid_corner.target.x) =
          some 't') ∧
      (cell_is grid_corner grid_corner.start cell_t.wall →
        vec_at out (grid_corner.start.y * (grid_corner.width + 1) + grid_corner.start.x) =
          some '#' ∨
        vec_at out (grid_corner.start.y * (grid_corner.width + 1) + grid_corner.start.x) =
          some 'X') ∧
      (cell_is grid_corner grid_corner.target cell_t.wall →
        vec_at out (grid_corner.target.y * (grid_corner.width + 1) + grid_corner.target.x) =
          some '#' ∨
        vec_at out (grid_corner.target.y * (grid_corner.width + 1) + grid_corner.target.x) =
          some 'X') :=
  print_path_markers grid_corner [⟨1, 1⟩, ⟨1, 2⟩, ⟨2, 2⟩] (by unfold cells_sized; decide)
    (by unfold inside_grid; decide) (by unfold inside_grid; decide)
/-! ## compute_intersections along a rightward run -/

/-- The first inside point after the sentinel is marked Visited and nothing
else happens. -/
theorem compute_intersections_loop_first (grid : grid_t) (p : point_t)
    (rest : List point_t) (v : List Nat) (I : Nat) (hp : inside_grid grid p)
    (hv : intersections_ok grid v) (hI : grid.index_of p = (I : Int)) :
    compute_intersections_loop grid (p :: rest) v (-(grid.width + 1)) =
      compute_intersections_loop grid rest (v.set I intersection_t.visited) (I : Int) := by
  have hi1 := index_of_lt grid p hp
  have hw : 0 < grid.width := by
    obtain ⟨hx0, hx1, _, _⟩ := hp
    omega
  have hlen : (I : Int) < (v.length : Int) := by rw [hv.1]; omega
  rw [compute_intersections_loop_inside grid p rest v _ hp, hI,
    vec_set_of_range v _ _ (by omega) hlen]
  dsimp only
  unfold link_previous
  rw [if_neg (by omega), if_neg (by omega), if_neg (by omega), if_neg (by omega)]
  simp

/-- A step to the right neighbour of the previous point marks the new cell
Visited+Left and adds Right to the previous cell. -/
theorem compute_intersections_loop_right (grid : grid_t) (p : point_t)
    (rest : List point_t) (v : List Nat) (I : Nat) (hp : inside_grid grid p)
    (hv : intersections_ok grid v) (hI : grid.index_of p = (I : Int)) (hI1 : 1 ≤ I)
    (hx : 0 < p.x) :
    ∃ v₁, compute_intersections_loop grid (p :: rest) v ((I : Int) - 1) =
        compute_intersections_loop grid rest v₁ (I : Int) ∧
      intersections_ok grid v₁ ∧
      ∀ j, v₁[j]? =
        if j = I - 1 then (v[j]?).map (fun value => value ||| intersection_t.right)
        else if j = I then some 18 else v[j]? := by
  have hi1 := index_of_lt grid p hp
  have hw : 0 < grid.width := by
    obtain ⟨hx0, hx1, _, _⟩ := hp
    omega
  have hIlt : I < v.length := by
    have : (I : Int) < (v.length : Int) := by rw [hv.1]; omega
    omega
  have hprev : ((I : Int) - 1) = ((I - 1 : Nat) : Int) := by omega
  rw [compute_intersections_loop_inside grid p rest v _ hp, hI,
    vec_set_of_range v _ _ (by omega) (by omega)]
  dsimp only
  unfold link_previous
  rw [if_neg (by omega), if_neg (by omega), if_pos ⟨by omega, hx⟩]
  unfold vec_or_pair
  obtain ⟨a, ha, hor₁⟩ := vec_or_of_range (v.set (I : Int).toNat intersection_t.visited)
    (I : Int) intersection_t.left (by omega) (by rw [List.length_set]; omega)
  rw [hor₁]
  dsimp only
  obtain ⟨b, hb, hor₂⟩ := vec_or_of_range
    (((v.set (I : Int).toNat intersection_t.visited).set (I : Int).toNat
      (a ||| intersection_t.left))) ((I : Int) - 1) intersection_t.right (by omega)
    (by rw [List.length_set, List.length_set]; omega)
  rw [hor₂]
  simp only [Int.toNat_ofNat] at ha hb hor₁ hor₂ ⊢
  have ha' : a = intersection_t.visited := by
    rw [List.getElem?_set_self hIlt] at ha
    exact (Option.some.inj ha).symm
  have hb' : v[I - 1]? = some b := by
    rw [hprev, Int.toNat_ofNat, List.getElem?_set_ne (by omega),
      List.getElem?_set_ne (by omega)] at hb
    exact hb
  have hblt : b < 32 := hv.2 b (List.getElem?_mem hb')
  refine ⟨_, rfl, ⟨?_, ?_⟩, ?_⟩
  · simp only [List.length_set]
    exact hv.1
  · apply set_values_lt _ _ _ _ (flags_lt_32 _ _ hblt (by decide))
    apply set_values_lt _ _ _ _ (by rw [ha']; decide)
    exact set_values_lt _ _ _ hv.2 (by decide)
  · intro j
    rw [hprev, Int.toNat_ofNat]
    by_cases hj1 : j = I - 1
    · subst hj1
      rw [if_pos rfl, List.getElem?_set_self (by simp only [List.length_set]; omega), hb']
      rfl
    · rw [if_neg hj1, List.getElem?_set_ne (by omega)]
      by_cases hj2 : j = I
      · subst hj2
        rw [if_pos rfl, List.getElem?_set_self (by simp only [List.length_set]; omega), ha']
        rfl
      · rw [if_neg hj2, List.getElem?_set_ne (by omega), List.getElem?_set_ne (by omega)]

theorem index_of_right (grid : grid_t) (x y : Int) :
    grid.index_of ⟨x + 1, y⟩ = grid.index_of ⟨x, y⟩ + 1 := by
  unfold grid_t.index_of
  ring

/-- Along a rightward run entered from its left neighbour every cell but the
last ends as Visited+Left+Right (22), the last as Visited+Left (18), and the
left neighbour gains Right. -/
theorem compute_intersections_loop_run (grid : grid_t) (y : Int) :
    ∀ (k : Nat) (x : Int) (v : List Nat) (I : Nat), intersections_ok grid v →
      (∀ i : Nat, i ≤ k → inside_grid grid ⟨x + (i : Int), y⟩) →
      grid.index_of ⟨x, y⟩ = (I : Int) → 1 ≤ I → 0 < x →
      ∃ v', compute_intersections_loop grid (rightward_run x y k) v ((I : Int) - 1) =
          some v' ∧
        ∀ j, v'[j]? =
          if j = I - 1 then (v[j]?).map (fun value => value ||| intersection_t.right)
          else if I ≤ j ∧ j < I + k then some 22
          else if j = I + k then some 18 else v[j]? := by
  intro k
  induction k with
  | zero =>
    intro x v I hv hin hI hI1 hx
    have hp : inside_grid grid ⟨x, y⟩ := by simpa using hin 0 (le_refl _)
    obtain ⟨v₁, hstep, _, hget⟩ :=
      compute_intersections_loop_right grid ⟨x, y⟩ [] v I hp hv hI hI1 hx
    refine ⟨v₁, by rw [rightward_run, hstep]; rfl, ?_⟩
    intro j
    rw [hget j]
    split_ifs <;> first | rfl | (exfalso; omega)
  | succ k ih =>
    intro x v I hv hin hI hI1 hx
    have hp : inside_grid grid ⟨x, y⟩ := by simpa using hin 0 (Nat.zero_le _)
    obtain ⟨v₁, hstep, hv₁, hget₁⟩ :=
      compute_intersections_loop_right grid ⟨x, y⟩ (rightward_run (x + 1) y k) v I hp hv hI
        hI1 hx
    have hI' : grid.index_of ⟨x + 1, y⟩ = ((I + 1 : Nat) : Int) := by
      rw [index_of_right, hI]
      push_cast
      rfl
    obtain ⟨v', hrun, hget'⟩ := ih (x + 1) v₁ (I + 1) hv₁ (by
      intro i hi
      have := hin (i + 1) (by omega)
      have hcast : x + 1 + (i : Int) = x + ((i + 1 : Nat) : Int) := by push_cast; ring
      rw [hcast]
      exact this) hI' (by omega) (by omega)
    have hback : (((I + 1 : Nat) : Int) - 1) = (I : Int) := by push_cast; ring
    rw [hback] at hrun
    refine ⟨v', by rw [rightward_run, hstep]; exact hrun, ?_⟩
    intro j
    rw [hget' j]
    simp only [Nat.add_sub_cancel]
    by_cases hj2 : j = I
    · subst hj2
      rw [if_pos rfl, hget₁, if_neg (by omega), if_pos rfl, if_neg (by omega),
        if_pos (by omega)]
      rfl
    · rw [if_neg hj2, hget₁ j]
      split_ifs <;> first | rfl | (exfalso; omega)
theorem index_of_shift (grid : grid_t) (x y : Int) (i : Nat) (I : Nat)
    (hI : grid.index_of ⟨x, y⟩ = (I : Int)) :
    grid.index_of ⟨x + (i : Int), y⟩ = ((I + i : Nat) : Int) := by
  unfold grid_t.index_of at hI ⊢
  push_cast
  rw [← hI]
  ring

/-- The intersection values `compute_intersections` gives the interior cells of a
rightward run: Visited+Left+Right. -/
theorem compute_intersections_run (grid : grid_t) (x y : Int) (k : Nat)
    (hin : ∀ i : Nat, i ≤ k + 1 → inside_grid grid ⟨x + (i : Int), y⟩) :
    ∃ v, compute_intersections grid (rightward_run x y (k + 1)) = some v ∧
      ∀ i : Nat, 0 < i → i < k + 1 →
        vec_at v (grid.index_of ⟨x + (i : Int), y⟩) = some 22 := by
  have hp : inside_grid grid ⟨x, y⟩ := by simpa using hin 0 (Nat.zero_le _)
  have hp' := hp
  obtain ⟨hx0, hx1, hy0, hy1⟩ := hp'
  simp only at hx0 hx1 hy0 hy1
  have hnonneg : 0 ≤ grid.width * grid.height := mul_nonneg (by omega) (by omega)
  obtain ⟨I, hI⟩ : ∃ I : Nat, grid.index_of ⟨x, y⟩ = (I : Int) :=
    ⟨(grid.index_of ⟨x, y⟩).toNat, by have := index_of_nonneg grid _ hp; omega⟩
  have hv₀ : intersections_ok grid (List.replicate (grid.width * grid.height).toNat 0) := by
    refine ⟨List.length_replicate _ _, ?_⟩
    intro b hb
    rw [(List.mem_replicate.mp hb).2]
    decide
  have hv₁ : intersections_ok grid
      ((List.replicate (grid.width * grid.height).toNat 0).set I intersection_t.visited) :=
    ⟨by rw [List.length_set]; exact hv₀.1, set_values_lt _ _ _ hv₀.2 (by decide)⟩
  have hI' : grid.index_of ⟨x + 1, y⟩ = ((I + 1 : Nat) : Int) := by
    rw [index_of_right, hI]
    push_cast
    rfl
  obtain ⟨v', hrun, hget⟩ := compute_intersections_loop_run grid y k (x + 1) _ (I + 1) hv₁
    (by
      intro i hi
      have := hin (i + 1) (by omega)
      have hcast : x + 1 + (i : Int) = x + ((i + 1 : Nat) : Int) := by push_cast; ring
      rw [hcast]
      exact this) hI' (by omega) (by omega)
  have hback : (((I + 1 : Nat) : Int) - 1) = (I : Int) := by push_cast; ring
  rw [hback] at hrun
  refine ⟨v', ?_, ?_⟩
  · unfold compute_intersections
    rw [if_neg (by omega), rightward_run,
      compute_intersections_loop_first grid ⟨x, y⟩ _ _ I hp hv₀ hI]
    exact hrun
  · intro i hi0 hi1
    rw [index_of_shift grid x y i I hI, vec_at_nat, hget (I + i), if_neg (by omega),
      if_pos (by omega)]

/-- C6. On a grid with exactly `width * height` cells, for the path that is the
straight rightward run `(x, y), ..., (x + k, y)`, `k >= 2`, over Empty cells
inside the grid, `print_path` writes `-` at every interior cell of the run that
is neither start nor target. In particular the line `s t` loads as a 3x1 grid,
is traced as `(0,0), (1,0), (2,0)` and rendered as `s-t` and a line feed. -/
theorem print_path_rightward_run (grid : grid_t) (x y : Int) (k : Nat)
    (hlen : cells_sized grid) (hk : 2 ≤ k)
    (hcells : ∀ i : Nat, i ≤ k → cell_is grid ⟨x + (i : Int), y⟩ cell_t.empty) :
    (∃ out, print_path grid (rightward_run x y k) = some out ∧
        ∀ i : Nat, 0 < i → i < k → grid.start ≠ ⟨x + (i : Int), y⟩ →
          grid.target ≠ ⟨x + (i : Int), y⟩ →
          vec_at out (y * (grid.width + 1) + (x + (i : Int))) = some '-') ∧
      read_grid "s t".data blank_grid = read_result.ok grid_s_t ∧
      compute_path grid_s_t 2 = path_result.returned (rightward_run 0 0 2) ∧
      print_path grid_s_t (rightward_run 0 0 2) = some "s-t\n".data := by
  refine ⟨?_, by decide, by decide, by decide⟩
  obtain ⟨k', rfl⟩ : ∃ k', k = k' + 1 := ⟨k - 1, by omega⟩
  have hp : inside_grid grid ⟨x, y⟩ := by simpa using (hcells 0 (Nat.zero_le _)).1
  obtain ⟨hx0, hx1, hy0, hy1⟩ := hp
  simp only at hx0 hx1 hy0 hy1
  obtain ⟨v, hci, hv, hout⟩ :=
    print_path_eq grid (rightward_run x y (k' + 1)) (by omega) (by omega) hlen
  obtain ⟨v', hci', hget⟩ := compute_intersections_run grid x y k' (fun i hi => (hcells i hi).1)
  rw [hci] at hci'
  simp only [Option.some.injEq] at hci'
  subst hci'
  refine ⟨_, hout, ?_⟩
  intro i hi0 hi1 hs ht
  obtain ⟨hin, hcell⟩ := hcells i (by omega)
  obtain ⟨c, hc, _, hat⟩ := unlines_glyph_rows_at grid v _ _ hlen hv hin
  rw [print_cell_empty grid v _ _ 22 hcell hs ht (hget i hi0 hi1)] at hc
  rw [hat, ← hc]
  decide

/-- C6, witness: the run `(0,0), (1,0), (2,0)` on the maze `s t`. -/
theorem print_path_rightward_run_witness :
    (∃ out, print_path grid_s_t (rightward_run 0 0 2) = some out ∧
        ∀ i : Nat, 0 < i → i < 2 → grid_s_t.start ≠ ⟨0 + (i : Int), 0⟩ →
          grid_s_t.target ≠ ⟨0 + (i : Int), 0⟩ →
          vec_at out (0 * (grid_s_t.width + 1) + (0 + (i : Int))) = some '-') ∧
      read_grid "s t".data blank_grid = read_result.ok grid_s_t ∧
      compute_path grid_s_t 2 = path_result.returned (rightward_run 0 0 2) ∧
      print_path grid_s_t (rightward_run 0 0 2) = some "s-t\n".data :=
  print_path_rightward_run grid_s_t 0 0 2 (by unfold cells_sized; decide) (by decide)
    (by unfold cell_is inside_grid; decide)
/-! ## read_lines on printed text -/

theorem getline_split_append (rest : List Char) :
    ∀ row : List Char, '\n' ∉ row → getline_split (row ++ '\n' :: rest) = (row, rest) := by
  intro row
  induction row with
  | nil =>
    intro _
    simp [getline_split]
  | cons c row ih =>
    intro h
    have hc : c ≠ '\n' := fun hc => h (by rw [hc]; exact List.mem_cons_self _ _)
    have hrow : '\n' ∉ row := fun hmem => h (List.mem_cons_of_mem _ hmem)
    rw [List.cons_append, getline_split, if_neg hc, ih hrow]

theorem getline_append (row rest : List Char) (h : '\n' ∉ row) :
    getline (row ++ '\n' :: rest) = some (row, rest) := by
  have := getline_split_append rest row h
  cases row with
  | nil =>
    rw [List.nil_append] at this ⊢
    rw [getline, this]
  | cons c row =>
    rw [List.cons_append] at this ⊢
    rw [getline, this]

theorem read_lines_loop_unlines :
    ∀ (rows : List (List Char)) (fuel : Nat), (∀ row ∈ rows, '\n' ∉ row) →
      rows.length < fuel → read_lines_loop fuel (unlines rows) = rows := by
  intro rows
  induction rows with
  | nil =>
    intro fuel _ hfuel
    obtain ⟨f, rfl⟩ : ∃ f, fuel = f + 1 := ⟨fuel - 1, by omega⟩
    rfl
  | cons row rows ih =>
    intro fuel hrows hfuel
    simp only [List.length_cons] at hfuel
    obtain ⟨f, rfl⟩ : ∃ f, fuel = f + 1 := ⟨fuel - 1, by omega⟩
    rw [unlines_cons, read_lines_loop, getline_append row _ (hrows row (List.mem_cons_self _ _))]
    dsimp only
    rw [ih f (fun r hr => hrows r (List.mem_cons_of_mem _ hr)) (by omega)]

theorem unlines_length_ge (rows : List (List Char)) : rows.length ≤ (unlines rows).length := by
  induction rows with
  | nil => simp
  | cons row rows ih =>
    rw [unlines_cons]
    simp only [List.length_append, List.length_cons]
    omega

/-- Splitting a text of lines without line feeds, each followed by a line feed,
gives back the lines. -/
theorem read_lines_unlines (rows : List (List Char)) (h : ∀ row ∈ rows, '\n' ∉ row) :
    read_lines (unlines rows) = rows := by
  unfold read_lines
  exact read_lines_loop_unlines rows _ h (by have := unlines_length_ge rows; omega)

/-! ## Loading what print_path wrote -/

theorem compute_intersections_nil (grid : grid_t) (h : 0 ≤ grid.width * grid.height) :
    compute_intersections grid [] =
      some (List.replicate (grid.width * grid.height).toNat 0) := by
  unfold compute_intersections
  rw [if_neg (by omega)]
  rfl

/-- Without a path every cell is written as a character that `read_grid` accepts
and reads back as the same cell. -/
theorem print_cell_bare (grid : grid_t) (x y : Int) (hlen : cells_sized grid)
    (hp : inside_grid grid ⟨x, y⟩) :
    ∃ c cell, vec_at grid.cells (grid.index_of ⟨x, y⟩) = some cell ∧
      print_cell grid (List.replicate (grid.width * grid.height).toNat 0) x y = some c ∧
      valid_char c ∧ cell_of_char c = cell := by
  obtain ⟨cell, hcell⟩ := cell_defined grid _ hlen hp
  have hi0 := index_of_nonneg grid _ hp
  have hi1 := index_of_lt grid _ hp
  have hval : vec_at (List.replicate (grid.width * grid.height).toNat 0)
      (grid.index_of ⟨x, y⟩) = some 0 := by
    rw [vec_at_of_nonneg _ _ hi0, List.getElem?_replicate, if_pos (by omega)]
  cases cell with
  | wall =>
    refine ⟨'#', cell_t.wall, hcell, ?_, Or.inl rfl, by decide⟩
    rw [print_cell_wall grid _ x y 0 hcell hval]
    rfl
  | empty =>
    by_cases hs : grid.start = ⟨x, y⟩
    · refine ⟨'s', cell_t.empty, hcell, ?_, Or.inr (Or.inr (Or.inl rfl)), by decide⟩
      have := print_cell_start grid (List.replicate (grid.width * grid.height).toNat 0)
        (by rw [hs]; exact hcell)
      rw [hs] at this
      exact this
    · by_cases ht : grid.target = ⟨x, y⟩
      · refine ⟨'t', cell_t.empty, hcell, ?_, Or.inr (Or.inr (Or.inr rfl)), by decide⟩
        have := print_cell_target grid (List.replicate (grid.width * grid.height).toNat 0)
          (by rw [ht]; exact hcell) (by rw [ht]; exact fun h => hs h.symm)
        rw [ht] at this
        exact this
      · refine ⟨' ', cell_t.empty, hcell, ?_, Or.inr (Or.inl rfl), by decide⟩
        rw [print_cell_empty grid _ x y 0 hcell hs ht hval]
        decide
theorem char_at_glyph_rows (grid : grid_t) (v : List Nat) (n x y : Nat)
    (hx : x < grid.width.toNat) (hy : y < n) :
    char_at (glyph_rows grid v n 0) x y = some (cell_glyph grid v (x : Int) (y : Int)) := by
  unfold char_at
  rw [List.get?_eq_getElem?, glyph_rows_getElem? grid v n y hy]
  simp only [Option.some_bind, List.get?_eq_getElem?]
  exact row_glyphs_getElem? grid v _ _ x hx

theorem char_at_of_mem (rows : List (List Char)) (row : List Char) (c : Char)
    (hrow : row ∈ rows) (hc : c ∈ row) : ∃ x y, char_at rows x y = some c := by
  obtain ⟨y, hy⟩ := List.getElem?_of_mem hrow
  obtain ⟨x, hx⟩ := List.getElem?_of_mem hc
  refine ⟨x, y, ?_⟩
  unfold char_at
  rw [List.get?_eq_getElem?, hy]
  simp only [Option.some_bind, List.get?_eq_getElem?]
  exact hx

theorem char_at_lt (rows : List (List Char)) (x y : Nat) (c : Char)
    (h : char_at rows x y = some c) :
    ∃ row, rows[y]? = some row ∧ y < rows.length ∧ x < row.length := by
  unfold char_at at h
  rw [List.get?_eq_getElem?] at h
  cases hrow : rows[y]? with
  | none => rw [hrow] at h; exact absurd h (by simp)
  | some row =>
    rw [hrow] at h
    simp only [Option.some_bind, List.get?_eq_getElem?] at h
    exact ⟨row, rfl, (List.getElem?_eq_some.mp hrow).1, (List.getElem?_eq_some.mp h).1⟩

/-- The glyph rows of a grid printed without a path: accepted characters only,
each reading back as the cell it was printed for. -/
theorem glyph_rows_bare (grid : grid_t) (hw : 0 ≤ grid.width)
    (hlen : cells_sized grid) (x y : Nat) (hx : x < grid.width.toNat)
    (hy : y < grid.height.toNat) :
    ∃ c cell,
      char_at (glyph_rows grid (List.replicate (grid.width * grid.height).toNat 0)
        grid.height.toNat 0) x y = some c ∧
      valid_char c ∧ cell_of_char c = cell ∧
      grid.cells[y * grid.width.toNat + x]? = some cell := by
  have hp : inside_grid grid ⟨(x : Int), (y : Int)⟩ :=
    ⟨by show (0 : Int) ≤ (x : Int); omega, by show (x : Int) < grid.width; omega,
      by show (0 : Int) ≤ (y : Int); omega, by show (y : Int) < grid.height; omega⟩
  obtain ⟨c, cell, hcell, hprint, hvalid, hback⟩ := print_cell_bare grid _ _ hlen hp
  refine ⟨c, cell, ?_, hvalid, hback, ?_⟩
  · rw [char_at_glyph_rows grid _ _ x y hx hy, cell_glyph_eq grid _ _ _ c hprint]
  · rw [index_of_nat grid grid.width.toNat x y (by omega), vec_at_nat] at hcell
    exact hcell

/-- C9. For every grid with `width >= 1`, `height >= 1` and exactly
`width * height` cells (wherever its start and target lie), the text `print_path`
writes for the empty path is read back by `read_grid`, through `read_lines`, into
a grid of the same width and height with the same cell at every index. -/
theorem read_grid_print_path (grid grid₀ : grid_t) (hw : 1 ≤ grid.width)
    (hh : 1 ≤ grid.height) (hlen : cells_sized grid) (h₀ : grid₀.cells = []) :
    ∃ out grid', print_path grid [] = some out ∧
      (read_lines out).length = grid.height.toNat ∧
      read_grid out grid₀ = read_result.ok grid' ∧
      grid'.width = grid.width ∧ grid'.height = grid.height ∧
      grid'.cells = grid.cells := by
  have hnonneg : 0 ≤ grid.width * grid.height := mul_nonneg (by omega) (by omega)
  obtain ⟨v, hci, _, hout⟩ := print_path_eq grid [] (by omega) (by omega) hlen
  rw [compute_intersections_nil grid hnonneg] at hci
  simp only [Option.some.injEq] at hci
  subst hci
  have hrows_valid : ∀ row ∈ glyph_rows grid
      (List.replicate (grid.width * grid.height).toNat 0) grid.height.toNat 0,
      ∀ c ∈ row, valid_char c := by
    intro row hrow c hc
    obtain ⟨x, y, hxy⟩ := char_at_of_mem _ row c hrow hc
    obtain ⟨row', hrow', hy, hx⟩ := char_at_lt _ x y c hxy
    rw [glyph_rows_length] at hy
    have hlen' := glyph_rows_row_length grid _ _ row' (List.getElem?_mem hrow')
    rw [hlen'] at hx
    obtain ⟨c', _, hc', hv', _, _⟩ := glyph_rows_bare grid (by omega) hlen x y hx hy
    rw [hxy] at hc'
    simp only [Option.some.injEq] at hc'
    rw [hc']
    exact hv'
  have hlines : read_lines (unlines (glyph_rows grid
      (List.replicate (grid.width * grid.height).toNat 0) grid.height.toNat 0)) =
      glyph_rows grid (List.replicate (grid.width * grid.height).toNat 0)
        grid.height.toNat 0 := by
    apply read_lines_unlines
    intro row hrow hmem
    have := hrows_valid row hrow _ hmem
    revert this
    unfold valid_char
    decide
  obtain ⟨W, g', hok, hwidth, hheight, hcells_len, hall, _, hne, ha, _⟩ :=
    read_grid_ok_cells _ grid₀ h₀ (by rw [hlines]; exact hrows_valid)
  rw [hlines] at hheight hcells_len hall hne ha
  rw [glyph_rows_length] at hheight hcells_len
  have hW : W = grid.width.toNat := by
    obtain ⟨l, hl, hlW⟩ := hne (by
      intro hnil
      have := glyph_rows_length grid
        (List.replicate (grid.width * grid.height).toNat 0) grid.height.toNat 0
      rw [hnil] at this
      simp only [List.length_nil] at this
      omega)
    rw [← hlW]
    exact glyph_rows_row_length grid _ _ l hl
  subst hW
  refine ⟨_, g', hout, by rw [hlines, glyph_rows_length], hok, by rw [hwidth]; omega,
    by rw [hheight]; omega, ?_⟩
  have hglen : grid.cells.length = grid.width.toNat * grid.height.toNat := by
    have : (grid.cells.length : Int) = grid.width * grid.height := hlen
    have h1 : ((grid.width.toNat * grid.height.toNat : Nat) : Int) =
        grid.width * grid.height := by
      push_cast
      rw [Int.toNat_of_nonneg (by omega), Int.toNat_of_nonneg (by omega)]
    omega
  apply List.ext_getElem?
  intro n
  by_cases hn : n < grid.width.toNat * grid.height.toNat
  · have hWpos : 0 < grid.width.toNat := by omega
    have hx : n % grid.width.toNat < grid.width.toNat := Nat.mod_lt _ hWpos
    have hy : n / grid.width.toNat < grid.height.toNat := by
      apply Nat.div_lt_of_lt_mul
      exact hn
    have hsplit : n = n / grid.width.toNat * grid.width.toNat + n % grid.width.toNat := by
      rw [Nat.mul_comm]
      exact (Nat.div_add_mod n grid.width.toNat).symm
    obtain ⟨c, cell, hchar, _, hback, hcell⟩ :=
      glyph_rows_bare grid (by omega) hlen _ _ hx hy
    have := ha _ _ c hx hchar
    rw [← hsplit] at this hcell
    rw [this, hcell, hback]
  · rw [List.getElem?_eq_none (by omega), List.getElem?_eq_none (by omega)]

/-- C9, witness: the bordered corner maze. -/
theorem read_grid_print_path_witness :
    ∃ out grid', print_path grid_corner [] = some out ∧
      (read_lines out).length = grid_corner.height.toNat ∧
      read_grid out blank_grid = read_result.ok grid' ∧
      grid'.width = grid_corner.width ∧ grid'.height = grid_corner.height ∧
      grid'.cells = grid_corner.cells :=
  read_grid_print_path grid_corner blank_grid (by decide) (by decide)
    (by unfold cells_sized; decide) rfl
/-! ## The input without lines -/

theorem read_lines_eq_nil (is : List Char) (h : read_lines is = []) : is = [] := by
  cases is with
  | nil => rfl
  | cons c cs =>
    unfold read_lines at h
    rw [List.length_cons, read_lines_loop, getline] at h
    exact absurd h (by simp)

theorem compute_intersections_loop_all_outside (grid : grid_t) (v : List Nat) :
    ∀ (path : List point_t) (prev : Int), (∀ p ∈ path, ¬ inside_grid grid p) →
      compute_intersections_loop grid path v prev = some v := by
  intro path
  induction path with
  | nil =>
    intro prev _
    rfl
  | cons p rest ih =>
    intro prev h
    rw [compute_intersections_loop_outside grid p rest v prev (h p (List.mem_cons_self _ _))]
    exact ih _ (fun q hq => h q (List.mem_cons_of_mem _ hq))

/-- C13. An input without lines (the empty stream is the only one) loads as a grid
of width 0 and height 0 without cells. On that grid, when start and target
coincide (both the zero coordinate in particular), `compute_path` returns the
one-element path `[start]` without running its loop body, hence without any cell
lookup, and `print_path` of any path, that one included, accesses nothing out of
range and writes nothing. -/
theorem read_grid_no_lines (grid₀ : grid_t) :
    (∀ is, read_lines is = [] → is = []) ∧
      read_grid [] grid₀ = read_result.ok (empty_grid grid₀) ∧
      (empty_grid grid₀).width = 0 ∧ (empty_grid grid₀).height = 0 ∧
      (empty_grid grid₀).cells = [] ∧
      (grid₀.start = grid₀.target →
        compute_path (empty_grid grid₀) 0 = path_result.returned [grid₀.start]) ∧
      (∀ path, compute_intersections (empty_grid grid₀) path = some [] ∧
        print_path (empty_grid grid₀) path = some []) ∧
      read_grid [] blank_grid = read_result.ok blank_grid ∧
      compute_path blank_grid 0 = path_result.returned [⟨0, 0⟩] ∧
      print_path blank_grid [⟨0, 0⟩] = some [] := by
  refine ⟨read_lines_eq_nil, ?_, rfl, rfl, rfl, ?_, ?_, by decide, by decide, by decide⟩
  · unfold read_grid
    simp [read_lines, read_lines_loop, getline, max_line_size, read_grid_rows, vec_resize,
      empty_grid]
  · intro h
    unfold compute_path
    rw [compute_path_loop_zero]
    have hnt : not_at_target (empty_grid grid₀) (compute_path_init (empty_grid grid₀)) =
        false := by
      simp [not_at_target, compute_path_init, empty_grid, h]
    rw [hnt]
    rfl
  · intro path
    have hci : compute_intersections (empty_grid grid₀) path = some [] := by
      unfold compute_intersections
      rw [if_neg (by simp [empty_grid])]
      have hrep : List.replicate ((empty_grid grid₀).width * (empty_grid grid₀).height).toNat 0
          = ([] : List Nat) := by
        simp [empty_grid]
      rw [hrep]
      apply compute_intersections_loop_all_outside
      intro p _ ⟨hx0, hx1, _⟩
      have : (empty_grid grid₀).width = 0 := rfl
      omega
    refine ⟨hci, ?_⟩
    unfold print_path
    rw [hci]
    rfl
/-! ## One iteration of the walker -/

theorem directions_eq (d : Int) (h0 : 0 ≤ d) (h4 : d < 4) :
    vec_at directions d = some (direction_of d) := by
  interval_cases d <;> decide

theorem compute_path_step_wall_wall (grid : grid_t) (w : walker_t)
    (h0 : 0 ≤ w.currentDirection) (h4 : w.currentDirection < 4)
    (hahead : vec_at grid.cells
      (grid.index_of (step_from w.currentPosition w.currentDirection)) = some cell_t.wall)
    (hleft : vec_at grid.cells
      (grid.index_of (step_from w.currentPosition ((w.currentDirection - 1) % 4))) =
        some cell_t.wall) :
    compute_path_step grid w =
      some ⟨w.currentPosition, (w.currentDirection + 1) % 4, w.path⟩ := by
  have hmod : (w.currentDirection - 1 + 4) % 4 = (w.currentDirection - 1) % 4 := by omega
  unfold compute_path_step
  rw [directions_eq _ h0 h4]
  unfold step_from at hahead hleft
  dsimp only
  rw [hahead]
  dsimp only
  rw [hmod, directions_eq _ (by omega) (by omega)]
  dsimp only
  rw [hleft]

theorem compute_path_step_wall_open (grid : grid_t) (w : walker_t)
    (h0 : 0 ≤ w.currentDirection) (h4 : w.currentDirection < 4)
    (hahead : vec_at grid.cells
      (grid.index_of (step_from w.currentPosition w.currentDirection)) = some cell_t.wall)
    (hleft : vec_at grid.cells
      (grid.index_of (step_from w.currentPosition ((w.currentDirection - 1) % 4))) =
        some cell_t.empty) :
    compute_path_step grid w =
      some ⟨w.currentPosition, (w.currentDirection - 1) % 4, w.path⟩ := by
  have hmod : (w.currentDirection - 1 + 4) % 4 = (w.currentDirection - 1) % 4 := by omega
  unfold compute_path_step
  rw [directions_eq _ h0 h4]
  unfold step_from at hahead hleft
  dsimp only
  rw [hahead]
  dsimp only
  rw [hmod, directions_eq _ (by omega) (by omega)]
  dsimp only
  rw [hleft]

theorem compute_path_step_open (grid : grid_t) (w : walker_t)
    (h0 : 0 ≤ w.currentDirection) (h4 : w.currentDirection < 4)
    (hahead : vec_at grid.cells
      (grid.index_of (step_from w.currentPosition w.currentDirection)) = some cell_t.empty) :
    compute_path_step grid w =
      some ⟨step_from w.currentPosition w.currentDirection, w.currentDirection,
        w.path ++ [step_from w.currentPosition w.currentDirection]⟩ := by
  unfold compute_path_step
  rw [directions_eq _ h0 h4]
  unfold step_from at hahead ⊢
  dsimp only
  rw [hahead]

/-- C18. The loop of `compute_path` starts facing Right, direction 0 of Right
`(1,0)`, Down `(0,1)`, Left `(-1,0)`, Up `(0,-1)`. One iteration from a state that
is not at the target and faces direction `d` runs the loop body once. When the
cell ahead is Wall, position and path stay and the facing becomes `(d+1) mod 4`
if the cell one step in direction `(d-1) mod 4` is Wall too, and `(d-1) mod 4` if
that cell is Empty. When the cell ahead is Empty, the facing stays, the position
becomes the cell ahead and exactly that coordinate is appended to the path. -/
theorem compute_path_iteration (grid : grid_t) (w : walker_t)
    (hnt : not_at_target grid w = true)
    (h0 : 0 ≤ w.currentDirection) (h4 : w.currentDirection < 4) :
    (compute_path_init grid).currentDirection = 0 ∧
      direction_of 0 = ⟨1, 0⟩ ∧ direction_of 1 = ⟨0, 1⟩ ∧
      direction_of 2 = ⟨-1, 0⟩ ∧ direction_of 3 = ⟨0, -1⟩ ∧
      (∀ n, compute_path_loop grid (n + 1) w =
        match compute_path_step grid w with
        | none => path_result.out_of_range
        | some w' => compute_path_loop grid n w') ∧
      (vec_at grid.cells
          (grid.index_of (step_from w.currentPosition w.currentDirection)) =
            some cell_t.wall →
        (vec_at grid.cells
            (grid.index_of (step_from w.currentPosition ((w.currentDirection - 1) % 4))) =
              some cell_t.wall →
          compute_path_step grid w =
            some ⟨w.currentPosition, (w.currentDirection + 1) % 4, w.path⟩) ∧
        (vec_at grid.cells
            (grid.index_of (step_from w.currentPosition ((w.currentDirection - 1) % 4))) =
              some cell_t.empty →
          compute_path_step grid w =
            some ⟨w.currentPosition, (w.currentDirection - 1) % 4, w.path⟩)) ∧
      (vec_at grid.cells
          (grid.index_of (step_from w.currentPosition w.currentDirection)) =
            some cell_t.empty →
        compute_path_step grid w =
          some ⟨step_from w.currentPosition w.currentDirection, w.currentDirection,
            w.path ++ [step_from w.currentPosition w.currentDirection]⟩) := by
  refine ⟨rfl, rfl, rfl, rfl, rfl, ?_, ?_, ?_⟩
  · intro n
    rw [compute_path_loop_succ, if_pos hnt]
  · intro hahead
    exact ⟨compute_path_step_wall_wall grid w h0 h4 hahead,
      compute_path_step_wall_open grid w h0 h4 hahead⟩
  · exact compute_path_step_open grid w h0 h4

/-- C18, witness: the first iteration on the bordered corner maze, where the
walker at `(1,1)` facing Right has walls ahead and to its left and turns to
face Down. -/
theorem compute_path_iteration_witness :
    compute_path_step grid_corner (compute_path_init grid_corner) =
      some ⟨⟨1, 1⟩, 1, [⟨1, 1⟩]⟩ :=
  ((compute_path_iteration grid_corner (compute_path_init grid_corner) (by decide)
    (by decide) (by decide)).2.2.2.2.2.2.1 (by decide)).1 (by decide)
/-! ## Invariants of the walker's loop -/

theorem compute_path_run_zero (grid : grid_t) (w : walker_t) :
    compute_path_run grid 0 w = some w := rfl

theorem compute_path_run_succ (grid : grid_t) (n : Nat) (w : walker_t) :
    compute_path_run grid (n + 1) w =
      if not_at_target grid w then
        match compute_path_step grid w with
        | none => none
        | some w' => compute_path_run grid n w'
      else none := rfl

/-- A property of the walker state that the loop body preserves holds after any
number of iterations. -/
theorem compute_path_run_invariant (grid : grid_t) (P : walker_t → Prop)
    (hstep : ∀ w w', P w → compute_path_step grid w = some w' → P w') :
    ∀ (n : Nat) (w w' : walker_t), P w → compute_path_run grid n w = some w' → P w' := by
  intro n
  induction n with
  | zero =>
    intro w w' hw h
    rw [compute_path_run_zero] at h
    simp only [Option.some.injEq] at h
    rw [← h]
    exact hw
  | succ n ih =>
    intro w w' hw h
    rw [compute_path_run_succ] at h
    split at h
    · cases hs : compute_path_step grid w with
      | none => rw [hs] at h; exact absurd h (by simp)
      | some w₁ =>
        rw [hs] at h
        exact ih w₁ w' (hstep w w₁ hw hs) h
    · exact absurd h (by simp)

/-- A returned path is the path of a state reached by the loop. -/
theorem compute_path_loop_returned_run (grid : grid_t) :
    ∀ (fuel : Nat) (w : walker_t) (path : List point_t),
      compute_path_loop grid fuel w = path_result.returned path →
      ∃ n w', compute_path_run grid n w = some w' ∧ w'.path = path := by
  intro fuel
  induction fuel with
  | zero =>
    intro w path h
    rw [compute_path_loop_zero] at h
    split at h
    · exact absurd h (by simp)
    · simp only [path_result.returned.injEq] at h
      exact ⟨0, w, rfl, h⟩
  | succ fuel ih =>
    intro w path h
    rw [compute_path_loop_succ] at h
    split at h
    · rename_i hnt
      cases hs : compute_path_step grid w with
      | none => rw [hs] at h; exact absurd h (by simp)
      | some w₁ =>
        rw [hs] at h
        obtain ⟨n, w', hrun, hpath⟩ := ih w₁ path h
        exact ⟨n + 1, w', by rw [compute_path_run_succ, if_pos hnt, hs]; exact hrun, hpath⟩
    · simp only [path_result.returned.injEq] at h
      exact ⟨0, w, rfl, h⟩

/-- A call that ends out of range reached a state whose loop body faults. -/
theorem compute_path_loop_out_of_range_run (grid : grid_t) :
    ∀ (fuel : Nat) (w : walker_t),
      compute_path_loop grid fuel w = path_result.out_of_range →
      ∃ n w', compute_path_run grid n w = some w' ∧ compute_path_step grid w' = none := by
  intro fuel
  induction fuel with
  | zero =>
    intro w h
    rw [compute_path_loop_zero] at h
    split at h <;> exact absurd h (by simp)
  | succ fuel ih =>
    intro w h
    rw [compute_path_loop_succ] at h
    split at h
    · rename_i hnt
      cases hs : compute_path_step grid w with
      | none => exact ⟨0, w, rfl, hs⟩
      | some w₁ =>
        rw [hs] at h
        obtain ⟨n, w', hrun, hfault⟩ := ih w₁ h
        exact ⟨n + 1, w', by rw [compute_path_run_succ, if_pos hnt, hs]; exact hrun, hfault⟩
    · exact absurd h (by simp)

theorem adjacent_step_from (p : point_t) (d : Int) : adjacent p (step_from p d) := by
  unfold adjacent step_from direction_of
  split
  · simp
  · split
    · simp
    · split <;> simp

theorem chain_append_last (path : List point_t) (p q : point_t)
    (hchain : List.Chain' adjacent path) (hlast : path.getLast? = some p)
    (hpq : adjacent p q) : List.Chain' adjacent (path ++ [q]) := by
  apply List.Chain'.append hchain (List.chain'_singleton q)
  intro a ha b hb
  rw [hlast] at ha
  simp only [Option.mem_def, Option.some.injEq] at ha
  simp only [List.head?_cons, Option.mem_def, Option.some.injEq] at hb
  rw [← ha, ← hb]
  exact hpq

/-- The loop body keeps the path a chain of unit steps ending at the walker. -/
theorem compute_path_step_chain (grid : grid_t) (w w' : walker_t)
    (hw : List.Chain' adjacent w.path ∧ w.path.getLast? = some w.currentPosition)
    (h : compute_path_step grid w = some w') :
    List.Chain' adjacent w'.path ∧ w'.path.getLast? = some w'.currentPosition := by
  obtain ⟨hchain, hlast⟩ := hw
  unfold compute_path_step at h
  split at h
  · exact absurd h (by simp)
  · rename_i δ hδ
    have hdir : ∃ d, δ = direction_of d := by
      unfold vec_at at hδ
      split at hδ
      · have hmem := List.get?_mem hδ
        simp only [directions, List.mem_cons, List.mem_singleton, List.not_mem_nil,
          or_false] at hmem
        rcases hmem with rfl | rfl | rfl | rfl
        · exact ⟨0, rfl⟩
        · exact ⟨1, rfl⟩
        · exact ⟨2, rfl⟩
        · exact ⟨3, rfl⟩
      · exact absurd hδ (by simp)
    obtain ⟨d, rfl⟩ := hdir
    dsimp only at h
    split at h
    · exact absurd h (by simp)
    · split at h
      · exact absurd h (by simp)
      · split at h
        · exact absurd h (by simp)
        · simp only [Option.some.injEq] at h
          subst h
          exact ⟨hchain, hlast⟩
        · simp only [Option.some.injEq] at h
          subst h
          exact ⟨hchain, hlast⟩
    · simp only [Option.some.injEq] at h
      subst h
      refine ⟨?_, by simp⟩
      exact chain_append_last w.path w.currentPosition _ hchain hlast
        (adjacent_step_from w.currentPosition d)

/-- C20. In every state the loop of `compute_path` reaches, and so in every path
it returns, consecutive path elements differ by exactly one unit step along one
axis (`|dx| + |dy| = 1`): no immediate repeat of a coordinate and no jump. -/
theorem compute_path_unit_steps (grid : grid_t) :
    (∀ n w, compute_path_run grid n (compute_path_init grid) = some w →
        List.Chain' adjacent w.path) ∧
      (∀ fuel path, compute_path grid fuel = path_result.returned path →
        List.Chain' adjacent path) ∧
      ∀ p q : point_t, adjacent p q →
        p ≠ q ∧ (q.x - p.x).natAbs + (q.y - p.y).natAbs = 1 := by
  have hinit : List.Chain' adjacent (compute_path_init grid).path ∧
      (compute_path_init grid).path.getLast? = some (compute_path_init grid).currentPosition :=
    ⟨List.chain'_singleton _, rfl⟩
  have hrun : ∀ n w, compute_path_run grid n (compute_path_init grid) = some w →
      List.Chain' adjacent w.path := fun n w h =>
    (compute_path_run_invariant grid _ (compute_path_step_chain grid) n _ w hinit h).1
  refine ⟨hrun, ?_, ?_⟩
  · intro fuel path h
    obtain ⟨n, w, hw, hpath⟩ := compute_path_loop_returned_run grid fuel _ path h
    rw [← hpath]
    exact hrun n w hw
  · intro p q hpq
    unfold adjacent at hpq
    refine ⟨?_, by omega⟩
    intro heq
    rw [heq] at hpq
    simp at hpq

/-- C20, witness: the path traced on the bordered corner maze. -/
theorem compute_path_unit_steps_witness :
    List.Chain' adjacent [(⟨1, 1⟩ : point_t), ⟨1, 2⟩, ⟨2, 2⟩] :=
  (compute_path_unit_steps grid_corner).2.1 4 [⟨1, 1⟩, ⟨1, 2⟩, ⟨2, 2⟩] (by decide)
theorem direction_of_bounds (d : Int) :
    -1 ≤ (direction_of d).x ∧ (direction_of d).x ≤ 1 ∧
      -1 ≤ (direction_of d).y ∧ (direction_of d).y ≤ 1 := by
  unfold direction_of
  split
  · decide
  · split
    · decide
    · split <;> decide

/-- Around an Empty cell of a wall-bordered grid every neighbour lies inside the
grid. -/
theorem step_from_inside (grid : grid_t) (hb : wall_bordered grid) (p : point_t) (d : Int)
    (hp : cell_is grid p cell_t.empty) : inside_grid grid (step_from p d) := by
  obtain ⟨hx0, hx1, hy0, hy1⟩ := interior_of_empty grid hb p hp
  obtain ⟨h1, h2, h3, h4⟩ := direction_of_bounds d
  exact ⟨by show 0 ≤ p.x + (direction_of d).x; omega,
    by show p.x + (direction_of d).x < grid.width; omega,
    by show 0 ≤ p.y + (direction_of d).y; omega,
    by show p.y + (direction_of d).y < grid.height; omega⟩

theorem walker_inside_run (grid : grid_t) (hlen : cells_sized grid)
    (hb : wall_bordered grid) (hs : cell_is grid grid.start cell_t.empty) (n : Nat)
    (w : walker_t) (h : compute_path_run grid n (compute_path_init grid) = some w) :
    walker_inside grid w := by
  apply compute_path_run_invariant grid (walker_inside grid) ?_ n _ w
    (walker_inside_init grid hs) h
  intro w₁ w₂ hw₁ hstep
  obtain ⟨w₃, hstep', hw₃⟩ := compute_path_step_inside grid hlen hb w₁ hw₁
  rw [hstep] at hstep'
  simp only [Option.some.injEq] at hstep'
  rw [hstep']
  exact hw₃

/-- C14. On a grid with exactly `width * height` cells whose border cells are all
Wall and whose start is an Empty cell inside it, in every state the loop of
`compute_path` reaches the walker stands on an Empty cell inside the grid, the
index of the cell ahead and the index of the cell to the left both lie in
`[0, width * height)`, and the loop body runs without fault; no call of
`compute_path` ends out of range. -/
theorem compute_path_in_range (grid : grid_t) (hlen : cells_sized grid)
    (hb : wall_bordered grid) (hs : cell_is grid grid.start cell_t.empty) :
    (∀ n w, compute_path_run grid n (compute_path_init grid) = some w →
        cell_is grid w.currentPosition cell_t.empty ∧
        (0 ≤ grid.index_of (step_from w.currentPosition w.currentDirection) ∧
          grid.index_of (step_from w.currentPosition w.currentDirection) <
            grid.width * grid.height) ∧
        (0 ≤ grid.index_of
            (step_from w.currentPosition ((w.currentDirection - 1 + 4) % 4)) ∧
          grid.index_of (step_from w.currentPosition ((w.currentDirection - 1 + 4) % 4)) <
            grid.width * grid.height) ∧
        ∃ w', compute_path_step grid w = some w') ∧
      ∀ fuel, compute_path grid fuel ≠ path_result.out_of_range := by
  refine ⟨?_, ?_⟩
  · intro n w hrun
    have hw := walker_inside_run grid hlen hb hs n w hrun
    have hahead := step_from_inside grid hb w.currentPosition w.currentDirection hw.1
    have hleft := step_from_inside grid hb w.currentPosition
      ((w.currentDirection - 1 + 4) % 4) hw.1
    obtain ⟨w', hstep, _⟩ := compute_path_step_inside grid hlen hb w hw
    exact ⟨hw.1, ⟨index_of_nonneg grid _ hahead, index_of_lt grid _ hahead⟩,
      ⟨index_of_nonneg grid _ hleft, index_of_lt grid _ hleft⟩, w', hstep⟩
  · intro fuel hfault
    obtain ⟨n, w, hrun, hnone⟩ := compute_path_loop_out_of_range_run grid fuel _ hfault
    have hw := walker_inside_run grid hlen hb hs n w hrun
    obtain ⟨w', hstep, _⟩ := compute_path_step_inside grid hlen hb w hw
    rw [hnone] at hstep
    exact absurd hstep (by simp)

/-- C14, witness: the bordered corner maze. -/
theorem compute_path_in_range_witness :
    compute_path grid_corner 4 ≠ path_result.out_of_range :=
  (compute_path_in_range grid_corner (by unfold cells_sized; decide)
    (by unfold wall_bordered; decide) (by unfold cell_is inside_grid; decide)).2 4
/-! ## read_grid: the start and target markers -/

theorem marker_of_note_marker (m c : Char) (p : point_t) (grid : grid_t)
    (hm : m = 's' ∨ m = 't') :
    marker_of m (note_marker c p grid) = if c = m then p else marker_of m grid := by
  rcases hm with rfl | rfl
  · unfold marker_of note_marker
    by_cases hc : c = 's'
    · simp [hc]
    · by_cases hc' : c = 't'
      · simp [hc']
      · simp [hc, hc']
  · unfold marker_of note_marker
    by_cases hc : c = 's'
    · simp [hc]
    · by_cases hc' : c = 't'
      · simp [hc']
      · simp [hc, hc']

/-- What a successfully read line does to a marker: nothing when the line has no
`m`, otherwise it records the column of the line's last `m`. -/
theorem read_grid_row_marker (m : Char) (hm : m = 's' ∨ m = 't') (y : Int) :
    ∀ (cs : List Char) (x : Int) (grid grid' : grid_t),
      read_grid_row y cs x grid = read_result.ok grid' →
      (m ∉ cs → marker_of m grid' = marker_of m grid) ∧
      (∀ pre post, cs = pre ++ m :: post → m ∉ post →
        marker_of m grid' = ⟨x + (pre.length : Int), y⟩) := by
  intro cs
  induction cs with
  | nil =>
    intro x grid grid' h
    rw [read_grid_row] at h
    simp only [read_result.ok.injEq] at h
    subst h
    refine ⟨fun _ => rfl, ?_⟩
    intro pre post hsplit _
    exact absurd hsplit (by simp)
  | cons c cs ih =>
    intro x grid grid' h
    by_cases hc : valid_char c
    · rw [read_grid_row_cons_valid _ _ _ _ _ hc] at h
      unfold store_cell at h
      split at h
      · exact absurd h (by simp)
      · rename_i cells _
        obtain ⟨ih₁, ih₂⟩ := ih (x + 1) _ grid' h
        have hnote : marker_of m (note_marker c ⟨x, y⟩ { grid with cells := cells }) =
            if c = m then ⟨x, y⟩ else marker_of m grid := by
          rw [marker_of_note_marker m c _ _ hm]
          rfl
        refine ⟨?_, ?_⟩
        · intro hnot
          have hcm : c ≠ m := fun heq => hnot (by rw [heq]; exact List.mem_cons_self _ _)
          rw [ih₁ (fun hmem => hnot (List.mem_cons_of_mem _ hmem)), hnote, if_neg hcm]
        · intro pre post hsplit hpost
          cases pre with
          | nil =>
            simp only [List.nil_append, List.cons.injEq] at hsplit
            obtain ⟨hcm, hcs⟩ := hsplit
            rw [ih₁ (by rw [hcs]; exact hpost), hnote, if_pos hcm]
            simp
          | cons a pre =>
            simp only [List.cons_append, List.cons.injEq] at hsplit
            rw [ih₂ pre post hsplit.2 hpost]
            simp only [List.length_cons, Nat.cast_succ]
            congr 1
            ring
    · rw [read_grid_row_cons_invalid _ _ _ _ _ hc] at h
      exact absurd h (by simp)

/-- What successfully read lines do to a marker: nothing when no line has an `m`,
otherwise they record the coordinate of the last `m` in scan order. -/
theorem read_grid_rows_marker (m : Char) (hm : m = 's' ∨ m = 't') :
    ∀ (ls : List (List Char)) (y : Int) (grid grid' : grid_t),
      read_grid_rows ls y grid = read_result.ok grid' →
      ((∀ l ∈ ls, m ∉ l) → marker_of m grid' = marker_of m grid) ∧
      (∀ lpre pre post lpost, ls = lpre ++ (pre ++ m :: post) :: lpost → m ∉ post →
        (∀ l ∈ lpost, m ∉ l) →
        marker_of m grid' = ⟨(pre.length : Int), y + (lpre.length : Int)⟩) := by
  intro ls
  induction ls with
  | nil =>
    intro y grid grid' h
    rw [read_grid_rows] at h
    simp only [read_result.ok.injEq] at h
    subst h
    refine ⟨fun _ => rfl, ?_⟩
    intro lpre pre post lpost hsplit _ _
    exact absurd hsplit (by simp)
  | cons l ls ih =>
    intro y grid grid' h
    rw [read_grid_rows] at h
    split at h
    · exact absurd h (by simp)
    · rename_i g₁ hrow
      obtain ⟨hr₁, hr₂⟩ := read_grid_row_marker m hm y l 0 grid g₁ hrow
      obtain ⟨ih₁, ih₂⟩ := ih (y + 1) g₁ grid' h
      refine ⟨?_, ?_⟩
      · intro hnot
        rw [ih₁ (fun l' hl' => hnot l' (List.mem_cons_of_mem _ hl')),
          hr₁ (hnot l (List.mem_cons_self _ _))]
      · intro lpre pre post lpost hsplit hpost hlpost
        cases lpre with
        | nil =>
          simp only [List.nil_append, List.cons.injEq] at hsplit
          obtain ⟨hl, hls⟩ := hsplit
          rw [ih₁ (by rw [hls]; exact hlpost), hr₂ pre post hl hpost]
          simp
        | cons a lpre =>
          simp only [List.cons_append, List.cons.injEq] at hsplit
          rw [ih₂ lpre pre post lpost hsplit.2 hpost hlpost]
          simp only [List.length_cons, Nat.cast_succ]
          congr 1
          ring

theorem exists_last_occurrence {α : Type} (a : α) :
    ∀ l : List α, a ∈ l → ∃ pre post, l = pre ++ a :: post ∧ a ∉ post := by
  classical
  intro l
  induction l with
  | nil =>
    intro h
    exact absurd h (List.not_mem_nil a)
  | cons b l ih =>
    intro h
    by_cases hl : a ∈ l
    · obtain ⟨pre, post, hsplit, hpost⟩ := ih hl
      exact ⟨b :: pre, post, by rw [hsplit]; rfl, hpost⟩
    · rcases List.mem_cons.mp h with rfl | h'
      · exact ⟨[], l, rfl, hl⟩
      · exact absurd h' hl

/-- A text either has no `m` at all or splits at its last `m` in scan order. -/
theorem exists_last_marker_split (m : Char) :
    ∀ ls : List (List Char), (∀ l ∈ ls, m ∉ l) ∨
      ∃ lpre pre post lpost, ls = lpre ++ (pre ++ m :: post) :: lpost ∧ m ∉ post ∧
        ∀ l ∈ lpost, m ∉ l := by
  classical
  intro ls
  induction ls with
  | nil => exact Or.inl (fun _ h => absurd h (List.not_mem_nil _))
  | cons l ls ih =>
    rcases ih with hnone | ⟨lpre, pre, post, lpost, hsplit, hpost, hlpost⟩
    · by_cases hl : m ∈ l
      · obtain ⟨pre, post, hsplit, hpost⟩ := exists_last_occurrence m l hl
        exact Or.inr ⟨[], pre, post, ls, by rw [hsplit]; rfl, hpost, hnone⟩
      · left
        intro l' hl'
        rcases List.mem_cons.mp hl' with rfl | h
        · exact hl
        · exact hnone l' h
    · exact Or.inr ⟨l :: lpre, pre, post, lpost, by rw [hsplit]; rfl, hpost, hlpost⟩

/-- The split of a text at its last `m` marks the last `m` in scan order. -/
theorem last_marker_of_split (m : Char) (lpre : List (List Char)) (pre post : List Char)
    (lpost : List (List Char)) (hpost : m ∉ post) (hlpost : ∀ l ∈ lpost, m ∉ l) :
    last_marker (lpre ++ (pre ++ m :: post) :: lpost) m pre.length lpre.length := by
  refine ⟨char_at_split lpre pre m post lpost, ?_⟩
  intro x' y' h
  by_contra hcon
  have hcases : lpre.length < y' ∨ (y' = lpre.length ∧ pre.length < x') := by omega
  unfold char_at at h
  rw [List.get?_eq_getElem?] at h
  rcases hcases with hy | ⟨rfl, hx⟩
  · rw [List.getElem?_append_right (by omega)] at h
    obtain ⟨k, hk⟩ : ∃ k, y' - lpre.length = k + 1 := ⟨y' - lpre.length - 1, by omega⟩
    rw [hk, List.getElem?_cons_succ] at h
    cases hl : lpost[k]? with
    | none => rw [hl] at h; exact absurd h (by simp)
    | some l =>
      rw [hl] at h
      simp only [Option.some_bind, List.get?_eq_getElem?] at h
      exact hlpost l (List.getElem?_mem hl) (List.getElem?_mem h)
  · rw [List.getElem?_append_right (le_refl _), Nat.sub_self, List.getElem?_cons_zero] at h
    simp only [Option.some_bind, List.get?_eq_getElem?] at h
    rw [List.getElem?_append_right (by omega)] at h
    obtain ⟨k, hk⟩ : ∃ k, x' - pre.length = k + 1 := ⟨x' - pre.length - 1, by omega⟩
    rw [hk, List.getElem?_cons_succ] at h
    exact hpost (List.getElem?_mem h)

theorem mem_of_char_at (lines : List (List Char)) (x y : Nat) (c : Char)
    (h : char_at lines x y = some c) : ∃ l ∈ lines, c ∈ l := by
  obtain ⟨row, hrow, _, _⟩ := char_at_lt lines x y c h
  unfold char_at at h
  rw [List.get?_eq_getElem?, hrow] at h
  simp only [Option.some_bind, List.get?_eq_getElem?] at h
  exact ⟨row, List.getElem?_mem hrow, List.getElem?_mem h⟩
/-- The grid `read_grid` prepares before its loops keeps the caller's start and
target. -/
theorem read_grid_prepared_markers (is : List Char) (grid₀ : grid_t) :
    ∃ (W : Nat) (grid₁ : grid_t),
      read_grid is grid₀ = read_grid_rows (read_lines is) 0 grid₁ ∧
      grid₁.width = (W : Int) ∧ grid₁.height = ((read_lines is).length : Int) ∧
      grid₁.cells.length = W * (read_lines is).length ∧
      (∀ l ∈ read_lines is, l.length ≤ W) ∧
      grid₁.start = grid₀.start ∧ grid₁.target = grid₀.target := by
  obtain ⟨W, hW, hall, _, _⟩ := max_line_size_spec (read_lines is)
  refine ⟨W, _, rfl, hW, rfl, ?_, hall, rfl, rfl⟩
  show (vec_resize _ _ _).length = _
  rw [vec_resize_length, hW, ← Nat.cast_mul, Int.toNat_natCast]

/-- On accepted characters `read_grid` succeeds, stores under every character
that character's cell and records for `s` and `t` the coordinate of the last
occurrence in scan order, keeping the caller's value when there is none. -/
theorem read_grid_ok_markers (is : List Char) (grid₀ : grid_t)
    (hvalid : ∀ line ∈ read_lines is, ∀ c ∈ line, valid_char c) :
    ∃ (W : Nat) (grid : grid_t), read_grid is grid₀ = read_result.ok grid ∧
      grid.width = (W : Int) ∧ grid.height = ((read_lines is).length : Int) ∧
      (∀ l ∈ read_lines is, l.length ≤ W) ∧
      (∀ x y c, x < W → char_at (read_lines is) x y = some c →
        grid.cells[y * W + x]? = some (cell_of_char c)) ∧
      ∀ m, m = 's' ∨ m = 't' →
        ((∀ l ∈ read_lines is, m ∉ l) → marker_of m grid = marker_of m grid₀) ∧
        (∀ lpre pre post lpost, read_lines is = lpre ++ (pre ++ m :: post) :: lpost →
          m ∉ post → (∀ l ∈ lpost, m ∉ l) →
          marker_of m grid = ⟨(pre.length : Int), (lpre.length : Int)⟩) := by
  obtain ⟨W, g₁, hrun, hW, hH, hlen, hall, hstart, htarget⟩ :=
    read_grid_prepared_markers is grid₀
  obtain ⟨g', hok, hw', hh', _, ha, _⟩ :=
    read_grid_rows_ok W (read_lines is) 0 g₁ hW hvalid hall
      (by rw [hlen, Nat.zero_add, Nat.mul_comm])
  simp only [Nat.cast_zero] at hok
  refine ⟨W, g', by rw [hrun]; exact hok, by rw [hw', hW], by rw [hh', hH], hall, ?_, ?_⟩
  · intro x y c hx hc
    have := ha x y c hx hc
    rw [Nat.zero_add] at this
    exact this
  · intro m hm
    obtain ⟨h₁, h₂⟩ := read_grid_rows_marker m hm (read_lines is) 0 g₁ g' hok
    have hkeep : marker_of m g₁ = marker_of m grid₀ := by
      unfold marker_of
      rw [hstart, htarget]
    refine ⟨fun hnone => by rw [h₁ hnone, hkeep], ?_⟩
    intro lpre pre post lpost hsplit hpost hlpost
    rw [h₂ lpre pre post lpost hsplit hpost hlpost]
    simp

/-- A marker that occurs in the text is recorded at its last occurrence, which
lies inside the grid on an Empty cell. -/
theorem read_grid_marker_placed (lines : List (List Char)) (grid : grid_t) (W : Nat)
    (m : Char) (hm : m = 's' ∨ m = 't')
    (hwidth : grid.width = (W : Int)) (hheight : grid.height = (lines.length : Int))
    (hall : ∀ l ∈ lines, l.length ≤ W)
    (hcells : ∀ x y c, x < W → char_at lines x y = some c →
      grid.cells[y * W + x]? = some (cell_of_char c))
    (hsplit : ∀ lpre pre post lpost, lines = lpre ++ (pre ++ m :: post) :: lpost →
      m ∉ post → (∀ l ∈ lpost, m ∉ l) →
      marker_of m grid = ⟨(pre.length : Int), (lpre.length : Int)⟩)
    (hex : ∃ x y, char_at lines x y = some m) :
    ∃ x y : Nat, last_marker lines m x y ∧ marker_of m grid = ⟨(x : Int), (y : Int)⟩ ∧
      cell_is grid (marker_of m grid) cell_t.empty := by
  obtain ⟨x₀, y₀, h₀⟩ := hex
  rcases exists_last_marker_split m lines with hnone | ⟨lpre, pre, post, lpost, hl, hpost, hlpost⟩
  · obtain ⟨l, hl, hml⟩ := mem_of_char_at lines x₀ y₀ m h₀
    exact absurd hml (hnone l hl)
  · have hmarker := hsplit lpre pre post lpost hl hpost hlpost
    have hlast : last_marker lines m pre.length lpre.length := by
      rw [hl]
      exact last_marker_of_split m lpre pre post lpost hpost hlpost
    have hx : pre.length < W := by
      have := hall (pre ++ m :: post) (by rw [hl]; simp)
      simp only [List.length_append, List.length_cons] at this
      omega
    have hy : lpre.length < lines.length := by
      rw [hl]
      simp only [List.length_append, List.length_cons]
      omega
    refine ⟨pre.length, lpre.length, hlast, hmarker, ?_, ?_⟩
    · rw [hmarker]
      exact ⟨by show (0 : Int) ≤ (pre.length : Int); omega,
        by show (pre.length : Int) < grid.width; omega,
        by show (0 : Int) ≤ (lpre.length : Int); omega,
        by show (lpre.length : Int) < grid.height; omega⟩
    · rw [hmarker, index_of_nat grid W _ _ hwidth, vec_at_nat,
        hcells _ _ m hx hlast.1]
      rcases hm with rfl | rfl <;> rfl

/-- C11. When every character is accepted and the lines hold at least one `s` and
at least one `t`, the grid `read_grid` returns has its start and its target inside
the grid bounds, and the cells at `index_of(start)` and `index_of(target)` are
Empty. -/
theorem read_grid_markers_inside (is : List Char) (grid₀ : grid_t)
    (hvalid : ∀ line ∈ read_lines is, ∀ c ∈ line, valid_char c)
    (hs : ∃ x y, char_at (read_lines is) x y = some 's')
    (ht : ∃ x y, char_at (read_lines is) x y = some 't') :
    ∃ grid, read_grid is grid₀ = read_result.ok grid ∧
      (0 ≤ grid.start.x ∧ grid.start.x < grid.width ∧
        0 ≤ grid.start.y ∧ grid.start.y < grid.height) ∧
      (0 ≤ grid.target.x ∧ grid.target.x < grid.width ∧
        0 ≤ grid.target.y ∧ grid.target.y < grid.height) ∧
      vec_at grid.cells (grid.index_of grid.start) = some cell_t.empty ∧
      vec_at grid.cells (grid.index_of grid.target) = some cell_t.empty := by
  obtain ⟨W, grid, hok, hwidth, hheight, hall, hcells, hmarkers⟩ :=
    read_grid_ok_markers is grid₀ hvalid
  obtain ⟨_, _, _, _, hstart⟩ := read_grid_marker_placed (read_lines is) grid W 's'
    (Or.inl rfl) hwidth hheight hall hcells (hmarkers 's' (Or.inl rfl)).2 hs
  obtain ⟨_, _, _, _, htarget⟩ := read_grid_marker_placed (read_lines is) grid W 't'
    (Or.inr rfl) hwidth hheight hall hcells (hmarkers 't' (Or.inr rfl)).2 ht
  exact ⟨grid, hok, hstart.1, htarget.1, hstart.2, htarget.2⟩

/-- C11, witness: the bordered corner maze. -/
theorem read_grid_markers_inside_witness :
    ∃ grid, read_grid maze_corner blank_grid = read_result.ok grid ∧
      (0 ≤ grid.start.x ∧ grid.start.x < grid.width ∧
        0 ≤ grid.start.y ∧ grid.start.y < grid.height) ∧
      (0 ≤ grid.target.x ∧ grid.target.x < grid.width ∧
        0 ≤ grid.target.y ∧ grid.target.y < grid.height) ∧
      vec_at grid.cells (grid.index_of grid.start) = some cell_t.empty ∧
      vec_at grid.cells (grid.index_of grid.target) = some cell_t.empty :=
  read_grid_markers_inside maze_corner blank_grid (by unfold valid_char; decide)
    ⟨1, 1, by decide⟩ ⟨2, 2, by decide⟩
theorem last_marker_unique (lines : List (List Char)) (m : Char) (x y x' y' : Nat)
    (h : last_marker lines m x y) (h' : last_marker lines m x' y') : x = x' ∧ y = y' := by
  have h₁ := h.2 x' y' h'.1
  have h₂ := h'.2 x y h.1
  omega

/-- C12. When every character is accepted and the lines hold at least one `s`, the
start `read_grid` records is the coordinate of the last `s` in scan order (rows
top to bottom, columns left to right), which is unique; likewise the target is
the coordinate of the last `t` when there is a `t`; and under every `s` and `t`,
the earlier ones included, the cell is Empty. -/
theorem read_grid_last_wins (is : List Char) (grid₀ : grid_t)
    (hvalid : ∀ line ∈ read_lines is, ∀ c ∈ line, valid_char c)
    (hs : ∃ x y, char_at (read_lines is) x y = some 's') :
    ∃ grid, read_grid is grid₀ = read_result.ok grid ∧
      (∃ x y : Nat, last_marker (read_lines is) 's' x y ∧
        grid.start = ⟨(x : Int), (y : Int)⟩) ∧
      ((∃ x y, char_at (read_lines is) x y = some 't') →
        ∃ x y : Nat, last_marker (read_lines is) 't' x y ∧
          grid.target = ⟨(x : Int), (y : Int)⟩) ∧
      (∀ (m : Char) (x y x' y' : Nat), last_marker (read_lines is) m x y →
        last_marker (read_lines is) m x' y' → x = x' ∧ y = y') ∧
      ∀ x y : Nat,
        char_at (read_lines is) x y = some 's' ∨ char_at (read_lines is) x y = some 't' →
        vec_at grid.cells (grid.index_of ⟨(x : Int), (y : Int)⟩) = some cell_t.empty := by
  obtain ⟨W, grid, hok, hwidth, hheight, hall, hcells, hmarkers⟩ :=
    read_grid_ok_markers is grid₀ hvalid
  refine ⟨grid, hok, ?_, ?_, last_marker_unique (read_lines is), ?_⟩
  · obtain ⟨x, y, hlast, hstart, _⟩ := read_grid_marker_placed (read_lines is) grid W 's'
      (Or.inl rfl) hwidth hheight hall hcells (hmarkers 's' (Or.inl rfl)).2 hs
    exact ⟨x, y, hlast, hstart⟩
  · intro ht
    obtain ⟨x, y, hlast, htarget, _⟩ := read_grid_marker_placed (read_lines is) grid W 't'
      (Or.inr rfl) hwidth hheight hall hcells (hmarkers 't' (Or.inr rfl)).2 ht
    exact ⟨x, y, hlast, htarget⟩
  · intro x y hc
    have hx : ∀ c, char_at (read_lines is) x y = some c → x < W := by
      intro c h
      obtain ⟨row, hrow, _, hlt⟩ := char_at_lt (read_lines is) x y c h
      have := hall row (List.getElem?_mem hrow)
      omega
    rw [index_of_nat grid W x y hwidth, vec_at_nat]
    rcases hc with h | h
    · rw [hcells x y 's' (hx _ h) h]
      rfl
    · rw [hcells x y 't' (hx _ h) h]
      rfl

/-- C12, witness: a text whose first row holds `s` at columns 0 and 3 and whose
two rows hold `t` at `(2,0)` and `(1,1)`. -/
theorem read_grid_last_wins_witness :
    ∃ grid, read_grid maze_twice blank_grid = read_result.ok grid ∧
      (∃ x y : Nat, last_marker (read_lines maze_twice) 's' x y ∧
        grid.start = ⟨(x : Int), (y : Int)⟩) ∧
      ((∃ x y, char_at (read_lines maze_twice) x y = some 't') →
        ∃ x y : Nat, last_marker (read_lines maze_twice) 't' x y ∧
          grid.target = ⟨(x : Int), (y : Int)⟩) ∧
      (∀ (m : Char) (x y x' y' : Nat), last_marker (read_lines maze_twice) m x y →
        last_marker (read_lines maze_twice) m x' y' → x = x' ∧ y = y') ∧
      ∀ x y : Nat,
        char_at (read_lines maze_twice) x y = some 's' ∨
          char_at (read_lines maze_twice) x y = some 't' →
        vec_at grid.cells (grid.index_of ⟨(x : Int), (y : Int)⟩) = some cell_t.empty :=
  read_grid_last_wins maze_twice blank_grid (by unfold valid_char; decide) ⟨0, 0, by decide⟩

theorem maze_twice_loaded :
    read_grid maze_twice blank_grid =
      read_result.ok
        { width := 4, height := 2
          cells := [cell_t.empty, cell_t.empty, cell_t.empty, cell_t.empty,
            cell_t.empty, cell_t.empty, cell_t.empty, cell_t.empty]
          start := ⟨3, 0⟩, target := ⟨1, 1⟩ } := by
  decide
/-! ## compute_intersections: what it leaves alone -/

theorem vec_set_frame {α : Type} (v v' : List α) (i : Int) (a : α) (j : Nat)
    (h : vec_set v i a = some v') (hj : (j : Int) ≠ i) : v'[j]? = v[j]? := by
  unfold vec_set at h
  split at h
  · rename_i hi
    simp only [Option.some.injEq] at h
    rw [← h]
    exact List.getElem?_set_ne (by omega)
  · exact absurd h (by simp)

theorem vec_or_frame (v v' : List Nat) (i : Int) (flag : Nat) (j : Nat)
    (h : vec_or v i flag = some v') (hj : (j : Int) ≠ i) : v'[j]? = v[j]? := by
  unfold vec_or at h
  split at h
  · exact absurd h (by simp)
  · exact vec_set_frame v v' i _ j h hj

theorem vec_or_pair_frame (v v' : List Nat) (i₁ i₂ : Int) (f₁ f₂ : Nat) (j : Nat)
    (h : vec_or_pair v i₁ f₁ i₂ f₂ = some v') (hj₁ : (j : Int) ≠ i₁) (hj₂ : (j : Int) ≠ i₂) :
    v'[j]? = v[j]? := by
  unfold vec_or_pair at h
  split at h
  · exact absurd h (by simp)
  · rename_i v₁ h₁
    rw [vec_or_frame v₁ v' i₂ f₂ j h hj₂, vec_or_frame v v₁ i₁ f₁ j h₁ hj₁]

theorem link_previous_frame (grid : grid_t) (p : point_t) (v v' : List Nat)
    (idx prev : Int) (j : Nat) (h : link_previous grid p v idx prev = some v')
    (hj₁ : (j : Int) ≠ idx) (hj₂ : (j : Int) ≠ prev) : v'[j]? = v[j]? := by
  unfold link_previous at h
  split at h
  · exact vec_or_pair_frame v v' _ _ _ _ j h hj₁ hj₂
  · split at h
    · exact vec_or_pair_frame v v' _ _ _ _ j h hj₁ hj₂
    · split at h
      · exact vec_or_pair_frame v v' _ _ _ _ j h hj₁ hj₂
      · split at h
        · exact vec_or_pair_frame v v' _ _ _ _ j h hj₁ hj₂
        · simp only [Option.some.injEq] at h
          rw [h]

/-- The loop of `compute_intersections` writes only the records of the points of
the path that lie inside the grid and the record at `prev_grid_index`. -/
theorem compute_intersections_loop_frame (grid : grid_t) (j : Nat) :
    ∀ (path : List point_t) (v v' : List Nat) (prev : Int),
      compute_intersections_loop grid path v prev = some v' →
      (∀ p ∈ path, inside_grid grid p → grid.index_of p ≠ (j : Int)) →
      prev ≠ (j : Int) → v'[j]? = v[j]? := by
  intro path
  induction path with
  | nil =>
    intro v v' prev h _ _
    rw [compute_intersections_loop] at h
    simp only [Option.some.injEq] at h
    rw [h]
  | cons p rest ih =>
    intro v v' prev h hpath hprev
    have hrest : ∀ q ∈ rest, inside_grid grid q → grid.index_of q ≠ (j : Int) :=
      fun q hq => hpath q (List.mem_cons_of_mem _ hq)
    by_cases hp : inside_grid grid p
    · have hidx := hpath p (List.mem_cons_self _ _) hp
      rw [compute_intersections_loop_inside grid p rest v prev hp] at h
      split at h
      · exact absurd h (by simp)
      · rename_i marked hmarked
        split at h
        · exact absurd h (by simp)
        · rename_i linked hlinked
          rw [ih linked v' _ h hrest hidx,
            link_previous_frame grid p marked linked _ prev j hlinked (Ne.symm hidx)
              (Ne.symm hprev),
            vec_set_frame v marked _ _ j hmarked (Ne.symm hidx)]
    · rw [compute_intersections_loop_outside grid p rest v prev hp] at h
      by_cases hsent : -(grid.width + 1) = (j : Int)
      · have hnone : ∀ q ∈ rest, ¬ inside_grid grid q := by
          intro q _ ⟨hx0, hx1, _, _⟩
          omega
        rw [compute_intersections_loop_all_outside grid v rest _ hnone] at h
        simp only [Option.some.injEq] at h
        rw [h]
      · exact ih v v' _ h hrest hsent

theorem index_of_injective (grid : grid_t) (p q : point_t) (hp : inside_grid grid p)
    (hq : inside_grid grid q) (h : grid.index_of p = grid.index_of q) : p = q := by
  obtain ⟨px, py⟩ := p
  obtain ⟨qx, qy⟩ := q
  obtain ⟨hp0, hp1, _, _⟩ := hp
  obtain ⟨hq0, hq1, _, _⟩ := hq
  unfold grid_t.index_of at h
  simp only at hp0 hp1 hq0 hq1 h
  have hy : py = qy := by
    rcases lt_trichotomy py qy with hlt | heq | hgt
    · exfalso
      have h1 : (py + 1) * grid.width ≤ qy * grid.width :=
        mul_le_mul_of_nonneg_right (by omega) (by omega)
      have h2 : (py + 1) * grid.width = py * grid.width + grid.width := by ring
      omega
    · exact heq
    · exfalso
      have h1 : (qy + 1) * grid.width ≤ py * grid.width :=
        mul_le_mul_of_nonneg_right (by omega) (by omega)
      have h2 : (qy + 1) * grid.width = qy * grid.width + grid.width := by ring
      omega
  subst hy
  have hx : px = qx := by omega
  rw [hx]

/-- The record of a cell inside the grid that the path does not visit stays 0. -/
theorem compute_intersections_unvisited (grid : grid_t) (path : List point_t)
    (v : List Nat) (p : point_t) (hci : compute_intersections grid path = some v)
    (hp : inside_grid grid p)
    (hnot : ∀ q ∈ path, inside_grid grid q → grid.index_of q ≠ grid.index_of p) :
    vec_at v (grid.index_of p) = some 0 := by
  have hi0 := index_of_nonneg grid p hp
  have hi1 := index_of_lt grid p hp
  obtain ⟨I, hI⟩ : ∃ I : Nat, grid.index_of p = (I : Int) :=
    ⟨(grid.index_of p).toNat, by omega⟩
  have hw : 0 < grid.width := by
    obtain ⟨hx0, hx1, _, _⟩ := hp
    omega
  unfold compute_intersections at hci
  split at hci
  · exact absurd hci (by simp)
  · rw [hI] at hnot
    rw [hI, vec_at_nat,
      compute_intersections_loop_frame grid I path _ v _ hci hnot (by omega),
      List.getElem?_replicate, if_pos (by omega)]
theorem print_cell_congr (grid : grid_t) (v v' : List Nat) (x y : Int)
    (h : vec_at v (grid.index_of ⟨x, y⟩) = vec_at v' (grid.index_of ⟨x, y⟩)) :
    print_cell grid v x y = print_cell grid v' x y := by
  unfold print_cell
  dsimp only
  rw [h]

/-- C17. On a grid with exactly `width * height` cells, a cell inside the grid
whose coordinate does not occur in the path keeps the intersection record 0, and
`print_path` writes for it what it writes without any path: a space for an Empty
cell that is neither start nor target, `#` for a Wall cell. -/
theorem print_path_unvisited (grid : grid_t) (path : List point_t) (p : point_t)
    (hlen : cells_sized grid) (hp : inside_grid grid p) (hnot : p ∉ path) :
    ∃ v out bare, compute_intersections grid path = some v ∧
      print_path grid path = some out ∧ print_path grid [] = some bare ∧
      vec_at v (grid.index_of p) = some 0 ∧
      vec_at out (p.y * (grid.width + 1) + p.x) =
        vec_at bare (p.y * (grid.width + 1) + p.x) ∧
      (cell_is grid p cell_t.empty → grid.start ≠ p → grid.target ≠ p →
        vec_at out (p.y * (grid.width + 1) + p.x) = some ' ') ∧
      (cell_is grid p cell_t.wall →
        vec_at out (p.y * (grid.width + 1) + p.x) = some '#') := by
  have hp' := hp
  obtain ⟨hx0, hx1, hy0, hy1⟩ := hp'
  obtain ⟨v, hci, hv, hout⟩ := print_path_eq grid path (by omega) (by omega) hlen
  obtain ⟨v₀, hci₀, hv₀, hbare⟩ := print_path_eq grid [] (by omega) (by omega) hlen
  have hzero : vec_at v (grid.index_of p) = some 0 := by
    apply compute_intersections_unvisited grid path v p hci hp
    intro q hq hqin hidx
    exact hnot (by rw [← index_of_injective grid q p hqin hp hidx]; exact hq)
  have hzero₀ : vec_at v₀ (grid.index_of p) = some 0 :=
    compute_intersections_unvisited grid [] v₀ p hci₀ hp
      (fun q hq => absurd hq (List.not_mem_nil q))
  obtain ⟨c, hc, _, hat⟩ := unlines_glyph_rows_at grid v p.x p.y hlen hv hp
  obtain ⟨c₀, hc₀, _, hat₀⟩ := unlines_glyph_rows_at grid v₀ p.x p.y hlen hv₀ hp
  have hsame : c = c₀ := by
    rw [print_cell_congr grid v v₀ p.x p.y (by rw [hzero, hzero₀]), hc₀] at hc
    exact (Option.some.inj hc).symm
  refine ⟨v, _, _, hci, hout, hbare, hzero, by rw [hat, hat₀, hsame], ?_, ?_⟩
  · intro ⟨_, hcell⟩ hs ht
    rw [print_cell_empty grid v p.x p.y 0 hcell hs ht hzero] at hc
    rw [hat, ← hc]
    decide
  · intro ⟨_, hcell⟩
    rw [print_cell_wall grid v p.x p.y 0 hcell hzero] at hc
    rw [hat, ← hc]
    rfl

/-- C17, witness: the wall at `(3, 1)` of the bordered corner maze, off the traced
path. -/
theorem print_path_unvisited_witness :
    ∃ v out bare,
      compute_intersections grid_corner [⟨1, 1⟩, ⟨1, 2⟩, ⟨2, 2⟩] = some v ∧
      print_path grid_corner [⟨1, 1⟩, ⟨1, 2⟩, ⟨2, 2⟩] = some out ∧
      print_path grid_corner [] = some bare ∧
      vec_at v (grid_corner.index_of ⟨3, 1⟩) = some 0 ∧
      vec_at out ((⟨3, 1⟩ : point_t).y * (grid_corner.width + 1) + (⟨3, 1⟩ : point_t).x) =
        vec_at bare ((⟨3, 1⟩ : point_t).y * (grid_corner.width + 1) + (⟨3, 1⟩ : point_t).x) ∧
      (cell_is grid_corner ⟨3, 1⟩ cell_t.empty → grid_corner.start ≠ ⟨3, 1⟩ →
        grid_corner.target ≠ ⟨3, 1⟩ →
        vec_at out ((⟨3, 1⟩ : point_t).y * (grid_corner.width + 1) + (⟨3, 1⟩ : point_t).x) =
          some ' ') ∧
      (cell_is grid_corner ⟨3, 1⟩ cell_t.wall →
        vec_at out ((⟨3, 1⟩ : point_t).y * (grid_corner.width + 1) + (⟨3, 1⟩ : point_t).x) =
          some '#') :=
  print_path_unvisited grid_corner [⟨1, 1⟩, ⟨1, 2⟩, ⟨2, 2⟩] ⟨3, 1⟩
    (by unfold cells_sized; decide) (by unfold inside_grid; decide) (by decide)
/-! ## The traced path stays on Empty cells -/

/-- A loop iteration leaves the path alone or appends the walker's new position,
whose cell lookup gave Empty. -/
theorem compute_path_step_moves (grid : grid_t) (w w' : walker_t)
    (h : compute_path_step grid w = some w') :
    w'.path = w.path ∨
      (w'.path = w.path ++ [w'.currentPosition] ∧
        vec_at grid.cells (grid.index_of w'.currentPosition) = some cell_t.empty) := by
  unfold compute_path_step at h
  split at h
  · exact absurd h (by simp)
  · dsimp only at h
    split at h
    · exact absurd h (by simp)
    · split at h
      · exact absurd h (by simp)
      · split at h
        · exact absurd h (by simp)
        · simp only [Option.some.injEq] at h
          subst h
          exact Or.inl rfl
        · simp only [Option.some.injEq] at h
          subst h
          exact Or.inl rfl
    · rename_i hcell
      simp only [Option.some.injEq] at h
      subst h
      exact Or.inr ⟨rfl, hcell⟩

theorem path_on_empty_step (grid : grid_t) (w w' : walker_t)
    (hw : path_on_empty grid w.path) (h : compute_path_step grid w = some w') :
    path_on_empty grid w'.path := by
  rcases compute_path_step_moves grid w w' h with hsame | ⟨happ, hcell⟩
  · rw [hsame]
    exact hw
  · rw [happ]
    intro p hp hin
    rcases List.mem_append.mp hp with hold | hnew
    · exact hw p hold hin
    · rw [List.mem_singleton.mp hnew]
      rw [List.mem_singleton.mp hnew] at hin
      exact ⟨hin, hcell⟩

/-- Every in-bounds point of a path `compute_path` returns from an Empty start
lies on an Empty cell. -/
theorem compute_path_on_empty (grid : grid_t) (fuel : Nat) (path : List point_t)
    (hs : cell_is grid grid.start cell_t.empty)
    (h : compute_path grid fuel = path_result.returned path) : path_on_empty grid path := by
  obtain ⟨n, w, hrun, hpath⟩ := compute_path_loop_returned_run grid fuel _ path h
  rw [← hpath]
  apply compute_path_run_invariant grid (fun w => path_on_empty grid w.path)
    (path_on_empty_step grid) n _ w ?_ hrun
  intro p hp _
  simp only [compute_path_init, List.mem_singleton] at hp
  rw [hp]
  exact hs

/-! ## The characters print_path can write -/

theorem mem_unlines (c : Char) :
    ∀ rows : List (List Char), c ∈ unlines rows → c = '\n' ∨ ∃ row ∈ rows, c ∈ row := by
  intro rows
  induction rows with
  | nil =>
    intro h
    simp [unlines] at h
  | cons r rows ih =>
    intro h
    rw [unlines_cons] at h
    rcases List.mem_append.mp h with hr | hrest
    · exact Or.inr ⟨r, List.mem_cons_self _ _, hr⟩
    · rcases List.mem_cons.mp hrest with hnl | hmem
      · exact Or.inl hnl
      · rcases ih hmem with hnl | ⟨row, hrow, hc⟩
        · exact Or.inl hnl
        · exact Or.inr ⟨row, List.mem_cons_of_mem _ hrow, hc⟩

/-- Every character of the printed text is a line feed or the glyph of a cell
inside the grid. -/
theorem mem_glyph_rows (grid : grid_t) (v : List Nat) (c : Char)
    (hlen : cells_sized grid) (hv : intersections_ok grid v)
    (h : c ∈ unlines (glyph_rows grid v grid.height.toNat 0)) :
    c = '\n' ∨ ∃ x y, inside_grid grid ⟨x, y⟩ ∧ print_cell grid v x y = some c := by
  rcases mem_unlines c _ h with hnl | ⟨row, hrow, hc⟩
  · exact Or.inl hnl
  · right
    obtain ⟨x, y, hxy⟩ := char_at_of_mem _ row c hrow hc
    obtain ⟨row', hrow', hy, hx⟩ := char_at_lt _ x y c hxy
    rw [glyph_rows_length] at hy
    rw [glyph_rows_row_length grid v _ row' (List.getElem?_mem hrow')] at hx
    have hin : inside_grid grid ⟨(x : Int), (y : Int)⟩ :=
      ⟨by show (0 : Int) ≤ (x : Int); omega, by show (x : Int) < grid.width; omega,
        by show (0 : Int) ≤ (y : Int); omega, by show (y : Int) < grid.height; omega⟩
    obtain ⟨c', hc', _⟩ := print_cell_defined grid v _ _ hlen hv hin
    rw [char_at_glyph_rows grid v _ x y hx hy, cell_glyph_eq grid v _ _ c' hc'] at hxy
    simp only [Option.some.injEq] at hxy
    exact ⟨(x : Int), (y : Int), hin, by rw [hc', hxy]⟩

theorem intersection_graphics_no_X : ∀ c ∈ intersection_graphics, c ≠ 'X' := by
  decide

theorem print_cell_empty_no_X (grid : grid_t) (v : List Nat) (x y : Int) (c : Char)
    (hcell : vec_at grid.cells (grid.index_of ⟨x, y⟩) = some cell_t.empty)
    (h : print_cell grid v x y = some c) : c ≠ 'X' := by
  unfold print_cell at h
  dsimp only at h
  rw [hcell] at h
  dsimp only at h
  split at h
  · simp only [Option.some.injEq] at h
    rw [← h]
    decide
  · split at h
    · simp only [Option.some.injEq] at h
      rw [← h]
      decide
    · split at h
      · exact absurd h (by simp)
      · unfold vec_at at h
        split at h
        · exact intersection_graphics_no_X c (List.get?_mem h)
        · exact absurd h (by simp)

/-- C16. On a grid with exactly `width * height` cells whose start is an Empty
cell inside it, when `compute_path` returns a path, every in-bounds coordinate of
that path lies on an Empty cell; so every Wall cell keeps the intersection record
0, `print_path` of the traced path writes `#` for every Wall cell, and the
character `X` occurs nowhere in its output. -/
theorem traced_path_on_empty (grid : grid_t) (fuel : Nat) (path : List point_t)
    (hlen : cells_sized grid) (hs : cell_is grid grid.start cell_t.empty)
    (h : compute_path grid fuel = path_result.returned path) :
    (∀ p ∈ path, inside_grid grid p → cell_is grid p cell_t.empty) ∧
      ∃ v out, compute_intersections grid path = some v ∧
        print_path grid path = some out ∧
        (∀ p, cell_is grid p cell_t.wall →
          vec_at v (grid.index_of p) = some 0 ∧
          vec_at out (p.y * (grid.width + 1) + p.x) = some '#') ∧
        'X' ∉ out := by
  have hpath := compute_path_on_empty grid fuel path hs h
  obtain ⟨hx0, hx1, hy0, hy1⟩ := hs.1
  obtain ⟨v, hci, hv, hout⟩ := print_path_eq grid path (by omega) (by omega) hlen
  have hwall : ∀ p, cell_is grid p cell_t.wall → vec_at v (grid.index_of p) = some 0 := by
    intro p ⟨hp, hcell⟩
    apply compute_intersections_unvisited grid path v p hci hp
    intro q hq hqin hidx
    have hq' := (hpath q hq hqin).2
    rw [hidx, hcell] at hq'
    exact absurd hq' (by decide)
  refine ⟨hpath, v, _, hci, hout, ?_, ?_⟩
  · intro p hp
    refine ⟨hwall p hp, ?_⟩
    obtain ⟨c, hc, _, hat⟩ := unlines_glyph_rows_at grid v p.x p.y hlen hv hp.1
    rw [print_cell_wall grid v p.x p.y 0 hp.2 (hwall p hp)] at hc
    rw [hat, ← hc]
    rfl
  · intro hX
    rcases mem_glyph_rows grid v 'X' hlen hv hX with hnl | ⟨x, y, hin, hprint⟩
    · exact absurd hnl (by decide)
    · obtain ⟨cell, hcell⟩ := cell_defined grid _ hlen hin
      cases cell with
      | empty => exact print_cell_empty_no_X grid v x y 'X' hcell hprint rfl
      | wall =>
        rw [print_cell_wall grid v x y 0 hcell (hwall ⟨x, y⟩ ⟨hin, hcell⟩)] at hprint
        exact absurd hprint (by decide)

/-- C16, witness: the bordered corner maze and its traced path. -/
theorem traced_path_on_empty_witness :
    (∀ p ∈ [(⟨1, 1⟩ : point_t), ⟨1, 2⟩, ⟨2, 2⟩], inside_grid grid_corner p →
        cell_is grid_corner p cell_t.empty) ∧
      ∃ v out, compute_intersections grid_corner [⟨1, 1⟩, ⟨1, 2⟩, ⟨2, 2⟩] = some v ∧
        print_path grid_corner [⟨1, 1⟩, ⟨1, 2⟩, ⟨2, 2⟩] = some out ∧
        (∀ p, cell_is grid_corner p cell_t.wall →
          vec_at v (grid_corner.index_of p) = some 0 ∧
          vec_at out (p.y * (grid_corner.width + 1) + p.x) = some '#') ∧
        'X' ∉ out :=
  traced_path_on_empty grid_corner 4 [⟨1, 1⟩, ⟨1, 2⟩, ⟨2, 2⟩]
    (by unfold cells_sized; decide) (by unfold cell_is inside_grid; decide) (by decide)
/-! ## compute_intersections: at most two directions per record -/

theorem fresh_record_or :
    ∀ b, b < 32 → ∀ f ∈ direction_flags, fresh_record b → record_ok (b ||| f) := by
  unfold fresh_record record_ok
  decide

theorem fresh_record_visited_or :
    ∀ f ∈ direction_flags, fresh_record (intersection_t.visited ||| f) := by
  unfold fresh_record
  decide

theorem fresh_record_visited : fresh_record intersection_t.visited := by
  unfold fresh_record
  decide

theorem record_ok_of_fresh : ∀ b, b < 32 → fresh_record b → record_ok b := by
  unfold fresh_record record_ok
  decide

theorem record_ok_glyph :
    ∀ value, value < 32 → record_ok value → glyph_of value ≠ some '?' := by
  unfold record_ok
  decide

/-- The two `|=` statements of a branch, on two different valid indices. -/
theorem vec_or_pair_eq (v : List Nat) (I P : Nat) (a b f₁ f₂ : Nat) (hIP : P ≠ I)
    (ha : v[I]? = some a) (hb : v[P]? = some b) :
    vec_or_pair v (I : Int) f₁ (P : Int) f₂ =
      some ((v.set I (a ||| f₁)).set P (b ||| f₂)) := by
  have hI : I < v.length := (List.getElem?_eq_some.mp ha).1
  have hP : P < v.length := (List.getElem?_eq_some.mp hb).1
  obtain ⟨a', ha', h₁⟩ := vec_or_of_range v (I : Int) f₁ (by omega) (by omega)
  simp only [Int.toNat_ofNat] at ha' h₁
  rw [ha] at ha'
  simp only [Option.some.injEq] at ha'
  subst ha'
  obtain ⟨b', hb', h₂⟩ := vec_or_of_range (v.set I (a ||| f₁)) (P : Int) f₂ (by omega)
    (by rw [List.length_set]; omega)
  simp only [Int.toNat_ofNat] at hb' h₂
  rw [List.getElem?_set_ne (by omega), hb] at hb'
  simp only [Option.some.injEq] at hb'
  subst hb'
  unfold vec_or_pair
  rw [h₁]
  exact h₂

/-- The chain of `link_previous` either changes nothing or adds one direction
flag to the current record and one to the record at `prev_grid_index`, which is
then a valid index other than the current one. -/
theorem link_previous_cases (grid : grid_t) (p : point_t) (v : List Nat) (prev : Int)
    (I : Nat) (a : Nat) (hp : inside_grid grid p) (hv : intersections_ok grid v)
    (hprev : prev_ok grid prev) (hI : grid.index_of p = (I : Int)) (ha : v[I]? = some a) :
    link_previous grid p v (I : Int) prev = some v ∨
      ∃ (f₁ f₂ b P : Nat), f₁ ∈ direction_flags ∧ f₂ ∈ direction_flags ∧ prev = (P : Int) ∧
        P ≠ I ∧ v[P]? = some b ∧
        link_previous grid p v (I : Int) prev =
          some ((v.set I (a ||| f₁)).set P (b ||| f₂)) := by
  have hi1 := index_of_lt grid p hp
  have hw : 0 < grid.width := by
    obtain ⟨hx0, hx1, _, _⟩ := hp
    omega
  rcases hprev with hsent | ⟨hj0, hj1⟩
  · left
    unfold link_previous
    rw [if_neg (by omega), if_neg (by omega), if_neg (by omega), if_neg (by omega)]
  · obtain ⟨P, rfl⟩ : ∃ P : Nat, prev = (P : Int) := ⟨prev.toNat, by omega⟩
    have hPlt : P < v.length := by
      have : (P : Int) < (v.length : Int) := by rw [hv.1]; omega
      omega
    have hb : v[P]? = some v[P] := List.getElem?_eq_getElem hPlt
    unfold link_previous
    split
    · rename_i hc
      exact Or.inr ⟨_, _, _, P, by decide, by decide, rfl, by omega, hb,
        vec_or_pair_eq v I P a _ _ _ (by omega) ha hb⟩
    · split
      · rename_i hc
        exact Or.inr ⟨_, _, _, P, by decide, by decide, rfl, by omega, hb,
          vec_or_pair_eq v I P a _ _ _ (by omega) ha hb⟩
      · split
        · rename_i hc
          exact Or.inr ⟨_, _, _, P, by decide, by decide, rfl, by omega, hb,
            vec_or_pair_eq v I P a _ _ _ (by omega) ha hb⟩
        · split
          · rename_i hc
            exact Or.inr ⟨_, _, _, P, by decide, by decide, rfl, by omega, hb,
              vec_or_pair_eq v I P a _ _ _ (by omega) ha hb⟩
          · exact Or.inl rfl
theorem direction_flags_lt : ∀ f ∈ direction_flags, f < 32 := by
  decide

/-- Processing a point inside the grid keeps the invariant `records_ok`. -/
theorem records_ok_inside (grid : grid_t) (p : point_t) (rest : List point_t)
    (v : List Nat) (prev : Int) (hp : inside_grid grid p) (hr : records_ok grid v prev) :
    ∃ v₁, compute_intersections_loop grid (p :: rest) v prev =
        compute_intersections_loop grid rest v₁ (grid.index_of p) ∧
      records_ok grid v₁ (grid.index_of p) := by
  obtain ⟨hv, hall, hprev⟩ := hr
  have hi0 := index_of_nonneg grid p hp
  have hi1 := index_of_lt grid p hp
  have hw : 0 < grid.width := by
    obtain ⟨hx0, hx1, _, _⟩ := hp
    omega
  obtain ⟨I, hI⟩ : ∃ I : Nat, grid.index_of p = (I : Int) :=
    ⟨(grid.index_of p).toNat, by omega⟩
  have hIlt : I < v.length := by
    have : (I : Int) < (v.length : Int) := by rw [hv.1]; omega
    omega
  have hmarked : intersections_ok grid (v.set I intersection_t.visited) :=
    ⟨by rw [List.length_set]; exact hv.1, set_values_lt v _ _ hv.2 (by decide)⟩
  have hmI : (v.set I intersection_t.visited)[I]? = some intersection_t.visited :=
    List.getElem?_set_self hIlt
  have hprev' : prev_ok grid prev := by
    rcases hprev with h | ⟨h0, h1, _⟩
    · exact Or.inl h
    · exact Or.inr ⟨h0, h1⟩
  have hstep : ∀ v₁, link_previous grid p (v.set I intersection_t.visited) (I : Int) prev =
      some v₁ → compute_intersections_loop grid (p :: rest) v prev =
        compute_intersections_loop grid rest v₁ (I : Int) := by
    intro v₁ hlink
    rw [compute_intersections_loop_inside grid p rest v prev hp, hI,
      vec_set_of_range v _ _ (by omega) (by omega)]
    simp only [Int.toNat_ofNat]
    rw [hlink]
  rw [hI]
  rcases link_previous_cases grid p _ prev I _ hp hmarked hprev' hI hmI with
    hsame | ⟨f₁, f₂, b, P, hf₁, hf₂, hP, hPI, hb, hlink⟩
  · refine ⟨_, hstep _ hsame, hmarked, ?_, Or.inr ⟨by omega, by omega, ?_⟩⟩
    · intro j value hj
      by_cases hjI : j = I
      · rw [hjI, hmI] at hj
        simp only [Option.some.injEq] at hj
        rw [← hj]
        exact record_ok_of_fresh _ (by decide) fresh_record_visited
      · rw [List.getElem?_set_ne (by omega)] at hj
        exact hall j value hj
    · rw [Int.toNat_ofNat]
      exact ⟨_, hmI, fresh_record_visited⟩
  · have hbv : v[P]? = some b := by
      rw [List.getElem?_set_ne (by omega)] at hb
      exact hb
    have hblt : b < 32 := hv.2 b (List.getElem?_mem hbv)
    have hbfresh : fresh_record b := by
      rcases hprev with hsent | ⟨_, _, value, hvalue, hfresh⟩
      · omega
      · rw [hP, Int.toNat_ofNat, hbv] at hvalue
        simp only [Option.some.injEq] at hvalue
        rw [hvalue]
        exact hfresh
    have hPlt : P < v.length := (List.getElem?_eq_some.mp hbv).1
    refine ⟨_, hstep _ hlink, ⟨?_, ?_⟩, ?_, Or.inr ⟨by omega, by omega, ?_⟩⟩
    · simp only [List.length_set]
      exact hv.1
    · apply set_values_lt _ _ _ _ (flags_lt_32 _ _ hblt (direction_flags_lt f₂ hf₂))
      exact set_values_lt _ _ _ hmarked.2
        (flags_lt_32 _ _ (by decide) (direction_flags_lt f₁ hf₁))
    · intro j value hj
      by_cases hjP : j = P
      · rw [hjP, List.getElem?_set_self (by simp only [List.length_set]; omega)] at hj
        simp only [Option.some.injEq] at hj
        rw [← hj]
        exact fresh_record_or b hblt f₂ hf₂ hbfresh
      · rw [List.getElem?_set_ne (by omega)] at hj
        by_cases hjI : j = I
        · rw [hjI, List.getElem?_set_self (by simp only [List.length_set]; omega)] at hj
          simp only [Option.some.injEq] at hj
          rw [← hj]
          exact record_ok_of_fresh _
            (flags_lt_32 _ _ (by decide) (direction_flags_lt f₁ hf₁))
            (fresh_record_visited_or f₁ hf₁)
        · rw [List.getElem?_set_ne (by omega), List.getElem?_set_ne (by omega)] at hj
          exact hall j value hj
    · rw [Int.toNat_ofNat, List.getElem?_set_ne (by omega),
        List.getElem?_set_self (by simp only [List.length_set]; omega)]
      exact ⟨_, rfl, fresh_record_visited_or f₁ hf₁⟩

theorem compute_intersections_loop_records (grid : grid_t) :
    ∀ (path : List point_t) (v : List Nat) (prev : Int), records_ok grid v prev →
      ∃ v', compute_intersections_loop grid path v prev = some v' ∧
        ∀ (j : Nat) value, v'[j]? = some value → record_ok value := by
  intro path
  induction path with
  | nil =>
    intro v prev hr
    exact ⟨v, rfl, hr.2.1⟩
  | cons p rest ih =>
    intro v prev hr
    by_cases hp : inside_grid grid p
    · obtain ⟨v₁, hstep, hr₁⟩ := records_ok_inside grid p rest v prev hp hr
      rw [hstep]
      exact ih v₁ _ hr₁
    · rw [compute_intersections_loop_outside grid p rest v prev hp]
      exact ih v _ ⟨hr.1, hr.2.1, Or.inl rfl⟩

/-- Every record `compute_intersections` produces is 0 or Visited with at most
two direction flags. -/
theorem compute_intersections_records (grid : grid_t) (path : List point_t) (v : List Nat)
    (h : compute_intersections grid path = some v) :
    ∀ value ∈ v, record_ok value := by
  unfold compute_intersections at h
  split at h
  · exact absurd h (by simp)
  · obtain ⟨v', hv', hall⟩ := compute_intersections_loop_records grid path
      (List.replicate (grid.width * grid.height).toNat 0) (-(grid.width + 1))
      ⟨⟨List.length_replicate _ _, by
          intro b hb
          rw [(List.mem_replicate.mp hb).2]
          decide⟩, by
        intro j value hj
        rw [(List.mem_replicate.mp (List.getElem?_mem hj)).2]
        exact Or.inl rfl, Or.inl rfl⟩
    rw [hv'] at h
    simp only [Option.some.injEq] at h
    subst h
    intro value hvalue
    obtain ⟨j, hj⟩ := List.getElem?_of_mem hvalue
    exact hall j value hj

theorem print_cell_cases (grid : grid_t) (v : List Nat) (x y : Int) (c : Char)
    (h : print_cell grid v x y = some c) :
    c = 's' ∨ c = 't' ∨ c = '#' ∨ c = 'X' ∨
      ∃ value, vec_at v (grid.index_of ⟨x, y⟩) = some value ∧ glyph_of value = some c := by
  unfold print_cell at h
  dsimp only at h
  split at h
  · exact absurd h (by simp)
  · split at h
    · simp only [Option.some.injEq] at h
      exact Or.inl h.symm
    · split at h
      · simp only [Option.some.injEq] at h
        exact Or.inr (Or.inl h.symm)
      · split at h
        · exact absurd h (by simp)
        · rename_i value hvalue
          exact Or.inr (Or.inr (Or.inr (Or.inr ⟨value, hvalue, h⟩)))
  · split at h
    · exact absurd h (by simp)
    · simp only [Option.some.injEq] at h
      split at h
      · exact Or.inr (Or.inr (Or.inl h.symm))
      · exact Or.inr (Or.inr (Or.inr (Or.inl h.symm)))

/-- C19. On a grid of non-negative dimensions with exactly `width * height`
cells, for every path (traced or not), each record `compute_intersections`
produces is 0 or has Visited set together with at most two direction flags; each
is below 32, so the glyph table is indexed in range, and `?` occurs nowhere in the
output of `print_path`. -/
theorem intersections_two_directions (grid : grid_t) (path : List point_t)
    (hw : 0 ≤ grid.width) (hh : 0 ≤ grid.height) (hlen : cells_sized grid) :
    ∃ v out, compute_intersections grid path = some v ∧
      print_path grid path = some out ∧
      (∀ value ∈ v, value = 0 ∨
        (value &&& intersection_t.visited ≠ 0 ∧ direction_count value ≤ 2)) ∧
      (∀ value ∈ v, value < 32 ∧ ∃ c, glyph_of value = some c ∧ c ≠ '?') ∧
      '?' ∉ out := by
  obtain ⟨v, hci, hv, hout⟩ := print_path_eq grid path hw hh hlen
  have hrec := compute_intersections_records grid path v hci
  refine ⟨v, _, hci, hout, hrec, ?_, ?_⟩
  · intro value hvalue
    have hlt := hv.2 value hvalue
    obtain ⟨c, hc, _⟩ := intersection_graphics_defined value hlt
    refine ⟨hlt, c, hc, ?_⟩
    intro hq
    rw [hq] at hc
    exact record_ok_glyph value hlt (hrec value hvalue) hc
  · intro hmem
    rcases mem_glyph_rows grid v '?' hlen hv hmem with hnl | ⟨x, y, hin, hprint⟩
    · exact absurd hnl (by decide)
    · rcases print_cell_cases grid v x y '?' hprint with h | h | h | h | ⟨value, hvalue, hg⟩
      · exact absurd h (by decide)
      · exact absurd h (by decide)
      · exact absurd h (by decide)
      · exact absurd h (by decide)
      · have hi0 := index_of_nonneg grid _ hin
        rw [vec_at_of_nonneg v _ hi0] at hvalue
        have hvm := List.getElem?_mem hvalue
        exact record_ok_glyph value (hv.2 value hvm) (hrec value hvm) hg

/-- C19, witness: the maze `s t` with a path that goes right and comes back. -/
theorem intersections_two_directions_witness :
    ∃ v out, compute_intersections grid_s_t [⟨0, 0⟩, ⟨1, 0⟩, ⟨2, 0⟩, ⟨1, 0⟩] = some v ∧
      print_path grid_s_t [⟨0, 0⟩, ⟨1, 0⟩, ⟨2, 0⟩, ⟨1, 0⟩] = some out ∧
      (∀ value ∈ v, value = 0 ∨
        (value &&& intersection_t.visited ≠ 0 ∧ direction_count value ≤ 2)) ∧
      (∀ value ∈ v, value < 32 ∧ ∃ c, glyph_of value = some c ∧ c ≠ '?') ∧
      '?' ∉ out :=
  intersections_two_directions grid_s_t [⟨0, 0⟩, ⟨1, 0⟩, ⟨2, 0⟩, ⟨1, 0⟩] (by decide)
    (by decide) (by unfold cells_sized; decide)
/-! ## compute_intersections: the links between consecutive points -/

theorem and_or_ne_zero (a g f : Nat) (h : a &&& f ≠ 0) : (a ||| g) &&& f ≠ 0 := by
  obtain ⟨i, hi⟩ := Nat.ne_zero_implies_bit_true h
  intro hzero
  have hbit : ((a ||| g) &&& f).testBit i = true := by
    rw [Nat.testBit_and] at hi ⊢
    rw [Nat.testBit_or]
    simp only [Bool.and_eq_true] at hi
    simp [hi.1, hi.2]
  rw [hzero] at hbit
  simp at hbit

theorem or_and_self_ne_zero (a f : Nat) (hf : f ≠ 0) : (a ||| f) &&& f ≠ 0 := by
  have h : f &&& f ≠ 0 := by
    rw [Nat.and_self]
    exact hf
  have := and_or_ne_zero f a f h
  rwa [Nat.or_comm] at this

theorem vec_set_at_self {α : Type} (v v' : List α) (i : Int) (a : α)
    (h : vec_set v i a = some v') : vec_at v' i = some a := by
  unfold vec_set at h
  split at h
  · rename_i hi
    simp only [Option.some.injEq] at h
    subst h
    rw [vec_at_of_nonneg _ _ hi.1]
    exact List.getElem?_set_self hi.2
  · exact absurd h (by simp)

theorem vec_set_at_ne {α : Type} (v v' : List α) (i j : Int) (a : α)
    (h : vec_set v i a = some v') (hij : j ≠ i) : vec_at v' j = vec_at v j := by
  by_cases hj : 0 ≤ j
  · rw [vec_at_of_nonneg _ _ hj, vec_at_of_nonneg _ _ hj]
    exact vec_set_frame v v' i a j.toNat h (by omega)
  · unfold vec_at
    rw [if_neg hj, if_neg hj]

theorem vec_or_keeps_flag (v v' : List Nat) (i j : Int) (g f : Nat)
    (h : vec_or v i g = some v') (hf : has_flag v j f) : has_flag v' j f := by
  obtain ⟨value, hvalue, hbit⟩ := hf
  unfold vec_or at h
  split at h
  · exact absurd h (by simp)
  · rename_i a ha
    by_cases hij : j = i
    · subst hij
      rw [ha] at hvalue
      simp only [Option.some.injEq] at hvalue
      subst hvalue
      exact ⟨_, vec_set_at_self v v' j _ h, and_or_ne_zero _ g f hbit⟩
    · exact ⟨value, by rw [vec_set_at_ne v v' i j _ h hij]; exact hvalue, hbit⟩

theorem vec_or_pair_keeps_flag (v v' : List Nat) (i₁ i₂ j : Int) (g₁ g₂ f : Nat)
    (h : vec_or_pair v i₁ g₁ i₂ g₂ = some v') (hf : has_flag v j f) : has_flag v' j f := by
  unfold vec_or_pair at h
  split at h
  · exact absurd h (by simp)
  · rename_i v₁ h₁
    exact vec_or_keeps_flag v₁ v' i₂ j g₂ f h (vec_or_keeps_flag v v₁ i₁ j g₁ f h₁ hf)

theorem link_previous_keeps_flag (grid : grid_t) (p : point_t) (v v' : List Nat)
    (idx prev j : Int) (f : Nat) (h : link_previous grid p v idx prev = some v')
    (hf : has_flag v j f) : has_flag v' j f := by
  unfold link_previous at h
  split at h
  · exact vec_or_pair_keeps_flag v v' _ _ j _ _ f h hf
  · split at h
    · exact vec_or_pair_keeps_flag v v' _ _ j _ _ f h hf
    · split at h
      · exact vec_or_pair_keeps_flag v v' _ _ j _ _ f h hf
      · split at h
        · exact vec_or_pair_keeps_flag v v' _ _ j _ _ f h hf
        · simp only [Option.some.injEq] at h
          rw [← h]
          exact hf

/-- A flag set in the record of a cell stays set as long as the path does not
visit that cell again. -/
theorem compute_intersections_loop_keeps_flag (grid : grid_t) (j : Int) (f : Nat) :
    ∀ (path : List point_t) (v v' : List Nat) (prev : Int),
      compute_intersections_loop grid path v prev = some v' →
      (∀ r ∈ path, inside_grid grid r → grid.index_of r ≠ j) →
      has_flag v j f → has_flag v' j f := by
  intro path
  induction path with
  | nil =>
    intro v v' prev h _ hf
    rw [compute_intersections_loop] at h
    simp only [Option.some.injEq] at h
    rw [← h]
    exact hf
  | cons r rest ih =>
    intro v v' prev h hpath hf
    have hrest : ∀ q ∈ rest, inside_grid grid q → grid.index_of q ≠ j :=
      fun q hq => hpath q (List.mem_cons_of_mem _ hq)
    by_cases hr : inside_grid grid r
    · have hidx := hpath r (List.mem_cons_self _ _) hr
      rw [compute_intersections_loop_inside grid r rest v prev hr] at h
      split at h
      · exact absurd h (by simp)
      · rename_i marked hmarked
        split at h
        · exact absurd h (by simp)
        · rename_i linked hlinked
          apply ih linked v' _ h hrest
          apply link_previous_keeps_flag grid r marked linked _ prev j f hlinked
          obtain ⟨value, hvalue, hbit⟩ := hf
          exact ⟨value, by rw [vec_set_at_ne v marked _ j _ hmarked (Ne.symm hidx)]; exact hvalue,
            hbit⟩
    · rw [compute_intersections_loop_outside grid r rest v prev hr] at h
      exact ih v v' _ h hrest hf
theorem flag_toward_ne_zero (p q : point_t) : flag_toward p q ≠ 0 := by
  unfold flag_toward
  split
  · decide
  · split
    · decide
    · split <;> decide

/-- Processing a point inside the grid: the loop goes on with a well-formed
intersection vector and that point's index as `prev_grid_index`. -/
theorem compute_intersections_loop_step (grid : grid_t) (r : point_t) (v : List Nat)
    (prev : Int) (hr : inside_grid grid r) (hv : intersections_ok grid v)
    (hprev : prev_ok grid prev) :
    ∃ v₁, intersections_ok grid v₁ ∧
      ∀ rest, compute_intersections_loop grid (r :: rest) v prev =
        compute_intersections_loop grid rest v₁ (grid.index_of r) := by
  have hi0 := index_of_nonneg grid r hr
  have hi1 := index_of_lt grid r hr
  have hlen : grid.index_of r < (v.length : Int) := by rw [hv.1]; omega
  have hmarked : intersections_ok grid (v.set (grid.index_of r).toNat intersection_t.visited) :=
    ⟨by rw [List.length_set]; exact hv.1, set_values_lt v _ _ hv.2 (by decide)⟩
  obtain ⟨linked, hlink, hlinked⟩ := link_previous_ok grid r _ prev hr hmarked hprev
  refine ⟨linked, hlinked, ?_⟩
  intro rest
  rw [compute_intersections_loop_inside grid r rest v prev hr,
    vec_set_of_range v _ _ hi0 hlen]
  dsimp only
  rw [hlink]

/-- The state of the loop of `compute_intersections` after a prefix of the path. -/
theorem compute_intersections_loop_append (grid : grid_t) :
    ∀ (pre : List point_t) (v : List Nat) (prev : Int), intersections_ok grid v →
      prev_ok grid prev →
      ∃ v₁ prev₁, intersections_ok grid v₁ ∧ prev_ok grid prev₁ ∧
        ∀ rest, compute_intersections_loop grid (pre ++ rest) v prev =
          compute_intersections_loop grid rest v₁ prev₁ := by
  intro pre
  induction pre with
  | nil =>
    intro v prev hv hprev
    exact ⟨v, prev, hv, hprev, fun _ => rfl⟩
  | cons r pre ih =>
    intro v prev hv hprev
    by_cases hr : inside_grid grid r
    · obtain ⟨v₁, hv₁, hstep⟩ := compute_intersections_loop_step grid r v prev hr hv hprev
      obtain ⟨v₂, prev₂, hv₂, hprev₂, hrest⟩ := ih v₁ (grid.index_of r) hv₁
        (Or.inr ⟨index_of_nonneg grid r hr, index_of_lt grid r hr⟩)
      exact ⟨v₂, prev₂, hv₂, hprev₂, fun rest => by
        rw [List.cons_append, hstep, hrest]⟩
    · obtain ⟨v₂, prev₂, hv₂, hprev₂, hrest⟩ := ih v (-(grid.width + 1)) hv (Or.inl rfl)
      exact ⟨v₂, prev₂, hv₂, hprev₂, fun rest => by
        rw [List.cons_append, compute_intersections_loop_outside grid r _ v prev hr, hrest]⟩

/-- When the point processed is an orthogonal neighbour of the point before it,
the chain of `link_previous` adds to each of the two records the flag that points
to the other. -/
theorem link_previous_adjacent (grid : grid_t) (p q : point_t) (v : List Nat)
    (Ip Iq a b : Nat) (hp : inside_grid grid p) (hq : inside_grid grid q)
    (hadj : adjacent p q) (hIp : grid.index_of p = (Ip : Int))
    (hIq : grid.index_of q = (Iq : Int)) (ha : v[Iq]? = some a) (hb : v[Ip]? = some b) :
    Ip ≠ Iq ∧
      link_previous grid q v (Iq : Int) (Ip : Int) =
        some ((v.set Iq (a ||| flag_toward q p)).set Ip (b ||| flag_toward p q)) := by
  obtain ⟨hpx0, hpx1, hpy0, hpy1⟩ := hp
  obtain ⟨hqx0, hqx1, hqy0, hqy1⟩ := hq
  have hcases : (q.x = p.x + 1 ∧ q.y = p.y) ∨ (q.x + 1 = p.x ∧ q.y = p.y) ∨
      (q.y = p.y + 1 ∧ q.x = p.x) ∨ (q.y + 1 = p.y ∧ q.x = p.x) := by
    unfold adjacent at hadj
    omega
  unfold grid_t.index_of at hIp hIq
  rcases hcases with ⟨hx, hy⟩ | ⟨hx, hy⟩ | ⟨hy, hx⟩ | ⟨hy, hx⟩
  · have hrel : (Iq : Int) = (Ip : Int) + 1 := by
      rw [← hIq, ← hIp, hx, hy]
      ring
    have hL : link_previous grid q v (Iq : Int) (Ip : Int) =
        vec_or_pair v (Iq : Int) intersection_t.left (Ip : Int) intersection_t.right := by
      unfold link_previous
      rw [if_neg (by omega), if_neg (by omega), if_pos ⟨by omega, by omega⟩]
    have hF₁ : flag_toward q p = intersection_t.left := by
      unfold flag_toward
      rw [if_neg (by omega), if_pos (by omega)]
    have hF₂ : flag_toward p q = intersection_t.right := by
      unfold flag_toward
      rw [if_pos (by omega)]
    rw [hL, hF₁, hF₂]
    exact ⟨by omega, vec_or_pair_eq v Iq Ip a b _ _ (by omega) ha hb⟩
  · have hrel : (Iq : Int) = (Ip : Int) - 1 := by
      have : p.x = q.x + 1 := by omega
      rw [← hIq, ← hIp, this, hy]
      ring
    have hL : link_previous grid q v (Iq : Int) (Ip : Int) =
        vec_or_pair v (Iq : Int) intersection_t.right (Ip : Int) intersection_t.left := by
      unfold link_previous
      rw [if_neg (by omega), if_pos ⟨by omega, by omega⟩]
    have hF₁ : flag_toward q p = intersection_t.right := by
      unfold flag_toward
      rw [if_pos (by omega)]
    have hF₂ : flag_toward p q = intersection_t.left := by
      unfold flag_toward
      rw [if_neg (by omega), if_pos (by omega)]
    rw [hL, hF₁, hF₂]
    exact ⟨by omega, vec_or_pair_eq v Iq Ip a b _ _ (by omega) ha hb⟩
  · have hrel : (Iq : Int) = (Ip : Int) + grid.width := by
      rw [← hIq, ← hIp, hx, hy]
      ring
    have hL : link_previous grid q v (Iq : Int) (Ip : Int) =
        vec_or_pair v (Iq : Int) intersection_t.up (Ip : Int) intersection_t.down := by
      unfold link_previous
      rw [if_neg (by omega), if_neg (by omega), if_neg (by omega), if_pos (by omega)]
    have hF₁ : flag_toward q p = intersection_t.up := by
      unfold flag_toward
      rw [if_neg (by omega), if_neg (by omega), if_neg (by omega)]
    have hF₂ : flag_toward p q = intersection_t.down := by
      unfold flag_toward
      rw [if_neg (by omega), if_neg (by omega), if_pos (by omega)]
    rw [hL, hF₁, hF₂]
    exact ⟨by omega, vec_or_pair_eq v Iq Ip a b _ _ (by omega) ha hb⟩
  · have hrel : (Iq : Int) = (Ip : Int) - grid.width := by
      have : p.y = q.y + 1 := by omega
      rw [← hIq, ← hIp, hx, this]
      ring
    have hL : link_previous grid q v (Iq : Int) (Ip : Int) =
        vec_or_pair v (Iq : Int) intersection_t.down (Ip : Int) intersection_t.up := by
      unfold link_previous
      rw [if_pos (by omega)]
    have hF₁ : flag_toward q p = intersection_t.down := by
      unfold flag_toward
      rw [if_neg (by omega), if_neg (by omega), if_pos (by omega)]
    have hF₂ : flag_toward p q = intersection_t.up := by
      unfold flag_toward
      rw [if_neg (by omega), if_neg (by omega), if_neg (by omega)]
    rw [hL, hF₁, hF₂]
    exact ⟨by omega, vec_or_pair_eq v Iq Ip a b _ _ (by omega) ha hb⟩
/-- C15, counterexample. On the 3x1 grid of the maze `s t` the path
`(0,0), (1,0), (2,0), (1,0)` has the consecutive, in-bounds, adjacent pair
`(0,0), (1,0)`, yet the final record of `(1,0)` is 20, Visited+Right: the second
visit of `(1,0)` reset it, and the Left flag toward `(0,0)` is gone. -/
theorem revisit_resets_record :
    compute_intersections grid_s_t [⟨0, 0⟩, ⟨1, 0⟩, ⟨2, 0⟩, ⟨1, 0⟩] = some [20, 20, 18] ∧
      inside_grid grid_s_t ⟨0, 0⟩ ∧ inside_grid grid_s_t ⟨1, 0⟩ ∧
      adjacent ⟨0, 0⟩ ⟨1, 0⟩ ∧
      flag_toward ⟨1, 0⟩ ⟨0, 0⟩ = intersection_t.left ∧
      ¬ has_flag [20, 20, 18] (grid_s_t.index_of ⟨1, 0⟩) (flag_toward ⟨1, 0⟩ ⟨0, 0⟩) := by
  refine ⟨by decide, by unfold inside_grid; decide, by unfold inside_grid; decide,
    by unfold adjacent; decide, by decide, ?_⟩
  intro ⟨value, hvalue, hbit⟩
  have hat : vec_at [20, 20, 18] (grid_s_t.index_of ⟨1, 0⟩) = some 20 := by decide
  rw [hat] at hvalue
  simp only [Option.some.injEq] at hvalue
  subst hvalue
  exact hbit (by decide)

/-- C15, amended. For every grid and every path, for each pair of consecutive
path elements `p`, `q` that are both in bounds and orthogonally adjacent, the
final record of `p` has the direction flag pointing toward `q` set when `p` does
not occur again later in the path, and the final record of `q` has the flag
pointing toward `p` set when `q` does not occur again later in the path. -/
theorem compute_intersections_links (grid : grid_t) (pre post : List point_t)
    (p q : point_t) (hp : inside_grid grid p) (hq : inside_grid grid q)
    (hadj : adjacent p q) :
    ∃ v, compute_intersections grid (pre ++ p :: q :: post) = some v ∧
      (p ∉ post → has_flag v (grid.index_of p) (flag_toward p q)) ∧
      (q ∉ post → has_flag v (grid.index_of q) (flag_toward q p)) := by
  have hnonneg : 0 ≤ grid.width * grid.height := by
    obtain ⟨hx0, hx1, hy0, hy1⟩ := hp
    exact mul_nonneg (by omega) (by omega)
  have hv₀ : intersections_ok grid (List.replicate (grid.width * grid.height).toNat 0) := by
    refine ⟨List.length_replicate _ _, ?_⟩
    intro b hb
    rw [(List.mem_replicate.mp hb).2]
    decide
  obtain ⟨v₁, prev₁, hv₁, hprev₁, hpre⟩ :=
    compute_intersections_loop_append grid pre _ (-(grid.width + 1)) hv₀ (Or.inl rfl)
  obtain ⟨v₂, hv₂, hstep_p⟩ := compute_intersections_loop_step grid p v₁ prev₁ hp hv₁ hprev₁
  have hp0 := index_of_nonneg grid p hp
  have hp1 := index_of_lt grid p hp
  have hq0 := index_of_nonneg grid q hq
  have hq1 := index_of_lt grid q hq
  obtain ⟨Ip, hIp⟩ : ∃ I : Nat, grid.index_of p = (I : Int) :=
    ⟨(grid.index_of p).toNat, by omega⟩
  obtain ⟨Iq, hIq⟩ : ∃ I : Nat, grid.index_of q = (I : Int) :=
    ⟨(grid.index_of q).toNat, by omega⟩
  have hIplt : Ip < v₂.length := by
    have : (Ip : Int) < (v₂.length : Int) := by rw [hv₂.1]; omega
    omega
  have hIqlt : Iq < v₂.length := by
    have : (Iq : Int) < (v₂.length : Int) := by rw [hv₂.1]; omega
    omega
  have hmarked : intersections_ok grid (v₂.set Iq intersection_t.visited) :=
    ⟨by rw [List.length_set]; exact hv₂.1, set_values_lt v₂ _ _ hv₂.2 (by decide)⟩
  have ha : (v₂.set Iq intersection_t.visited)[Iq]? = some intersection_t.visited :=
    List.getElem?_set_self hIqlt
  obtain ⟨b, hb⟩ : ∃ b, (v₂.set Iq intersection_t.visited)[Ip]? = some b :=
    ⟨_, List.getElem?_eq_getElem (by rw [List.length_set]; exact hIplt)⟩
  obtain ⟨hne, hlink⟩ := link_previous_adjacent grid p q _ Ip Iq _ b hp hq hadj hIp hIq ha hb
  obtain ⟨v₃, hv₃def⟩ : ∃ v₃, v₃ =
      ((v₂.set Iq intersection_t.visited).set Iq
        (intersection_t.visited ||| flag_toward q p)).set Ip (b ||| flag_toward p q) :=
    ⟨_, rfl⟩
  rw [← hv₃def] at hlink
  have hstep_q : ∀ rest, compute_intersections_loop grid (q :: rest) v₂ (grid.index_of p) =
      compute_intersections_loop grid rest v₃ (Iq : Int) := by
    intro rest
    rw [compute_intersections_loop_inside grid q rest v₂ _ hq, hIq, hIp,
      vec_set_of_range v₂ _ _ (by omega) (by omega)]
    simp only [Int.toNat_ofNat]
    rw [hlink]
  have hv₃ : intersections_ok grid v₃ := by
    obtain ⟨v', hv', hok'⟩ := link_previous_ok grid q _ (Ip : Int) hq hmarked
      (Or.inr ⟨by omega, by omega⟩)
    rw [hIq, hlink] at hv'
    simp only [Option.some.injEq] at hv'
    rw [hv']
    exact hok'
  obtain ⟨v, hfinal, _⟩ := compute_intersections_loop_ok grid post v₃ (Iq : Int) hv₃
    (Or.inr ⟨by omega, by omega⟩)
  have hflag_p : has_flag v₃ (grid.index_of p) (flag_toward p q) := by
    refine ⟨_, ?_, or_and_self_ne_zero b _ (flag_toward_ne_zero p q)⟩
    rw [hIp, vec_at_nat, hv₃def]
    exact List.getElem?_set_self (by simp only [List.length_set]; exact hIplt)
  have hflag_q : has_flag v₃ (grid.index_of q) (flag_toward q p) := by
    refine ⟨_, ?_, or_and_self_ne_zero intersection_t.visited _ (flag_toward_ne_zero q p)⟩
    rw [hIq, vec_at_nat, hv₃def, List.getElem?_set_ne hne]
    exact List.getElem?_set_self (by simp only [List.length_set]; exact hIqlt)
  have hrun : compute_intersections grid (pre ++ p :: q :: post) = some v := by
    unfold compute_intersections
    rw [if_neg (by omega), hpre, hstep_p, hstep_q]
    exact hfinal
  refine ⟨v, hrun, ?_, ?_⟩
  · intro hnot
    apply compute_intersections_loop_keeps_flag grid _ _ post _ v _ hfinal ?_ hflag_p
    intro r hr hrin hidx
    exact hnot (by rw [← index_of_injective grid r p hrin hp hidx]; exact hr)
  · intro hnot
    apply compute_intersections_loop_keeps_flag grid _ _ post _ v _ hfinal ?_ hflag_q
    intro r hr hrin hidx
    exact hnot (by rw [← index_of_injective grid r q hrin hq hidx]; exact hr)

/-- C15, witness of the amended claim: the pair `(0,0), (1,0)` at the head of the
path `(0,0), (1,0), (2,0)` on the maze `s t`. -/
theorem compute_intersections_links_witness :
    ∃ v, compute_intersections grid_s_t ([] ++ ⟨0, 0⟩ :: ⟨1, 0⟩ :: [⟨2, 0⟩]) = some v ∧
      ((⟨0, 0⟩ : point_t) ∉ [(⟨2, 0⟩ : point_t)] →
        has_flag v (grid_s_t.index_of ⟨0, 0⟩) (flag_toward ⟨0, 0⟩ ⟨1, 0⟩)) ∧
      ((⟨1, 0⟩ : point_t) ∉ [(⟨2, 0⟩ : point_t)] →
        has_flag v (grid_s_t.index_of ⟨1, 0⟩) (flag_toward ⟨1, 0⟩ ⟨0, 0⟩)) :=
  compute_intersections_links grid_s_t [] [⟨2, 0⟩] ⟨0, 0⟩ ⟨1, 0⟩
    (by unfold inside_grid; decide) (by unfold inside_grid; decide)
    (by unfold adjacent; decide)

end PathFind
